import Mathlib

/-!
# Verification of the ghh_json hashmap, parser and serializer

Shallow embedding of `src/ghh_json.h` (single-header JSON library).

Modelling conventions:
* The target platform is 64-bit (`INTPTR_MAX == INT64_MAX`), so `json_hash_t`
  is `uint64_t` and `size_t` is 64 bits wide; machine integers are modelled as
  `Nat` with explicit `% W` (`W = 2^64`) at every operation where C wrap-around
  semantics matter (`++`/`--` on `size_t`, `<<`).
* A C string (`char *`) is modelled as the list of its bytes up to (and
  excluding) the terminating NUL, i.e. `List Nat` with entries in `1..255`.
  `char` is taken to be signed (as on x86-64 Linux), so a byte `b ≥ 128`
  enters the hash as the sign-extended value `2^64 - 256 + b`.
* Heap pointers disappear: a `json_hnode_t.object` pointer becomes `Option V`
  (`none` = `NULL`); the node table (a fat pointer) becomes a `List` whose
  length is the capacity.  Reads `nodes[i]` become `List.getD` (all reads in
  the source are in bounds when `nodes.length = cap`).
* The C probe loops (`json_hmap_get_node`, `json_hmap_put_node`,
  `json_hmap_del`) terminate only when the table has an empty slot on the
  probe path; they are modelled with an explicit fuel of `cap` probes (enough
  to visit every slot once).  A fuel-exhausted probe — which corresponds to a
  diverging C loop — yields `none` at the outer `Option` layer.
* `json_hmap_put` in the source declares `json_hnode_t node;` on the stack and
  never initialises `node.steps`; reading it is C undefined behaviour.  The
  model makes this explicit: `json_hmap_put` takes the indeterminate initial
  value of `node.steps` as an extra argument `garbage`.
-/

namespace GhhJson

/- `double` arithmetic is modelled exactly over `ℚ`.  The core rational
operations are `@[irreducible]`; concrete evaluations in witness theorems
need them reducible. -/
set_option allowUnsafeReducibility true

attribute [local semireducible] Rat.mul Rat.add Rat.neg Rat.sub Rat.inv

/-- Width of `uint64_t` / `size_t` on the modelled 64-bit platform. -/
def W : Nat := 2 ^ 64

/-- `#define JSON_FNV_PRIME 0x00000100000001b3` (64-bit branch). -/
def fnvPrime : Nat := 0x00000100000001b3

/-- `#define JSON_FNV_BASIS 0xcbf29ce484222325` (64-bit branch). -/
def fnvBasis : Nat := 0xcbf29ce484222325

/-- A C string: bytes before the terminating NUL. -/
abbrev Key := List Nat

/-- Value of `(uint64_t)(char)b` for a byte `b` when `char` is signed:
bytes `≥ 128` are sign-extended. -/
def signExtByte (b : Nat) : Nat :=
  if b < 128 then b else W - 256 + b

/-- `json_hash_str`: FNV-1a over the key bytes,
`hash = (hash ^ *str++) * JSON_FNV_PRIME` on `uint64_t`. -/
def json_hash_str (k : Key) : Nat :=
  k.foldl (fun h b => ((h ^^^ signExtByte b) * fnvPrime) % W) fnvBasis

/-- `json_hnode_t`: `{json_object_t *object; json_hash_t hash; size_t index, steps;}`.
`hash = 0` marks an empty slot. -/
structure Hnode (V : Type) where
  object : Option V
  hash : Nat
  index : Nat
  steps : Nat
  deriving DecidableEq, Repr

/-- A freshly allocated node slot: `json_hnodes_alloc` only zeroes `hash`;
the other fields of an empty slot are never read by the source, so the model
gives them fixed defaults. -/
def emptyNode {V : Type} : Hnode V := ⟨none, 0, 0, 0⟩

/-- `json_vec_t`: `{void **data; size_t size, cap, min_cap;}`.
`data` holds the `size` live elements; `size = data.length`. -/
structure Vec (K : Type) where
  data : List K
  cap : Nat
  min_cap : Nat
  deriving DecidableEq, Repr

/-- `json_vec_make`. -/
def json_vec_make (K : Type) (initCap : Nat) : Vec K :=
  { data := [], cap := initCap, min_cap := initCap }

/-- `json_vec_alloc_one`: grow (double `cap`) if `size + 1 > cap`. -/
def json_vec_alloc_one {K : Type} (v : Vec K) : Vec K :=
  if (v.data.length + 1) % W > v.cap then { v with cap := (v.cap * 2) % W } else v

/-- `json_vec_free_one`: shrink (halve `cap`) if `cap > min_cap ∧ size < cap/4`,
then `--size` (drop the last live element). -/
def json_vec_free_one {K : Type} (v : Vec K) : Vec K :=
  let v := if v.cap > v.min_cap ∧ v.data.length < v.cap / 4
    then { v with cap := v.cap / 2 } else v
  { v with data := v.data.dropLast }

/-- `json_vec_push`. -/
def json_vec_push {K : Type} (v : Vec K) (item : K) : Vec K :=
  let v := json_vec_alloc_one v
  { v with data := v.data ++ [item] }

/-- `json_vec_pop`: returns `data[size-1]`, then `json_vec_free_one`. -/
def json_vec_pop {K : Type} [Inhabited K] (v : Vec K) : K × Vec K :=
  (v.data.getD (v.data.length - 1) default, json_vec_free_one v)

/-- `json_vec_del` (unordered): overwrite slot `i` with the popped last
element.  The write lands beyond the live region when `i` was the last index,
which `List.set` mirrors as a no-op. -/
def json_vec_del {K : Type} [Inhabited K] (v : Vec K) (i : Nat) : K × Vec K :=
  let item := v.data.getD i default
  let (last, v') := json_vec_pop v
  (item, { v' with data := v'.data.set i last })

/-- `json_vec_del_ordered`: shift the later elements left by one
(the source uses a forward `memcpy` on overlapping regions; the model takes
the intended left-shift result), then `json_vec_free_one` — net effect on the
live region: remove index `i`. -/
def json_vec_del_ordered {K : Type} [Inhabited K] (v : Vec K) (i : Nat) : K × Vec K :=
  let item := v.data.getD i default
  let shifted := { v with data := v.data.take i ++ v.data.drop (i + 1) ++ v.data.getLast?.toList }
  -- after the shift the last slot still holds the old last element; free_one drops it
  (item, json_vec_free_one shifted)

/-- `json_hmap_t`: `{json_vec_t vec; json_hnode_t *nodes; size_t size, cap, min_cap;}`.
The key-order vector stores `char *` keys. -/
structure Hmap (V : Type) where
  vec : Vec Key
  nodes : List (Hnode V)
  size : Nat
  cap : Nat
  min_cap : Nat
  deriving DecidableEq, Repr

variable {V : Type}

/-- Read `nodes[i]` (in bounds whenever `nodes.length = cap`). -/
def nodeAt (nodes : List (Hnode V)) (i : Nat) : Hnode V :=
  nodes.getD i emptyNode

/-- `json_hmap_make` with `JSON_HMAP_INIT_CAP` nodes, all empty. -/
def json_hmap_make (V : Type) (initCap : Nat) : Hmap V :=
  { vec := json_vec_make Key initCap,
    nodes := List.replicate initCap emptyNode,
    size := 0, cap := initCap, min_cap := initCap }

/-- The probe loop of `json_hmap_put_node`: from slot `index`, advance while
the slot is occupied by a different hash, incrementing `steps`; on a matching
hash overwrite `object` in place (result flag `false`); on an empty slot store
the node with the accumulated `steps` (flag `true`, caller allocates a slot).
Fuel bounds the number of probes (`cap` visits every slot once); exhaustion
models the diverging C loop on a full table. -/
def probePut (cap : Nat) (node : Hnode V) :
    List (Hnode V) → Nat → Nat → Nat → Option (List (Hnode V) × Bool)
  | _, _, _, 0 => none
  | nodes, index, steps, fuel + 1 =>
    let cur := nodeAt nodes index
    if cur.hash = 0 then
      some (nodes.set index { node with steps := steps }, true)
    else if cur.hash = node.hash then
      some (nodes.set index { cur with object := node.object }, false)
    else
      probePut cap node nodes ((index + 1) % cap) (steps + 1) fuel

/-- The probe loop of `json_hmap_get_node`: stop at the first empty slot
(miss, `some none`) or the first slot with a matching hash (hit). -/
def probeGet (cap : Nat) (nodes : List (Hnode V)) (hash : Nat) :
    Nat → Nat → Option (Option (Hnode V))
  | _, 0 => none
  | index, fuel + 1 =>
    let cur := nodeAt nodes index
    if cur.hash = 0 then some none
    else if cur.hash = hash then some (some cur)
    else probeGet cap nodes hash ((index + 1) % cap) fuel

/-- The find loop of `json_hmap_del`: `while (nodes[index].hash != hash)`,
so the match test comes first — an empty slot is "found" when `hash = 0`. -/
def probeDel (cap : Nat) (nodes : List (Hnode V)) (hash : Nat) :
    Nat → Nat → Option (Option Nat)
  | _, 0 => none
  | index, fuel + 1 =>
    if (nodeAt nodes index).hash = hash then some (some index)
    else if (nodeAt nodes index).hash = 0 then some none
    else probeDel cap nodes hash ((index + 1) % cap) fuel

/-- The backward-shift loop of `json_hmap_del`: scan forward from the vacated
slot `last`; move a node back into the vacancy when its recorded `steps`
survives the shift distance (`nodes[index].steps >= ++steps`), decrementing
its `steps` by that distance; stop at the first empty slot and zero the final
vacancy's hash. -/
def shiftLoop (cap : Nat) :
    List (Hnode V) → Nat → Nat → Nat → Nat → Option (List (Hnode V))
  | _, _, _, _, 0 => none
  | nodes, last, steps, index, fuel + 1 =>
    let index' := (index + 1) % cap
    let cur := nodeAt nodes index'
    if cur.hash = 0 then
      some (nodes.set last { nodeAt nodes last with hash := 0 })
    else
      let steps' := steps + 1
      if steps' ≤ cur.steps then
        shiftLoop cap (nodes.set last { cur with steps := cur.steps - steps' })
          index' 0 index' fuel
      else
        shiftLoop cap nodes last steps' index' fuel

/-- `json_hmap_put_node` with the slot allocator abstracted: probe (see
`probePut`); a fresh insertion is followed by the given `alloc`. -/
def putNodeWith (alloc : Hmap V → Option (Hmap V)) (h : Hmap V)
    (node : Hnode V) : Option (Hmap V) :=
  match probePut h.cap node h.nodes node.index node.steps h.cap with
  | none => none
  | some (nodes', inserted) =>
    if inserted then alloc { h with nodes := nodes' }
    else some { h with nodes := nodes' }

/-- The re-insertion loop of `json_hmap_rehash` with the slot allocator
abstracted. -/
def rehashListWith (alloc : Hmap V → Option (Hmap V)) :
    List (Hnode V) → Hmap V → Option (Hmap V)
  | [], h => some h
  | n :: rest, h =>
    if n.hash ≠ 0 then
      match putNodeWith alloc h { n with index := n.hash % h.cap, steps := 0 } with
      | none => none
      | some h' => rehashListWith alloc rest h'
    else rehashListWith alloc rest h

/-- `json_hmap_alloc_slot`: grow (rehash at double capacity) when
`size + 1 > cap >> 1` (on `size_t`), then `++size`.  `rfuel` bounds the
rehash recursion depth (the C recursion is unbounded; each level consumes
one unit). -/
def allocSlotF : Nat → Hmap V → Option (Hmap V)
  | 0, h =>
    if (h.size + 1) % W > h.cap / 2 then none
    else some { h with size := (h.size + 1) % W }
  | rf + 1, h =>
    if (h.size + 1) % W > h.cap / 2 then
      match rehashListWith (allocSlotF rf) h.nodes { h with cap := (h.cap * 2) % W, nodes := List.replicate ((h.cap * 2) % W) emptyNode, size := 0 } with
      | none => none
      | some h2 => some { h2 with size := (h2.size + 1) % W }
    else some { h with size := (h.size + 1) % W }

/-- `json_hmap_put_node`: probe (see `probePut`); a fresh insertion is followed
by `json_hmap_alloc_slot`. -/
def putNodeF (rfuel : Nat) (h : Hmap V) (node : Hnode V) : Option (Hmap V) :=
  match probePut h.cap node h.nodes node.index node.steps h.cap with
  | none => none
  | some (nodes', inserted) =>
    if inserted then allocSlotF rfuel { h with nodes := nodes' }
    else some { h with nodes := nodes' }

/-- The re-insertion loop of `json_hmap_rehash`: each occupied old node is
re-put with `index = hash % cap` (the *current* capacity, reread every
iteration) and `steps = 0`. -/
def rehashListF (rfuel : Nat) : List (Hnode V) → Hmap V → Option (Hmap V)
  | [], h => some h
  | n :: rest, h =>
    if n.hash ≠ 0 then
      match putNodeF rfuel h { n with index := n.hash % h.cap, steps := 0 } with
      | none => none
      | some h' => rehashListF rfuel rest h'
    else rehashListF rfuel rest h

/-- `json_hmap_rehash`: install a fresh empty table of `newCap` nodes with
`size = 0`, then re-insert every occupied old slot. -/
def rehashF (rfuel : Nat) (h : Hmap V) (newCap : Nat) : Option (Hmap V) :=
  rehashListF rfuel h.nodes
    { h with cap := newCap, nodes := List.replicate newCap emptyNode, size := 0 }

/-- `json_hmap_free_slot`: shrink (rehash at half capacity) when
`size < cap >> 2 ∧ cap > min_cap`, then `--size` (wrapping on `size_t`). -/
def freeSlotF (rfuel : Nat) (h : Hmap V) : Option (Hmap V) :=
  if h.size < h.cap / 4 ∧ h.cap > h.min_cap then
    match rehashF rfuel h (h.cap / 2) with
    | none => none
    | some h2 => some { h2 with size := (h2.size + (W - 1)) % W }
  else some { h with size := (h.size + (W - 1)) % W }

/-- `json_hmap_put`: push the key on the key-order vector (unconditionally,
even for duplicate keys), build the stack node — whose `steps` field the
source leaves uninitialised, modelled by the explicit `garbage` argument —
and `json_hmap_put_node` it. -/
def json_hmap_put (h : Hmap V) (key : Key) (object : V) (garbage : Nat) :
    Option (Hmap V) :=
  let h1 := { h with vec := json_vec_push h.vec key }
  let hs := json_hash_str key
  putNodeF h1.cap h1 ⟨some object, hs, hs % h1.cap, garbage⟩

/-- `json_hmap_get_node` (outer `Option` = probe termination). -/
def json_hmap_get_node (h : Hmap V) (hash : Nat) : Option (Option (Hnode V)) :=
  probeGet h.cap h.nodes hash (hash % h.cap) h.cap

/-- `json_hmap_get`: `node ? node->object : NULL`. -/
def json_hmap_get (h : Hmap V) (key : Key) : Option (Option V) :=
  (json_hmap_get_node h (json_hash_str key)).map (fun res => res.bind (·.object))

/-- Key removal at the end of `json_hmap_del`: linear scan for the first
`strcmp`-equal key, removed in ordered or unordered mode. -/
def vecRemoveKey (v : Vec Key) (key : Key) (order : Bool) : Vec Key :=
  match v.data.findIdx? (fun k => k = key) with
  | none => v
  | some i => if order then (json_vec_del_ordered v i).2 else (json_vec_del v i).2

/-- `json_hmap_del`: find by hash (returning `NULL` = inner `none` from an
empty slot), read the object pointer, backward-shift the chain, free a slot,
and remove the key from the key-order vector. -/
def json_hmap_del (h : Hmap V) (key : Key) (order : Bool) :
    Option (Option V × Hmap V) :=
  let hash := json_hash_str key
  match probeDel h.cap h.nodes hash (hash % h.cap) h.cap with
  | none => none
  | some none => some (none, h)
  | some (some i) =>
    let obj := (nodeAt h.nodes i).object
    match shiftLoop h.cap h.nodes i 0 i h.cap with
    | none => none
    | some nodes' =>
      match freeSlotF h.cap { h with nodes := nodes' } with
      | none => none
      | some h2 => some (obj, { h2 with vec := vecRemoveKey h2.vec key order })

/-- `JSON_HMAP_INIT_CAP`. -/
def JSON_HMAP_INIT_CAP : Nat := 8

/-- A hashmap operation, as issued through the public API
(`json_put` / `json_pop` / `json_pop_ordered`).  Each `put` carries the
indeterminate initial value of the uninitialised `node.steps`. -/
inductive HOp (V : Type) where
  | put (k : Key) (v : V) (garbage : Nat)
  | del (k : Key) (order : Bool)
  deriving DecidableEq, Repr

/-- Run one operation (the result of a `del` is discarded, as in
`json_pop`). -/
def runHOp (h : Hmap V) : HOp V → Option (Hmap V)
  | .put k v g => json_hmap_put h k v g
  | .del k o => (json_hmap_del h k o).map (·.2)

/-- Run a sequence of operations on a fresh map (as built by
`json_new_object` / `json_expect_obj`). -/
def runHOps (ops : List (HOp V)) : Option (Hmap V) :=
  ops.foldlM runHOp (json_hmap_make V JSON_HMAP_INIT_CAP)

/-! ## Specification-side definitions

Reference semantics of a key-value store with most-recent-put lookup and
insertion-ordered key iteration, following the spec's words ("`get(k)`
returns the most recently put value for `k` until a later `del(k)`",
"iterating keys yields exactly the currently-live keys in original insertion
order").  Used for the refinement statements. -/

/-- One step of the reference map: `put` replaces in place when the key is
live, otherwise appends; `del` removes the key. -/
def specFoldOp (l : List (Key × V)) : HOp V → List (Key × V)
  | .put k v _ =>
    if l.any (fun kv => kv.1 = k) then
      l.map (fun kv => if kv.1 = k then (k, v) else kv)
    else l ++ [(k, v)]
  | .del k _ => l.filter (fun kv => kv.1 ≠ k)

/-- Reference state after a sequence of operations. -/
def specState (ops : List (HOp V)) : List (Key × V) :=
  ops.foldl specFoldOp []

/-- Reference lookup: the most recently put value for `k`, unless deleted. -/
def specLookup (ops : List (HOp V)) (k : Key) : Option V :=
  ((specState ops).find? (fun kv => kv.1 = k)).map (·.2)

/-- Key of an operation. -/
def HOp.key : HOp V → Key
  | .put k _ _ => k
  | .del k _ => k

/-- `k` hashes nonzero (not the empty-slot sentinel) and no two distinct keys
in `ks ∪ {k}` collide. -/
def GoodKeys (ks : List Key) : Prop :=
  (∀ k ∈ ks, json_hash_str k ≠ 0) ∧
  (∀ k1 ∈ ks, ∀ k2 ∈ ks, json_hash_str k1 = json_hash_str k2 → k1 = k2)

/-- Every `put` in `ops` has a zeroed (uninitialised) `steps` field. -/
def ZeroGarbage (ops : List (HOp V)) : Prop :=
  ∀ op ∈ ops, ∀ k v g, op = HOp.put k v g → g = 0

/-- The `data` field of `vecRemoveKey`, at the list level: find the first
`strcmp`-equal key; remove it by left shift (`ordered`) or by overwriting it
with the popped last element. -/
def listRemoveKey (vs : List Key) (k : Key) (order : Bool) : List Key :=
  match vs.findIdx? (fun x => x = k) with
  | none => vs
  | some i =>
    if order then (vs.take i ++ vs.drop (i + 1) ++ vs.getLast?.toList).dropLast
    else (vs.dropLast).set i (vs.getD (vs.length - 1) [])

/-- One step of the reference map together with its key-order vector: a `put`
appends the key unconditionally (as `json_hmap_put` pushes before probing); a
`del` of a live key removes the first matching vector entry. -/
def specStep (s : List (Key × V) × List Key) (op : HOp V) :
    List (Key × V) × List Key :=
  match op with
  | .put k _ _ => (specFoldOp s.1 op, s.2 ++ [k])
  | .del k o => (specFoldOp s.1 op,
      if s.1.any (fun kv => kv.1 = k) then listRemoveKey s.2 k o else s.2)

/-- Reference map and key-order vector after a sequence of operations. -/
def specFull (ops : List (HOp V)) : List (Key × V) × List Key :=
  ops.foldl specStep ([], [])

/-- `ops` never `put`s a currently-live key and only uses ordered deletion
(`json_pop_ordered`), starting from reference state `L`. -/
def cleanOps : List (Key × V) → List (HOp V) → Bool
  | _, [] => true
  | L, op :: rest =>
    match op with
    | .put k _ _ => !L.any (fun kv => kv.1 = k) && cleanOps (specFoldOp L op) rest
    | .del _ o => o && cleanOps (specFoldOp L op) rest

/-! ## The hashmap invariant -/

/-- Probe distance from `home` to slot `i` on a circular table of `cap`
slots. -/
def slotDist (cap home i : Nat) : Nat := (i + cap - home) % cap

/-- Slot `i` is occupied (`hash ≠ 0`). -/
def Occupied (nodes : List (Hnode V)) (i : Nat) : Prop :=
  (nodeAt nodes i).hash ≠ 0

/-- Number of occupied slots. -/
def occCount (nodes : List (Hnode V)) : Nat :=
  (nodes.filter (fun n => n.hash ≠ 0)).length

/-- Home slot of a node. -/
def homeOf (cap : Nat) (n : Hnode V) : Nat := n.hash % cap

/-- Well-formedness of one occupied slot: in-range hash, live object pointer,
`steps` equal to the true probe distance from home, and an unbroken occupied
probe chain from home to the slot. -/
def SlotOk (cap : Nat) (nodes : List (Hnode V)) (i : Nat) : Prop :=
  (nodeAt nodes i).hash < W ∧
  ((nodeAt nodes i).object).isSome ∧
  (nodeAt nodes i).steps = slotDist cap (homeOf cap (nodeAt nodes i)) i ∧
  ∀ t : Nat, t ≤ (nodeAt nodes i).steps →
    Occupied nodes ((homeOf cap (nodeAt nodes i) + t) % cap)

/-- The hash `hs` is stored in the table with object pointer `v`. -/
def StoredN (cap : Nat) (nodes : List (Hnode V)) (hs : Nat) (v : V) : Prop :=
  ∃ i < cap, Occupied nodes i ∧
    (nodeAt nodes i).hash = hs ∧ (nodeAt nodes i).object = some v

/-- The hash `hs` occupies some slot of the table. -/
def LiveN (cap : Nat) (nodes : List (Hnode V)) (hs : Nat) : Prop :=
  ∃ i < cap, Occupied nodes i ∧ (nodeAt nodes i).hash = hs

/-- The hash `hs` is stored with object pointer `v`. -/
def Stored (h : Hmap V) (hs : Nat) (v : V) : Prop := StoredN h.cap h.nodes hs v

/-- The hash `hs` occupies some slot. -/
def HashLive (h : Hmap V) (hs : Nat) : Prop := LiveN h.cap h.nodes hs

/-- Table-level invariant: right length, chain-valid occupied slots, and
pairwise-distinct stored hashes. -/
structure TInv (cap : Nat) (nodes : List (Hnode V)) : Prop where
  lenEq : nodes.length = cap
  slotsOk : ∀ i < cap, Occupied nodes i → SlotOk cap nodes i
  injOk : ∀ i < cap, ∀ j < cap, Occupied nodes i → Occupied nodes j →
    (nodeAt nodes i).hash = (nodeAt nodes j).hash → i = j

/-- Full hashmap invariant, preserved by every reachable operation.  The
`size` field carries a drift `d ∈ {-1, 0, +1}` (mod `2^64`) against the true
occupancy: the source double-counts the freshly placed node after a growing
rehash and double-decrements after a shrinking one. -/
structure HInv (h : Hmap V) : Prop where
  table : TInv h.cap h.nodes
  min8 : h.min_cap = 8
  capPow : ∃ k : Nat, 3 ≤ k ∧ h.cap = 2 ^ k
  capBound : h.cap ≤ 4 * occCount h.nodes + 16
  occLe : occCount h.nodes ≤ h.cap / 2 + 1
  sizeRel : h.size = occCount h.nodes ∨
    h.size = occCount h.nodes + 1 ∨
    h.size = (occCount h.nodes + (W - 1)) % W

/-! ## Parsed values

A parsed `json_object_t` tree.  A `JSON_OBJECT`'s hashmap is represented by
the ordered list of `json_hmap_put` calls that built it (exactly the data the
parser and the construction API feed in); the concrete `Hmap` it denotes is
recovered by `hmapOfPuts` below.  `JSON_NUMBER`'s `double` is modelled as an
exact rational (see the caveat at `json_expect_number`). -/
inductive PVal : Type where
  | obj (pairs : List (Key × PVal))
  | arr (elems : List PVal)
  | str (s : Key)
  | num (q : ℚ)
  | tru
  | fls
  | nul

/-- The concrete hashmap built by `json_hmap_make(JSON_HMAP_INIT_CAP)`
followed by the recorded `json_hmap_put` calls.  The indeterminate
uninitialised `steps` of each put is taken to be `0`; neither the key-order
vector nor `get` reads any `steps` field, so everything the serializer
observes is independent of that choice. -/
def hmapOfPuts (pairs : List (Key × PVal)) : Option (Hmap PVal) :=
  pairs.foldlM (fun h kv => json_hmap_put h kv.1 kv.2 0)
    (json_hmap_make PVal JSON_HMAP_INIT_CAP)

/-! ## Parser -/

/-- Read `text[i]`; the NUL terminator (and everything past it) is `0`. -/
def byteAt (t : List Nat) (i : Nat) : Nat := t.getD i 0

/-- `json_is_whitespace`: space, LF, CR, tab. -/
def json_is_whitespace (b : Nat) : Bool :=
  b == 0x20 || b == 0x0A || b == 0x0D || b == 0x09

/-- `json_is_digit`. -/
def json_is_digit (b : Nat) : Bool := 48 ≤ b && b ≤ 57

/-- Loop body of `json_next_token`.  The C loop always terminates on a
NUL-terminated text because NUL is not whitespace; `t.length + 1` steps
provably suffice. -/
def nextTokenAux (t : List Nat) : Nat → Nat → Nat
  | 0, i => i
  | f + 1, i => if json_is_whitespace (byteAt t i) then nextTokenAux t f (i + 1) else i

/-- `json_next_token`: skip whitespace to the start of the next token. -/
def json_next_token (t : List Nat) (i : Nat) : Nat :=
  nextTokenAux t (t.length + 1) i

/-- `json_token_equals`.  The expected token is given with its bytes
(`[0]` for the `""`-with-length-1 comparison used at the document end). -/
def json_token_equals (t : List Nat) (i : Nat) (tok : List Nat) : Bool :=
  (List.range tok.length).all (fun j => byteAt t (i + j) == tok.getD j 0)

/-- `json_expect_token`: error unless the token matches, then skip it. -/
def json_expect_token (t : List Nat) (i : Nat) (tok : List Nat) : Except Unit Nat :=
  if json_token_equals t i tok then .ok (i + tok.length) else .error ()

/-- `json_expect_str_char`: decode one string character.  `\u` and unknown
escapes are errors (`JSON_CTX_ERROR`). -/
def json_expect_str_char (t : List Nat) (i : Nat) : Except Unit (Nat × Nat) :=
  if byteAt t i == 92 then
    let e := byteAt t (i + 1)
    if e == 34 then .ok (34, i + 2)
    else if e == 92 then .ok (92, i + 2)
    else if e == 47 then .ok (47, i + 2)
    else if e == 98 then .ok (8, i + 2)
    else if e == 102 then .ok (12, i + 2)
    else if e == 110 then .ok (10, i + 2)
    else if e == 114 then .ok (13, i + 2)
    else if e == 116 then .ok (9, i + 2)
    else .error ()
  else .ok (byteAt t i, i + 1)

/-- The scanning loop of `json_expect_string`.  The source makes two passes
(validate and count, then re-read); both passes decode the same characters,
so the model makes one pass collecting them.  A raw LF or NUL is an error
("string ended unexpectedly"). -/
def strScan (t : List Nat) : Nat → Nat → Key → Except Unit (Key × Nat)
  | 0, _, _ => .error ()
  | f + 1, i, acc =>
    if byteAt t i == 34 then .ok (acc, i + 1)
    else if byteAt t i == 10 || byteAt t i == 0 then .error ()
    else
      match json_expect_str_char t i with
      | .error e => .error e
      | .ok (c, i') => strScan t f i' (acc ++ [c])

/-- `json_expect_string`. -/
def json_expect_string (t : List Nat) (i : Nat) : Except Unit (Key × Nat) :=
  if byteAt t i == 34 then strScan t (t.length + 1) (i + 1) [] else .error ()

/-- Integral-part loop: `num = num * 10 + digit`. -/
def intLoop (t : List Nat) : Nat → Nat → ℚ → ℚ × Nat
  | 0, i, acc => (acc, i)
  | f + 1, i, acc =>
    if json_is_digit (byteAt t i) then
      intLoop t f (i + 1) (acc * 10 + (byteAt t i - 48 : Nat))
    else (acc, i)

/-- Fraction loop of `json_expect_number`: `fract += digit * mult` with
`mult` starting at `1.0` and only afterwards multiplied by `0.1` — so the
first fractional digit is weighted `10^0`, not `10^-1`. -/
def fractLoop (t : List Nat) : Nat → Nat → ℚ → ℚ → ℚ × Nat
  | 0, i, fract, _ => (fract, i)
  | f + 1, i, fract, mult =>
    if json_is_digit (byteAt t i) then
      fractLoop t f (i + 1) (fract + (byteAt t i - 48 : Nat) * mult) (mult * (1 / 10))
    else (fract, i)

/-- Exponent digit loop. -/
def expLoop (t : List Nat) : Nat → Nat → Nat → Nat × Nat
  | 0, i, acc => (acc, i)
  | f + 1, i, acc =>
    if json_is_digit (byteAt t i) then
      expLoop t f (i + 1) (acc * 10 + (byteAt t i - 48))
    else (acc, i)

/-- `json_expect_number`.  IEEE-754 `double` arithmetic is modelled as exact
rational arithmetic (the repeated `*= 0.1` / `*= 10.0` become exact `ℚ`
operations); all theorems touching numbers either use values on which the
double computation is exact or state byte-level facts. -/
def json_expect_number (t : List Nat) (i0 : Nat) : Except Unit (ℚ × Nat) :=
  let negative := byteAt t i0 == 45
  let i1 := if negative then i0 + 1 else i0
  if json_is_digit (byteAt t i1) then
    let p1 := intLoop t (t.length + 1) i1 0
    let afterFract : Except Unit (ℚ × Nat) :=
      if byteAt t p1.2 == 46 then
        if json_is_digit (byteAt t (p1.2 + 1)) then
          let p2 := fractLoop t (t.length + 1) (p1.2 + 1) 0 1
          .ok (p1.1 + p2.1, p2.2)
        else .error ()
      else .ok p1
    match afterFract with
    | .error e => .error e
    | .ok (num2, i3) =>
      let num3 := if negative then -num2 else num2
      if byteAt t i3 == 101 || byteAt t i3 == 69 then
        let hasSign := byteAt t (i3 + 1) == 43 || byteAt t (i3 + 1) == 45
        let negExp := byteAt t (i3 + 1) == 45
        let i4 := if hasSign then i3 + 2 else i3 + 1
        if json_is_digit (byteAt t i4) then
          let p3 := expLoop t (t.length + 1) i4 0
          .ok (if negExp then num3 * (1 / 10) ^ p3.1 else num3 * 10 ^ p3.1, p3.2)
        else .error ()
      else .ok (num3, i3)
  else .error ()

mutual

/-- `json_expect_value`: dispatch on the first byte of the next token. -/
def json_expect_value : Nat → List Nat → Nat → Except Unit (PVal × Nat)
  | 0, _, _ => .error ()
  | f + 1, t, i =>
    let b := byteAt t i
    if b == 123 then
      match json_expect_obj f t i with
      | .error e => .error e
      | .ok (ps, i') => .ok (.obj ps, i')
    else if b == 91 then
      match json_expect_array f t i with
      | .error e => .error e
      | .ok (es, i') => .ok (.arr es, i')
    else if b == 34 then
      match json_expect_string t i with
      | .error e => .error e
      | .ok (s, i') => .ok (.str s, i')
    else if b == 116 then
      match json_expect_token t i [116, 114, 117, 101] with
      | .error e => .error e
      | .ok i' => .ok (.tru, i')
    else if b == 102 then
      match json_expect_token t i [102, 97, 108, 115, 101] with
      | .error e => .error e
      | .ok i' => .ok (.fls, i')
    else if b == 110 then
      match json_expect_token t i [110, 117, 108, 108] with
      | .error e => .error e
      | .ok i' => .ok (.nul, i')
    else if json_is_digit b || b == 45 then
      match json_expect_number t i with
      | .error e => .error e
      | .ok (q, i') => .ok (.num q, i')
    else .error ()
  termination_by structural f t i => f

/-- `json_expect_obj`: skip `{`, check for an empty object, else enter the
pair loop.  The pairs are collected in `json_hmap_put` call order. -/
def json_expect_obj : Nat → List Nat → Nat → Except Unit (List (Key × PVal) × Nat)
  | 0, _, _ => .error ()
  | f + 1, t, i =>
    let j := json_next_token t (i + 1)
    if byteAt t j == 125 then .ok ([], j + 1)
    else objLoop f t j []
  termination_by structural f t i => f

/-- The key/value-pair loop of `json_expect_obj`. -/
def objLoop : Nat → List Nat → Nat → List (Key × PVal) →
    Except Unit (List (Key × PVal) × Nat)
  | 0, _, _, _ => .error ()
  | f + 1, t, i, acc =>
    match json_expect_string t i with
    | .error e => .error e
    | .ok (key, i1) =>
      match json_expect_token t (json_next_token t i1) [58] with
      | .error e => .error e
      | .ok i3 =>
        match json_expect_value f t (json_next_token t i3) with
        | .error e => .error e
        | .ok (child, i5) =>
          let acc' := acc ++ [(key, child)]
          let i6 := json_next_token t i5
          if byteAt t i6 == 125 then .ok (acc', i6 + 1)
          else
            match json_expect_token t i6 [44] with
            | .error e => .error e
            | .ok i7 => objLoop f t (json_next_token t i7) acc'
  termination_by structural f t i acc => f

/-- `json_expect_array`. -/
def json_expect_array : Nat → List Nat → Nat → Except Unit (List PVal × Nat)
  | 0, _, _ => .error ()
  | f + 1, t, i =>
    let j := json_next_token t (i + 1)
    if byteAt t j == 93 then .ok ([], j + 1)
    else arrLoop f t j []
  termination_by structural f t i => f

/-- The element loop of `json_expect_array`. -/
def arrLoop : Nat → List Nat → Nat → List PVal → Except Unit (List PVal × Nat)
  | 0, _, _, _ => .error ()
  | f + 1, t, i, acc =>
    match json_expect_value f t i with
    | .error e => .error e
    | .ok (child, i1) =>
      let acc' := acc ++ [child]
      let i2 := json_next_token t i1
      if byteAt t i2 == 93 then .ok (acc', i2 + 1)
      else
        match json_expect_token t i2 [44] with
        | .error e => .error e
        | .ok i3 => arrLoop f t (json_next_token t i3) acc'
  termination_by structural f t i acc => f

end

/-- Fuel for the recursive-descent parser.  The C parser needs no fuel (its
recursion is bounded by the input); `4 * length + 16` provably dominates the
recursion depth of any accepted input. -/
def parseFuel (t : List Nat) : Nat := 4 * t.length + 16

/-- `json_parse`: the document root must be an object, an array, or end of
input (empty document); anything else is "invalid json root".  After the
root value: skip whitespace and expect the NUL terminator
(`json_expect_token(ctx, "", 1)` compares one byte against `'\0'`). -/
def json_parse (t : List Nat) : Except Unit (Option PVal) :=
  let i := json_next_token t 0
  if byteAt t i == 123 then
    match json_expect_obj (parseFuel t) t i with
    | .error e => .error e
    | .ok (ps, i1) =>
      match json_expect_token t (json_next_token t i1) [0] with
      | .error e => .error e
      | .ok _ => .ok (some (.obj ps))
  else if byteAt t i == 91 then
    match json_expect_array (parseFuel t) t i with
    | .error e => .error e
    | .ok (es, i1) =>
      match json_expect_token t (json_next_token t i1) [0] with
      | .error e => .error e
      | .ok _ => .ok (some (.arr es))
  else if byteAt t i == 0 then .ok none
  else .error ()

/-! ## Serializer -/

/-- Decimal digits of `n` (ASCII), most significant first, with a fuel bound
on the number of digits (one unit per division by ten). -/
def natDecimalF : Nat → Nat → List Nat
  | 0, n => [48 + n % 10]
  | f + 1, n => if n < 10 then [48 + n] else natDecimalF f (n / 10) ++ [48 + n % 10]

/-- Decimal digits of `n` (ASCII), most significant first (`n` itself always
dominates the digit count). -/
def natDecimal (n : Nat) : List Nat := natDecimalF n n

/-- `sprintf("%ld", n)`. -/
def intDecimal (n : ℤ) : List Nat :=
  if n < 0 then 45 :: natDecimal n.natAbs else natDecimal n.toNat

/-- `(long)x`: truncation toward zero. -/
def ratTrunc (q : ℚ) : ℤ := Int.tdiv q.num q.den

/-- Left-pad with ASCII zeros to width `w`. -/
def padZeros (w : Nat) (ds : List Nat) : List Nat :=
  List.replicate (w - ds.length) 48 ++ ds

/-- `sprintf("%lf", x)`: sign, integer part, `'.'`, and exactly six
fractional digits of the value rounded to `10^-6` (nearest; the model uses
round-half-up — all values reached by theorems are exact at `10^-6`, where no
rounding happens at all). -/
def fixed6 (q : ℚ) : List Nat :=
  let sign : List Nat := if q < 0 then [45] else []
  let scaled : Nat := (⌊|q| * 1000000 + 1 / 2⌋).toNat
  sign ++ natDecimal (scaled / 1000000) ++ [46] ++
    padZeros 6 (natDecimal (scaled % 1000000))

/-- The number case of `json_serialize_value`: `%ld` when
`(long)number == number`, else `%lf`. -/
def numToStr (q : ℚ) : List Nat :=
  if (ratTrunc q : ℚ) = q then intDecimal (ratTrunc q) else fixed6 q

/-- One byte of `json_serialize_string`: the escape table
`JSON_ESCAPE_CHARACTERS_X` matched against the character value. -/
def escByteOut (b : Nat) : List Nat :=
  if b == 34 then [92, 34]
  else if b == 92 then [92, 92]
  else if b == 47 then [92, 47]
  else if b == 8 then [92, 98]
  else if b == 12 then [92, 102]
  else if b == 10 then [92, 110]
  else if b == 13 then [92, 114]
  else if b == 9 then [92, 116]
  else [b]

/-- `json_serialize_string`. -/
def json_serialize_string (s : Key) : List Nat :=
  [34] ++ (s.map escByteOut).flatten ++ [34]

/-- `json_serialize_indent`: `level * indent` spaces, nothing in mini mode. -/
def indentStr (mini : Bool) (indent level : Nat) : List Nat :=
  if mini then [] else List.replicate (level * indent) 32

/-- Append with `ser_ctx->nlwidth`: in mini mode only the first byte of
`"{\n"`, `",\n"`, `": "` survives. -/
def nlTake (mini : Bool) (two : List Nat) : List Nat :=
  if mini then two.take 1 else two

/-- Concatenate with a separator before every element but the first. -/
def joinSep (sep : List Nat) (xs : List (List Nat)) : List Nat :=
  (xs.intersperse sep).flatten

mutual

/-- Structural size of a tree, used as a provably sufficient recursion-depth
fuel for the serializer (the C recursion needs none). -/
def pvalSize : PVal → Nat
  | .obj pairs => 1 + pvalSizePairs pairs
  | .arr elems => 1 + pvalSizeList elems
  | .str _ => 1
  | .num _ => 1
  | .tru => 1
  | .fls => 1
  | .nul => 1

/-- Sum of `pvalSize` over the values of an object's pairs. -/
def pvalSizePairs : List (Key × PVal) → Nat
  | [] => 0
  | kv :: rest => pvalSize kv.2 + pvalSizePairs rest

/-- Sum of `pvalSize` over an array's elements. -/
def pvalSizeList : List PVal → Nat
  | [] => 0
  | v :: rest => pvalSize v + pvalSizeList rest

end

/-- `json_serialize_value` / `_obj` / `_array`, fused, with a recursion-depth
fuel (the impossible `fuel = 0` and dangling-pointer cases produce no
output; every theorem runs with provably sufficient fuel and a well-formed
tree).  An object walks its key-order vector and re-`get`s every key, exactly
as `json_serialize_obj` does. -/
def serializeValueF : Nat → Bool → Nat → Nat → PVal → List Nat
  | 0, _, _, _, _ => []
  | f + 1, mini, ind, level, v =>
    match v with
    | .obj pairs =>
      match hmapOfPuts pairs with
      | none => []
      | some hm =>
        nlTake mini [123, 10] ++
        joinSep (nlTake mini [44, 10]) (hm.vec.data.map (fun key =>
          indentStr mini ind (level + 1) ++ json_serialize_string key ++
          nlTake mini [58, 32] ++
          (match json_hmap_get hm key with
           | some (some child) => serializeValueF f mini ind (level + 1) child
           | _ => []))) ++
        (if mini then [] else [10]) ++ indentStr mini ind level ++ [125]
    | .arr elems =>
      nlTake mini [91, 10] ++
      joinSep (nlTake mini [44, 10]) (elems.map (fun child =>
        indentStr mini ind (level + 1) ++ serializeValueF f mini ind (level + 1) child)) ++
      (if mini then [] else [10]) ++ indentStr mini ind level ++ [93]
    | .str s => json_serialize_string s
    | .num q => numToStr q
    | .tru => [116, 114, 117, 101]
    | .fls => [102, 97, 108, 115, 101]
    | .nul => [110, 117, 108, 108]

/-- The string builder content of `json_serialize`: the serialized value
followed by `json_stringy_append(&stringy, "\n", 2)` — which `strncpy`s the
newline *and* its NUL terminator, so `pos` counts both. -/
def json_serialize_stringy (v : PVal) (mini : Bool) (ind : Nat) : List Nat :=
  serializeValueF (pvalSize v) mini ind 0 v ++ [10, 0]

/-- The C string returned by `json_serialize` (`strcpy` from the builder
stops at the first NUL — the one appended above). -/
def json_serialize (v : PVal) (mini : Bool) (ind : Nat) : List Nat :=
  (json_serialize_stringy v mini ind).takeWhile (fun b => b != 0)

/-- The `*out_len` reported by `json_serialize`: the builder's `pos`,
which includes the appended NUL. -/
def json_serialize_out_len (v : PVal) (mini : Bool) (ind : Nat) : Nat :=
  (json_serialize_stringy v mini ind).length

/-! ## Proof-side definitions -/

/-- The first `E` probe positions from `home` are occupied and position `E`
is free. -/
def FirstFree (cap : Nat) (nodes : List (Hnode V)) (home E : Nat) : Prop :=
  ¬ Occupied nodes ((home + E) % cap) ∧ ∀ t < E, Occupied nodes ((home + t) % cap)

/-- Loop invariant of the backward-shift deletion scan, over the table `N0`
as it stood when the match at slot `i0` was found.  `l` and `t` are the
offsets (from `i0`) of the current vacancy (`last`) and scan position. -/
structure ShiftInv (cap : Nat) (N0 : List (Hnode V)) (i0 : Nat)
    (nodes : List (Hnode V)) (l t : Nat) : Prop where
  lt : l ≤ t
  lenEq : nodes.length = N0.length
  occSame : ∀ i, Occupied nodes i ↔ Occupied N0 i
  slotsOk : ∀ i < cap, Occupied nodes i → i ≠ (i0 + l) % cap → SlotOk cap nodes i
  injOk : ∀ i < cap, ∀ j < cap, i ≠ (i0 + l) % cap → j ≠ (i0 + l) % cap →
    Occupied nodes i → Occupied nodes j →
    (nodeAt nodes i).hash = (nodeAt nodes j).hash → i = j
  contents : ∀ hs v,
    (∃ i < cap, i ≠ (i0 + l) % cap ∧ Occupied nodes i ∧
      (nodeAt nodes i).hash = hs ∧ (nodeAt nodes i).object = some v) ↔
    (hs ≠ (nodeAt N0 i0).hash ∧ StoredN cap N0 hs v)
  region : ∀ s, l < s → s ≤ t → (nodeAt nodes ((i0 + s) % cap)).steps < s - l
  scanned : ∀ s ≤ t, Occupied nodes ((i0 + s) % cap)

/-- Postcondition of the backward-shift deletion: one fewer occupied slot,
the deleted hash gone, every surviving slot still chain-valid. -/
structure ShiftRes (cap : Nat) (N0 : List (Hnode V)) (i0 : Nat)
    (nodes' : List (Hnode V)) : Prop where
  lenEq : nodes'.length = N0.length
  occ : occCount nodes' + 1 = occCount N0
  slotsOk : ∀ i < cap, Occupied nodes' i → SlotOk cap nodes' i
  injOk : ∀ i < cap, ∀ j < cap, Occupied nodes' i → Occupied nodes' j →
    (nodeAt nodes' i).hash = (nodeAt nodes' j).hash → i = j
  contents : ∀ hs v,
    StoredN cap nodes' hs v ↔ (hs ≠ (nodeAt N0 i0).hash ∧ StoredN cap N0 hs v)

/-- A real FNV-1a collision: the bytes of `"8yn0iYCKYHlIj4-BwPqk"`. -/
def kColl1 : Key :=
  [56, 121, 110, 48, 105, 89, 67, 75, 89, 72, 108, 73, 106, 52, 45, 66,
   119, 80, 113, 107]

/-- A real FNV-1a collision: the bytes of `"GReLUrM4wMqfg9yzV3KQ"`.
`json_hash_str kColl1 = json_hash_str kColl2` although the keys differ. -/
def kColl2 : Key :=
  [71, 82, 101, 76, 85, 114, 77, 52, 119, 77, 113, 102, 103, 57, 121, 122,
   86, 51, 75, 81]

/-- Five puts (keys `"k0"`..`"k4"`) followed by five `json_pop`s: the fifth
put grows the table (double-counting `size`), the fourth pop shrinks it
(double-decrementing), and the fifth pop underflows `size` to `2^64 - 1`. -/
def c4ops : List (HOp Nat) :=
  [.put [107, 48] 0 0, .put [107, 49] 1 0, .put [107, 50] 2 0,
   .put [107, 51] 3 0, .put [107, 52] 4 0,
   .del [107, 48] false, .del [107, 49] false, .del [107, 50] false,
   .del [107, 51] false, .del [107, 52] false]

/-- A small mixed sequence: put `"a"`, put `"b"`, ordered-delete `"a"`. -/
def c1ops : List (HOp Nat) :=
  [.put [97] 1 0, .put [98] 2 0, .del [97] true]

/-! ## Toolkit lemmas -/

theorem nodeAt_eq_get {nodes : List (Hnode V)} {i : Nat} :
    nodeAt nodes i = (nodes[i]?).getD emptyNode := by
  simp [nodeAt, List.getD, List.get?_eq_getElem?]

theorem nodeAt_set_self {nodes : List (Hnode V)} {i : Nat} (h : i < nodes.length)
    (n : Hnode V) : nodeAt (nodes.set i n) i = n := by
  rw [nodeAt_eq_get, List.getElem?_set_eq_of_lt _ h]
  rfl

theorem nodeAt_set_ne {nodes : List (Hnode V)} {i j : Nat} (h : i ≠ j)
    (n : Hnode V) : nodeAt (nodes.set i n) j = nodeAt nodes j := by
  rw [nodeAt_eq_get, nodeAt_eq_get, List.getElem?_set_ne h]

theorem nodeAt_replicate (c i : Nat) :
    nodeAt (List.replicate c (emptyNode : Hnode V)) i = emptyNode := by
  rw [nodeAt_eq_get]
  rcases Nat.lt_or_ge i c with h | h
  · simp [List.getElem?_replicate, h]
  · rw [List.getElem?_eq_none (by simpa using h)]
    rfl

theorem nodeAt_of_ge {nodes : List (Hnode V)} {i : Nat} (h : nodes.length ≤ i) :
    nodeAt nodes i = emptyNode := by
  rw [nodeAt_eq_get, List.getElem?_eq_none h]
  rfl

theorem occCount_replicate (c : Nat) :
    occCount (List.replicate c (emptyNode : Hnode V)) = 0 := by
  induction c with
  | zero => rfl
  | succ n ih => simpa [occCount, List.replicate_succ, List.filter, emptyNode] using ih

/-- Change of `occCount` under a point update. -/
theorem occCount_set (nodes : List (Hnode V)) (i : Nat) (n : Hnode V)
    (h : i < nodes.length) :
    occCount (nodes.set i n) + (if (nodeAt nodes i).hash ≠ 0 then 1 else 0)
      = occCount nodes + (if n.hash ≠ 0 then 1 else 0) := by
  induction nodes generalizing i with
  | nil => simp at h
  | cons x xs ih =>
    cases i with
    | zero =>
      simp only [List.set_cons_zero, occCount, List.filter, nodeAt, List.getD_cons_zero]
      by_cases hx : x.hash = 0 <;> by_cases hn : n.hash = 0 <;>
        simp [hx, hn] <;> omega
    | succ k =>
      have hk : k < xs.length := by simpa using h
      have := ih k hk
      simp only [List.set_cons_succ, occCount, List.filter, nodeAt,
        List.getD_cons_succ] at *
      by_cases hx : x.hash = 0 <;> simp [hx] at * <;> omega

/-- All-occupied tables have full occupancy. -/
theorem occCount_eq_length {nodes : List (Hnode V)}
    (h : ∀ i < nodes.length, Occupied nodes i) : occCount nodes = nodes.length := by
  unfold occCount
  rw [List.filter_length_eq_length]
  intro n hn
  obtain ⟨i, hi, rfl⟩ := List.mem_iff_getElem.1 hn
  have := h i hi
  simp only [Occupied, nodeAt_eq_get, List.getElem?_eq_getElem hi,
    Option.getD_some] at this
  simpa using this

/-- A list of distinct occupied positions bounds the occupancy count. -/
theorem occCount_ge_of_nodup {nodes : List (Hnode V)} {ps : List Nat}
    (hnd : ps.Nodup) (hmem : ∀ p ∈ ps, p < nodes.length ∧ Occupied nodes p) :
    ps.length ≤ occCount nodes := by
  classical
  have hsub : ps ⊆ (List.range nodes.length).filter
      (fun i => decide ((nodeAt nodes i).hash ≠ 0)) := by
    intro p hp
    rcases hmem p hp with ⟨h1, h2⟩
    simp only [List.mem_filter, List.mem_range]
    exact ⟨h1, by simpa [Occupied] using h2⟩
  have hsp := (List.subperm_of_subset hnd hsub).length_le
  have hlen : ((List.range nodes.length).filter
      (fun i => decide ((nodeAt nodes i).hash ≠ 0))).length = occCount nodes := by
    clear hsp hsub hmem hnd
    induction nodes using List.reverseRecOn with
    | nil => rfl
    | append_singleton xs x ih =>
      have h1 : nodeAt (xs ++ [x]) xs.length = x := by
        rw [nodeAt_eq_get, List.getElem?_append_right (Nat.le_refl _)]
        simp
      have h2 : ∀ i ∈ List.range xs.length,
          (decide ((nodeAt (xs ++ [x]) i).hash ≠ 0))
            = (decide ((nodeAt xs i).hash ≠ 0)) := by
        intro i hi
        simp only [List.mem_range] at hi
        rw [nodeAt_eq_get, nodeAt_eq_get, List.getElem?_append_left hi]
      rw [List.length_append, List.length_singleton, List.range_succ,
        List.filter_append, List.length_append, List.filter_congr h2, ih]
      have h3 : occCount (xs ++ [x]) = occCount xs + (if x.hash ≠ 0 then 1 else 0) := by
        simp only [occCount, List.filter_append, List.length_append]
        by_cases hx : x.hash = 0 <;> simp [List.filter, hx]
      rw [h3]
      by_cases hx : x.hash = 0 <;> simp [List.filter, h1, hx]
  omega

/-! ### Circular-distance lemmas -/

theorem slotDist_lt {cap home i : Nat} (hc : 0 < cap) : slotDist cap home i < cap :=
  Nat.mod_lt _ hc

theorem slotDist_of_add {cap home d : Nat} (hh : home < cap) (hd : d < cap) :
    slotDist cap home ((home + d) % cap) = d := by
  unfold slotDist
  rcases Nat.lt_or_ge (home + d) cap with h | h
  · rw [Nat.mod_eq_of_lt h]
    have : home + d + cap - home = d + cap := by omega
    rw [this, Nat.add_mod_right, Nat.mod_eq_of_lt hd]
  · have h2 : home + d < 2 * cap := by omega
    have : (home + d) % cap = home + d - cap := by
      rw [Nat.mod_eq_sub_mod h, Nat.mod_eq_of_lt (by omega)]
    rw [this]
    have : home + d - cap + cap - home = d := by omega
    rw [this, Nat.mod_eq_of_lt hd]

theorem add_slotDist {cap home i : Nat} (hh : home < cap) (hi : i < cap) :
    (home + slotDist cap home i) % cap = i := by
  unfold slotDist
  rcases Nat.lt_or_ge i home with h | h
  · have h1 : i + cap - home < cap := by omega
    rw [Nat.mod_eq_of_lt h1,
      show home + (i + cap - home) = i + cap by omega,
      Nat.add_mod_right, Nat.mod_eq_of_lt hi]
  · have h1 : i + cap - home = (i - home) + cap := by omega
    rw [h1, Nat.add_mod_right,
      Nat.mod_eq_of_lt (show i - home < cap by omega),
      show home + (i - home) = i by omega, Nat.mod_eq_of_lt hi]

theorem cyc_succ {cap i0 s : Nat} : ((i0 + s) % cap + 1) % cap = (i0 + (s + 1)) % cap := by
  rw [Nat.mod_add_mod, Nat.add_assoc]

theorem cyc_base {cap i0 s : Nat} : (i0 % cap + s) % cap = (i0 + s) % cap := by
  rw [Nat.mod_add_mod]

theorem cyc_inj {cap i0 : Nat} (hc : 0 < cap) {s1 s2 : Nat}
    (h1 : s1 < cap) (h2 : s2 < cap) (h : (i0 + s1) % cap = (i0 + s2) % cap) :
    s1 = s2 := by
  have e1 := @slotDist_of_add cap (i0 % cap) s1 (Nat.mod_lt _ hc) h1
  have e2 := @slotDist_of_add cap (i0 % cap) s2 (Nat.mod_lt _ hc) h2
  rw [cyc_base] at e1 e2
  rw [← e1, ← e2, h]

/-- An under-full table has a first free probe position within `cap` steps. -/
theorem exists_firstFree {cap : Nat} {nodes : List (Hnode V)} (hc : 0 < cap)
    (hlen : nodes.length = cap) (hocc : occCount nodes < cap) (home : Nat) :
    ∃ E < cap, FirstFree cap nodes home E := by
  classical
  have hex : ∃ t, t < cap ∧ ¬ Occupied nodes ((home + t) % cap) := by
    by_contra hall
    push_neg at hall
    have hfull : ∀ i < nodes.length, Occupied nodes i := by
      intro i hi
      rw [hlen] at hi
      have hd := @add_slotDist cap (home % cap) i (Nat.mod_lt _ hc) hi
      have := hall (slotDist cap (home % cap) i) (slotDist_lt hc)
      rwa [← cyc_base, hd] at this
    have := occCount_eq_length hfull
    omega
  refine ⟨Nat.find hex, (Nat.find_spec hex).1, (Nat.find_spec hex).2, ?_⟩
  intro t ht
  by_contra hne
  exact (Nat.find_min hex ht) ⟨Nat.lt_trans ht (Nat.find_spec hex).1, hne⟩

/-- Skip `d` occupied, non-matching slots in the `json_hmap_get_node` probe. -/
theorem probeGet_skip {cap : Nat} {nodes : List (Hnode V)} {hs : Nat} :
    ∀ (d start fuel : Nat), d ≤ fuel →
    (∀ t < d, Occupied nodes ((start + t) % cap) ∧
      (nodeAt nodes ((start + t) % cap)).hash ≠ hs) →
    probeGet cap nodes hs (start % cap) fuel
      = probeGet cap nodes hs ((start + d) % cap) (fuel - d) := by
  intro d
  induction d with
  | zero => intro start fuel _ _; simp
  | succ d ih =>
    intro start fuel hdf hskip
    obtain ⟨f, rfl⟩ : ∃ f, fuel = f + 1 := ⟨fuel - 1, by omega⟩
    have h0 := hskip 0 (Nat.succ_pos d)
    rw [Nat.add_zero] at h0
    have hstep : probeGet cap nodes hs (start % cap) (f + 1)
        = probeGet cap nodes hs ((start + 1) % cap) f := by
      simp only [probeGet, if_neg h0.1, if_neg h0.2, Nat.mod_add_mod]
    rw [hstep, ih (start + 1) f (by omega) (fun t ht => by
      have := hskip (t + 1) (by omega)
      rw [show start + 1 + t = start + (t + 1) by omega]
      exact this),
      show start + 1 + d = start + (d + 1) by omega,
      show f - d = f + 1 - (d + 1) by omega]

/-- Skip `d` occupied, non-matching slots in the `json_hmap_put_node` probe,
accumulating `steps`. -/
theorem probePut_skip {cap : Nat} {nodes : List (Hnode V)} {node : Hnode V} :
    ∀ (d start steps fuel : Nat), d ≤ fuel →
    (∀ t < d, Occupied nodes ((start + t) % cap) ∧
      (nodeAt nodes ((start + t) % cap)).hash ≠ node.hash) →
    probePut cap node nodes (start % cap) steps fuel
      = probePut cap node nodes ((start + d) % cap) (steps + d) (fuel - d) := by
  intro d
  induction d with
  | zero => intro start steps fuel _ _; simp
  | succ d ih =>
    intro start steps fuel hdf hskip
    obtain ⟨f, rfl⟩ : ∃ f, fuel = f + 1 := ⟨fuel - 1, by omega⟩
    have h0 := hskip 0 (Nat.succ_pos d)
    rw [Nat.add_zero] at h0
    have hstep : probePut cap node nodes (start % cap) steps (f + 1)
        = probePut cap node nodes ((start + 1) % cap) (steps + 1) f := by
      simp only [probePut, if_neg h0.1, if_neg h0.2, Nat.mod_add_mod]
    rw [hstep, ih (start + 1) (steps + 1) f (by omega) (fun t ht => by
      have := hskip (t + 1) (by omega)
      rw [show start + 1 + t = start + (t + 1) by omega]
      exact this),
      show start + 1 + d = start + (d + 1) by omega,
      show steps + 1 + d = steps + (d + 1) by omega,
      show f - d = f + 1 - (d + 1) by omega]

/-- Skip `d` occupied, non-matching slots in the find loop of
`json_hmap_del`. -/
theorem probeDel_skip {cap : Nat} {nodes : List (Hnode V)} {hs : Nat} :
    ∀ (d start fuel : Nat), d ≤ fuel →
    (∀ t < d, Occupied nodes ((start + t) % cap) ∧
      (nodeAt nodes ((start + t) % cap)).hash ≠ hs) →
    probeDel cap nodes hs (start % cap) fuel
      = probeDel cap nodes hs ((start + d) % cap) (fuel - d) := by
  intro d
  induction d with
  | zero => intro start fuel _ _; simp
  | succ d ih =>
    intro start fuel hdf hskip
    obtain ⟨f, rfl⟩ : ∃ f, fuel = f + 1 := ⟨fuel - 1, by omega⟩
    have h0 := hskip 0 (Nat.succ_pos d)
    rw [Nat.add_zero] at h0
    have hstep : probeDel cap nodes hs (start % cap) (f + 1)
        = probeDel cap nodes hs ((start + 1) % cap) f := by
      simp only [probeDel, if_neg h0.2, if_neg h0.1, Nat.mod_add_mod]
    rw [hstep, ih (start + 1) f (by omega) (fun t ht => by
      have := hskip (t + 1) (by omega)
      rw [show start + 1 + t = start + (t + 1) by omega]
      exact this),
      show start + 1 + d = start + (d + 1) by omega,
      show f - d = f + 1 - (d + 1) by omega]

/-- From an occupied, chain-valid slot, the probe facts needed by the hit
lemmas: the slot sits at offset `slotDist` from its home, every earlier offset
is occupied, and (by hash-injectivity) by a different hash. -/
theorem stored_probe_facts {cap : Nat} {nodes : List (Hnode V)}
    (hT : TInv cap nodes) (hc : 0 < cap) {j : Nat} (hj : j < cap)
    (hocc : Occupied nodes j) :
    ((nodeAt nodes j).hash + slotDist cap ((nodeAt nodes j).hash % cap) j) % cap = j ∧
    slotDist cap ((nodeAt nodes j).hash % cap) j < cap ∧
    (∀ t ≤ slotDist cap ((nodeAt nodes j).hash % cap) j,
      Occupied nodes (((nodeAt nodes j).hash + t) % cap)) ∧
    (∀ t < slotDist cap ((nodeAt nodes j).hash % cap) j,
      (nodeAt nodes (((nodeAt nodes j).hash + t) % cap)).hash ≠ (nodeAt nodes j).hash) := by
  obtain ⟨-, -, hsteps, hchain⟩ := hT.slotsOk j hj hocc
  simp only [homeOf] at hsteps hchain
  have hDcap : slotDist cap ((nodeAt nodes j).hash % cap) j < cap := slotDist_lt hc
  have hback :
      ((nodeAt nodes j).hash + slotDist cap ((nodeAt nodes j).hash % cap) j) % cap = j := by
    rw [← cyc_base]
    exact add_slotDist (Nat.mod_lt _ hc) hj
  have hoccT : ∀ t ≤ slotDist cap ((nodeAt nodes j).hash % cap) j,
      Occupied nodes (((nodeAt nodes j).hash + t) % cap) := by
    intro t ht
    have := hchain t (by rw [hsteps]; exact ht)
    rwa [cyc_base] at this
  refine ⟨hback, hDcap, hoccT, ?_⟩
  intro t ht hne
  have hpos : ((nodeAt nodes j).hash + t) % cap < cap := Nat.mod_lt _ hc
  have heq := hT.injOk _ hpos _ hj (hoccT t (Nat.le_of_lt ht)) hocc hne
  have := @cyc_inj cap (nodeAt nodes j).hash hc t
    (slotDist cap ((nodeAt nodes j).hash % cap) j) (Nat.lt_trans ht hDcap) hDcap
    (heq.trans hback.symm)
  omega

/-- `json_hmap_get_node`'s probe finds a stored hash. -/
theorem probeGet_hit {cap : Nat} {nodes : List (Hnode V)}
    (hT : TInv cap nodes) (hc : 0 < cap) {j : Nat} (hj : j < cap)
    (hocc : Occupied nodes j) {fuel : Nat} (hf : cap ≤ fuel) :
    probeGet cap nodes (nodeAt nodes j).hash ((nodeAt nodes j).hash % cap) fuel
      = some (some (nodeAt nodes j)) := by
  obtain ⟨hback, hDcap, hoccT, hneT⟩ := stored_probe_facts hT hc hj hocc
  rw [probeGet_skip (slotDist cap ((nodeAt nodes j).hash % cap) j)
    (nodeAt nodes j).hash fuel (by omega)
    (fun t ht => ⟨hoccT t (Nat.le_of_lt ht), hneT t ht⟩), hback]
  obtain ⟨g, hg⟩ : ∃ g, fuel - slotDist cap ((nodeAt nodes j).hash % cap) j = g + 1 :=
    ⟨fuel - slotDist cap ((nodeAt nodes j).hash % cap) j - 1, by omega⟩
  rw [hg]
  have hocc' : ¬ (nodeAt nodes j).hash = 0 := hocc
  simp [probeGet, hocc']

/-- `json_hmap_get_node`'s probe reports a miss for an absent hash. -/
theorem probeGet_miss {cap : Nat} {nodes : List (Hnode V)}
    (hT : TInv cap nodes) (hc : 0 < cap) (hocc : occCount nodes < cap)
    {hs : Nat} (hnl : ¬ LiveN cap nodes hs) {fuel : Nat} (hf : cap ≤ fuel) :
    probeGet cap nodes hs (hs % cap) fuel = some none := by
  obtain ⟨E, hE, hfree, hbefore⟩ := exists_firstFree hc hT.lenEq hocc hs
  rw [probeGet_skip E hs fuel (by omega) (fun t ht =>
    ⟨hbefore t ht, fun hne => hnl ⟨(hs + t) % cap, Nat.mod_lt _ hc, hbefore t ht, hne⟩⟩)]
  obtain ⟨g, hg⟩ : ∃ g, fuel - E = g + 1 := ⟨fuel - E - 1, by omega⟩
  rw [hg]
  have hempty : (nodeAt nodes ((hs + E) % cap)).hash = 0 := not_not.mp hfree
  simp [probeGet, hempty]

/-- The find loop of `json_hmap_del` finds a stored hash. -/
theorem probeDel_hit {cap : Nat} {nodes : List (Hnode V)}
    (hT : TInv cap nodes) (hc : 0 < cap) {j : Nat} (hj : j < cap)
    (hocc : Occupied nodes j) {fuel : Nat} (hf : cap ≤ fuel) :
    probeDel cap nodes (nodeAt nodes j).hash ((nodeAt nodes j).hash % cap) fuel
      = some (some j) := by
  obtain ⟨hback, hDcap, hoccT, hneT⟩ := stored_probe_facts hT hc hj hocc
  rw [probeDel_skip (slotDist cap ((nodeAt nodes j).hash % cap) j)
    (nodeAt nodes j).hash fuel (by omega)
    (fun t ht => ⟨hoccT t (Nat.le_of_lt ht), hneT t ht⟩), hback]
  obtain ⟨g, hg⟩ : ∃ g, fuel - slotDist cap ((nodeAt nodes j).hash % cap) j = g + 1 :=
    ⟨fuel - slotDist cap ((nodeAt nodes j).hash % cap) j - 1, by omega⟩
  rw [hg]
  simp [probeDel]

/-- The find loop of `json_hmap_del` reports a miss for an absent nonzero
hash. -/
theorem probeDel_miss {cap : Nat} {nodes : List (Hnode V)}
    (hT : TInv cap nodes) (hc : 0 < cap) (hocc : occCount nodes < cap)
    {hs : Nat} (hnz : hs ≠ 0) (hnl : ¬ LiveN cap nodes hs)
    {fuel : Nat} (hf : cap ≤ fuel) :
    probeDel cap nodes hs (hs % cap) fuel = some none := by
  obtain ⟨E, hE, hfree, hbefore⟩ := exists_firstFree hc hT.lenEq hocc hs
  rw [probeDel_skip E hs fuel (by omega) (fun t ht =>
    ⟨hbefore t ht, fun hne => hnl ⟨(hs + t) % cap, Nat.mod_lt _ hc, hbefore t ht, hne⟩⟩)]
  obtain ⟨g, hg⟩ : ∃ g, fuel - E = g + 1 := ⟨fuel - E - 1, by omega⟩
  rw [hg]
  have hempty : (nodeAt nodes ((hs + E) % cap)).hash = 0 := not_not.mp hfree
  simp [probeDel, hempty, Ne.symm hnz]

/-- `json_hmap_put_node`'s probe on a fresh hash: insertion at the first free
slot, with `steps` increased by the probe distance. -/
theorem probePut_insert {cap : Nat} {nodes : List (Hnode V)} {node : Hnode V}
    (hT : TInv cap nodes) (hc : 0 < cap) (hocc : occCount nodes < cap)
    (hnl : ¬ LiveN cap nodes node.hash)
    {fuel : Nat} (hf : cap ≤ fuel) (steps0 : Nat) :
    ∃ E < cap, FirstFree cap nodes node.hash E ∧
      probePut cap node nodes (node.hash % cap) steps0 fuel
        = some (nodes.set ((node.hash + E) % cap)
            { node with steps := steps0 + E }, true) := by
  obtain ⟨E, hE, hfree, hbefore⟩ := exists_firstFree hc hT.lenEq hocc node.hash
  refine ⟨E, hE, ⟨hfree, hbefore⟩, ?_⟩
  rw [probePut_skip E node.hash steps0 fuel (by omega) (fun t ht =>
    ⟨hbefore t ht, fun hne =>
      hnl ⟨(node.hash + t) % cap, Nat.mod_lt _ hc, hbefore t ht, hne⟩⟩)]
  obtain ⟨g, hg⟩ : ∃ g, fuel - E = g + 1 := ⟨fuel - E - 1, by omega⟩
  rw [hg]
  have hempty : (nodeAt nodes ((node.hash + E) % cap)).hash = 0 := not_not.mp hfree
  simp [probePut, hempty]

/-- `json_hmap_put_node`'s probe on a stored hash: in-place object
overwrite. -/
theorem probePut_overwrite {cap : Nat} {nodes : List (Hnode V)} {node : Hnode V}
    (hT : TInv cap nodes) (hc : 0 < cap) {j : Nat} (hj : j < cap)
    (hocc : Occupied nodes j) (hhash : (nodeAt nodes j).hash = node.hash)
    {fuel : Nat} (hf : cap ≤ fuel) (steps0 : Nat) :
    probePut cap node nodes (node.hash % cap) steps0 fuel
      = some (nodes.set j { nodeAt nodes j with object := node.object }, false) := by
  obtain ⟨hback, hDcap, hoccT, hneT⟩ := stored_probe_facts hT hc hj hocc
  rw [hhash] at hback hDcap hoccT hneT
  rw [probePut_skip (slotDist cap (node.hash % cap) j) node.hash steps0 fuel (by omega)
    (fun t ht => ⟨hoccT t (Nat.le_of_lt ht), hneT t ht⟩), hback]
  obtain ⟨g, hg⟩ : ∃ g, fuel - slotDist cap (node.hash % cap) j = g + 1 :=
    ⟨fuel - slotDist cap (node.hash % cap) j - 1, by omega⟩
  rw [hg]
  have hocc' : ¬ (nodeAt nodes j).hash = 0 := hocc
  have hnz0 : ¬ node.hash = 0 := by rw [← hhash]; exact hocc'
  simp [probePut, hocc', hnz0, hhash]

/-- Case split for occupancy after a point update. -/
theorem Occupied_set_iff {nodes : List (Hnode V)} {p i : Nat} {n : Hnode V}
    (hp : p < nodes.length) :
    Occupied (nodes.set p n) i ↔ (i = p ∧ n.hash ≠ 0) ∨ (i ≠ p ∧ Occupied nodes i) := by
  by_cases h : i = p
  · subst h
    simp [Occupied, nodeAt_set_self hp]
  · simp [Occupied, nodeAt_set_ne (fun he => h he.symm), h]

/-- A slot update with an occupied node preserves occupancy elsewhere. -/
theorem Occupied_set_mono {nodes : List (Hnode V)} {p i : Nat} {n : Hnode V}
    (hp : p < nodes.length) (hn : n.hash ≠ 0) (h : Occupied nodes i ∨ i = p) :
    Occupied (nodes.set p n) i := by
  rw [Occupied_set_iff hp]
  by_cases he : i = p
  · exact Or.inl ⟨he, hn⟩
  · exact Or.inr ⟨he, h.resolve_right he⟩

/-- Inserting a fresh node at the first free probe slot preserves the table
invariant and adds exactly that hash to the contents. -/
theorem table_insert {cap : Nat} {nodes : List (Hnode V)} {node : Hnode V} {E : Nat}
    (hT : TInv cap nodes) (hc : 0 < cap)
    (hnz : node.hash ≠ 0) (hW : node.hash < W) (hsome : node.object.isSome)
    (hnl : ¬ LiveN cap nodes node.hash)
    (hE : E < cap) (hFF : FirstFree cap nodes node.hash E) :
    TInv cap (nodes.set ((node.hash + E) % cap) { node with steps := E }) ∧
    occCount (nodes.set ((node.hash + E) % cap) { node with steps := E })
      = occCount nodes + 1 ∧
    (∀ hs, LiveN cap (nodes.set ((node.hash + E) % cap) { node with steps := E }) hs
      ↔ (hs = node.hash ∨ LiveN cap nodes hs)) ∧
    (∀ hs v, StoredN cap (nodes.set ((node.hash + E) % cap) { node with steps := E }) hs v
      ↔ ((hs = node.hash ∧ node.object = some v) ∨ StoredN cap nodes hs v)) := by
  set p := (node.hash + E) % cap with hpdef
  have hpcap : p < cap := Nat.mod_lt _ hc
  have hplen : p < nodes.length := by rw [hT.lenEq]; exact hpcap
  have hpemp : ¬ Occupied nodes p := hFF.1
  set node' : Hnode V := { node with steps := E } with hn'
  have hnhash : node'.hash = node.hash := rfl
  have hnsteps : node'.steps = E := rfl
  have hnobj : node'.object = node.object := rfl
  have hnz' : node'.hash ≠ 0 := by rw [hnhash]; exact hnz
  have hAtP : nodeAt (nodes.set p node') p = node' := nodeAt_set_self hplen node'
  have hAtNe : ∀ i, i ≠ p → nodeAt (nodes.set p node') i = nodeAt nodes i :=
    fun i hi => nodeAt_set_ne (fun he => hi he.symm) node'
  have hOcc : ∀ i, Occupied (nodes.set p node') i ↔ (i = p ∨ Occupied nodes i) := by
    intro i
    rw [Occupied_set_iff hplen]
    constructor
    · rintro (⟨rfl, -⟩ | ⟨-, h⟩)
      · exact Or.inl rfl
      · exact Or.inr h
    · rintro (rfl | h)
      · exact Or.inl ⟨rfl, hnz'⟩
      · by_cases he : i = p
        · exact Or.inl ⟨he, hnz'⟩
        · exact Or.inr ⟨he, h⟩
  have hOccNotP : ∀ i, Occupied nodes i → i ≠ p :=
    fun i hi he => hpemp (he ▸ hi)
  have hLive : ∀ hs, LiveN cap (nodes.set p node') hs
      ↔ (hs = node.hash ∨ LiveN cap nodes hs) := by
    intro hs
    constructor
    · rintro ⟨i, hi, hoc, hh⟩
      by_cases he : i = p
      · subst he
        rw [hAtP, hnhash] at hh
        exact Or.inl hh.symm
      · exact Or.inr ⟨i, hi, by rwa [hOcc i, or_iff_right he] at hoc,
          by rwa [hAtNe i he] at hh⟩
    · rintro (rfl | ⟨i, hi, hoc, hh⟩)
      · exact ⟨p, hpcap, (hOcc p).2 (Or.inl rfl), by rw [hAtP, hnhash]⟩
      · have hne := hOccNotP i hoc
        exact ⟨i, hi, (hOcc i).2 (Or.inr hoc), by rwa [hAtNe i hne]⟩
  have hStored : ∀ hs v, StoredN cap (nodes.set p node') hs v
      ↔ ((hs = node.hash ∧ node.object = some v) ∨ StoredN cap nodes hs v) := by
    intro hs v
    constructor
    · rintro ⟨i, hi, hoc, hh, ho⟩
      by_cases he : i = p
      · subst he
        rw [hAtP, hnhash] at hh
        rw [hAtP, hnobj] at ho
        exact Or.inl ⟨hh.symm, ho⟩
      · exact Or.inr ⟨i, hi, by rwa [hOcc i, or_iff_right he] at hoc,
          by rwa [hAtNe i he] at hh, by rwa [hAtNe i he] at ho⟩
    · rintro (⟨rfl, ho⟩ | ⟨i, hi, hoc, hh, ho⟩)
      · exact ⟨p, hpcap, (hOcc p).2 (Or.inl rfl), by rw [hAtP, hnhash],
          by rw [hAtP, hnobj]; exact ho⟩
      · have hne := hOccNotP i hoc
        exact ⟨i, hi, (hOcc i).2 (Or.inr hoc),
          by rwa [hAtNe i hne], by rwa [hAtNe i hne]⟩
  have hCnt : occCount (nodes.set p node') = occCount nodes + 1 := by
    have hset := occCount_set nodes p node' hplen
    have hold : (nodeAt nodes p).hash = 0 := not_not.mp hpemp
    have h1 : ((if (nodeAt nodes p).hash ≠ 0 then 1 else 0) : Nat) = 0 := by
      rw [hold]; simp
    have h2 : ((if node'.hash ≠ 0 then 1 else 0) : Nat) = 1 := by
      simp [hnz']
    omega
  refine ⟨⟨by rw [List.length_set]; exact hT.lenEq, ?_, ?_⟩, hCnt, hLive, hStored⟩
  · intro i hi hoc
    by_cases he : i = p
    · subst he
      refine ⟨?_, ?_, ?_, ?_⟩
      · rw [hAtP, hnhash]; exact hW
      · rw [hAtP, hnobj]; exact hsome
      · rw [hAtP]
        show node'.steps = slotDist cap (node'.hash % cap) p
        rw [hnsteps, hnhash, hpdef, ← cyc_base]
        exact (slotDist_of_add (Nat.mod_lt _ hc) hE).symm
      · rw [hAtP]
        show ∀ t ≤ node'.steps, Occupied (nodes.set p node') ((node'.hash % cap + t) % cap)
        intro t ht
        rw [hnsteps] at ht
        rw [hnhash, cyc_base]
        rcases Nat.lt_or_ge t E with hlt | hge
        · exact Occupied_set_mono hplen hnz' (Or.inl (hFF.2 t hlt))
        · have : t = E := by omega
          subst this
          rw [← hpdef]
          exact Occupied_set_mono hplen hnz' (Or.inr rfl)
    · have hoc0 : Occupied nodes i := by rwa [hOcc i, or_iff_right he] at hoc
      obtain ⟨hW0, hsome0, hsteps0, hchain0⟩ := hT.slotsOk i hi hoc0
      refine ⟨?_, ?_, ?_, ?_⟩ <;> rw [hAtNe i he]
      · exact hW0
      · exact hsome0
      · exact hsteps0
      · intro t ht
        exact Occupied_set_mono hplen hnz' (Or.inl (hchain0 t ht))
  · intro i hi j hj hoci hocj hh
    by_cases hei : i = p <;> by_cases hej : j = p
    · rw [hei, hej]
    · subst hei
      rw [hAtP, hnhash] at hh
      have hocj0 : Occupied nodes j := by rwa [hOcc j, or_iff_right hej] at hocj
      rw [hAtNe j hej] at hh
      exact absurd ⟨j, hj, hocj0, hh.symm⟩ hnl
    · subst hej
      rw [hAtP, hnhash] at hh
      have hoci0 : Occupied nodes i := by rwa [hOcc i, or_iff_right hei] at hoci
      rw [hAtNe i hei] at hh
      exact absurd ⟨i, hi, hoci0, hh⟩ hnl
    · have hoci0 : Occupied nodes i := by rwa [hOcc i, or_iff_right hei] at hoci
      have hocj0 : Occupied nodes j := by rwa [hOcc j, or_iff_right hej] at hocj
      rw [hAtNe i hei, hAtNe j hej] at hh
      exact hT.injOk i hi j hj hoci0 hocj0 hh

/-- Overwriting the object pointer of a stored hash preserves the table
invariant, the occupancy and the live set, and replaces one stored value. -/
theorem table_overwrite {cap : Nat} {nodes : List (Hnode V)} {node : Hnode V} {j : Nat}
    (hT : TInv cap nodes) (hc : 0 < cap) (hj : j < cap)
    (hocc : Occupied nodes j) (hhash : (nodeAt nodes j).hash = node.hash)
    (hsome : node.object.isSome) :
    TInv cap (nodes.set j { nodeAt nodes j with object := node.object }) ∧
    occCount (nodes.set j { nodeAt nodes j with object := node.object })
      = occCount nodes ∧
    (∀ hs, LiveN cap (nodes.set j { nodeAt nodes j with object := node.object }) hs
      ↔ LiveN cap nodes hs) ∧
    (∀ hs v, StoredN cap (nodes.set j { nodeAt nodes j with object := node.object }) hs v
      ↔ ((hs = node.hash ∧ node.object = some v) ∨
         (hs ≠ node.hash ∧ StoredN cap nodes hs v))) := by
  have hjlen : j < nodes.length := by rw [hT.lenEq]; exact hj
  set node' : Hnode V := { nodeAt nodes j with object := node.object } with hn'
  have hnhash : node'.hash = (nodeAt nodes j).hash := rfl
  have hnsteps : node'.steps = (nodeAt nodes j).steps := rfl
  have hnobj : node'.object = node.object := rfl
  have hnz : node'.hash ≠ 0 := by rw [hnhash]; exact hocc
  have hAtJ : nodeAt (nodes.set j node') j = node' := nodeAt_set_self hjlen node'
  have hAtNe : ∀ i, i ≠ j → nodeAt (nodes.set j node') i = nodeAt nodes i :=
    fun i hi => nodeAt_set_ne (fun he => hi he.symm) node'
  have hHashAll : ∀ i, (nodeAt (nodes.set j node') i).hash = (nodeAt nodes i).hash := by
    intro i
    by_cases he : i = j
    · subst he; rw [hAtJ]
    · rw [hAtNe i he]
  have hStepsAll : ∀ i, (nodeAt (nodes.set j node') i).steps = (nodeAt nodes i).steps := by
    intro i
    by_cases he : i = j
    · subst he; rw [hAtJ]
    · rw [hAtNe i he]
  have hOcc : ∀ i, Occupied (nodes.set j node') i ↔ Occupied nodes i := by
    intro i
    unfold Occupied
    rw [hHashAll i]
  have hCnt : occCount (nodes.set j node') = occCount nodes := by
    have hset := occCount_set nodes j node' hjlen
    rw [hnhash] at hset
    omega
  refine ⟨⟨by rw [List.length_set]; exact hT.lenEq, ?_, ?_⟩, hCnt, ?_, ?_⟩
  · intro i hi hoc
    have hoc0 : Occupied nodes i := (hOcc i).1 hoc
    obtain ⟨hW0, hsome0, hsteps0, hchain0⟩ := hT.slotsOk i hi hoc0
    have hhome : homeOf cap (nodeAt (nodes.set j node') i) = homeOf cap (nodeAt nodes i) := by
      unfold homeOf
      rw [hHashAll i]
    refine ⟨by rw [hHashAll i]; exact hW0, ?_, ?_, ?_⟩
    · by_cases he : i = j
      · subst he; rw [hAtJ, hnobj]; exact hsome
      · rw [hAtNe i he]; exact hsome0
    · rw [hStepsAll i, hhome]
      exact hsteps0
    · intro t ht
      rw [hStepsAll i] at ht
      rw [hhome]
      exact (hOcc _).2 (hchain0 t ht)
  · intro i hi j2 hj2 hoci hocj hh
    rw [hHashAll i, hHashAll j2] at hh
    exact hT.injOk i hi j2 hj2 ((hOcc i).1 hoci) ((hOcc j2).1 hocj) hh
  · intro hs
    constructor
    · rintro ⟨i, hi, hoc, hh⟩
      exact ⟨i, hi, (hOcc i).1 hoc, by rwa [hHashAll i] at hh⟩
    · rintro ⟨i, hi, hoc, hh⟩
      exact ⟨i, hi, (hOcc i).2 hoc, by rwa [hHashAll i]⟩
  · intro hs v
    constructor
    · rintro ⟨i, hi, hoc, hh, ho⟩
      by_cases he : i = j
      · subst he
        rw [hAtJ, hnobj] at ho
        rw [hHashAll i] at hh
        exact Or.inl ⟨by rw [← hh, hhash], ho⟩
      · rw [hAtNe i he] at ho
        rw [hHashAll i] at hh
        refine Or.inr ⟨?_, ⟨i, hi, (hOcc i).1 hoc, hh, ho⟩⟩
        intro heq
        exact he (hT.injOk i hi j hj ((hOcc i).1 hoc) hocc (by rw [hh, heq, hhash]))
    · rintro (⟨rfl, ho⟩ | ⟨hneq, ⟨i, hi, hoc, hh, ho⟩⟩)
      · exact ⟨j, hj, (hOcc j).2 hocc, by rw [hHashAll j]; exact hhash,
          by rw [hAtJ, hnobj]; exact ho⟩
      · have hne : i ≠ j := fun he => hneq (by rw [← hh, he, hhash])
        exact ⟨i, hi, (hOcc i).2 hoc, by rw [hHashAll i]; exact hh,
          by rw [hAtNe i hne]; exact ho⟩

theorem nodeAt_eq_getElem {nodes : List (Hnode V)} {i : Nat} (h : i < nodes.length) :
    nodeAt nodes i = nodes[i] := by
  rw [nodeAt_eq_get, List.getElem?_eq_getElem h]
  rfl

/-- Slot-wise stored contents coincide with list membership. -/
theorem storedN_iff_mem {cap : Nat} {nodes : List (Hnode V)}
    (hlen : nodes.length = cap) (hs : Nat) (v : V) :
    StoredN cap nodes hs v ↔
      ∃ n ∈ nodes, n.hash ≠ 0 ∧ n.hash = hs ∧ n.object = some v := by
  constructor
  · rintro ⟨i, hi, hoc, hh, ho⟩
    have hi' : i < nodes.length := by omega
    exact ⟨nodeAt nodes i, by rw [nodeAt_eq_getElem hi']; exact List.getElem_mem hi',
      hoc, hh, ho⟩
  · rintro ⟨n, hn, hnz, hh, ho⟩
    obtain ⟨i, hi, rfl⟩ := List.mem_iff_getElem.1 hn
    exact ⟨i, by omega, by rw [Occupied, nodeAt_eq_getElem hi]; exact hnz,
      by rw [nodeAt_eq_getElem hi]; exact hh, by rw [nodeAt_eq_getElem hi]; exact ho⟩

/-- Slot-wise live hashes coincide with list membership. -/
theorem liveN_iff_mem {cap : Nat} {nodes : List (Hnode V)}
    (hlen : nodes.length = cap) (hs : Nat) :
    LiveN cap nodes hs ↔ ∃ n ∈ nodes, n.hash ≠ 0 ∧ n.hash = hs := by
  constructor
  · rintro ⟨i, hi, hoc, hh⟩
    have hi' : i < nodes.length := by omega
    exact ⟨nodeAt nodes i, by rw [nodeAt_eq_getElem hi']; exact List.getElem_mem hi',
      hoc, hh⟩
  · rintro ⟨n, hn, hnz, hh⟩
    obtain ⟨i, hi, rfl⟩ := List.mem_iff_getElem.1 hn
    exact ⟨i, by omega, by rw [Occupied, nodeAt_eq_getElem hi]; exact hnz,
      by rw [nodeAt_eq_getElem hi]; exact hh⟩

/-- Hash-injectivity of the table, read off element-wise. -/
theorem pairwise_hashes {cap : Nat} {nodes : List (Hnode V)} (hT : TInv cap nodes) :
    List.Pairwise (fun a b : Hnode V => a.hash ≠ 0 → b.hash ≠ 0 → a.hash ≠ b.hash)
      nodes := by
  rw [List.pairwise_iff_getElem]
  intro i j hi hj hij ha hb he
  have hic : i < cap := by rw [← hT.lenEq]; exact hi
  have hjc : j < cap := by rw [← hT.lenEq]; exact hj
  have := hT.injOk i hic j hjc
    (by rw [Occupied, nodeAt_eq_getElem hi]; exact ha)
    (by rw [Occupied, nodeAt_eq_getElem hj]; exact hb)
    (by rw [nodeAt_eq_getElem hi, nodeAt_eq_getElem hj]; exact he)
  omega

/-- Element-wise well-formedness of stored nodes. -/
theorem elems_ok {cap : Nat} {nodes : List (Hnode V)} (hT : TInv cap nodes) :
    ∀ n ∈ nodes, n.hash ≠ 0 → n.hash < W ∧ n.object.isSome := by
  intro n hn hnz
  obtain ⟨i, hi, rfl⟩ := List.mem_iff_getElem.1 hn
  have hic : i < cap := by rw [← hT.lenEq]; exact hi
  obtain ⟨h1, h2, -, -⟩ := hT.slotsOk i hic
    (by rw [Occupied, nodeAt_eq_getElem hi]; exact hnz)
  rw [nodeAt_eq_getElem hi] at h1 h2
  exact ⟨h1, h2⟩

/-- The allocator-abstracted re-insertion loop with the depth-`rfuel`
allocator is the fueled re-insertion loop. -/
theorem rehashListWith_eq (rfuel : Nat) :
    ∀ (old : List (Hnode V)) (h : Hmap V),
    rehashListWith (allocSlotF rfuel) old h = rehashListF rfuel old h := by
  intro old
  induction old with
  | nil =>
    intro h
    rfl
  | cons n rest ih =>
    intro h
    simp only [rehashListWith, rehashListF]
    by_cases hnz : n.hash ≠ 0
    · rw [if_pos hnz, if_pos hnz,
        show putNodeWith (allocSlotF rfuel) h { n with index := n.hash % h.cap, steps := 0 } = putNodeF rfuel h { n with index := n.hash % h.cap, steps := 0 } from rfl]
      cases hput : putNodeF rfuel h { n with index := n.hash % h.cap, steps := 0 } with
      | none => rfl
      | some h' => exact ih h'
    · rw [if_neg hnz, if_neg hnz]
      exact ih h

/-- Unfold `json_hmap_alloc_slot` when growth fires. -/
theorem allocSlotF_grow {h : Hmap V} {rf : Nat}
    (hcond : (h.size + 1) % W > h.cap / 2) :
    allocSlotF (rf + 1) h = (match rehashF rf h ((h.cap * 2) % W) with
      | none => none
      | some h2 => some { h2 with size := (h2.size + 1) % W }) := by
  simp only [allocSlotF]
  rw [if_pos hcond, rehashListWith_eq]
  cases hx : rehashF rf h ((h.cap * 2) % W) with
  | none =>
    rw [show rehashListF rf h.nodes { h with cap := (h.cap * 2) % W, nodes := List.replicate ((h.cap * 2) % W) emptyNode, size := 0 } = rehashF rf h ((h.cap * 2) % W) from rfl, hx]
  | some h2 =>
    rw [show rehashListF rf h.nodes { h with cap := (h.cap * 2) % W, nodes := List.replicate ((h.cap * 2) % W) emptyNode, size := 0 } = rehashF rf h ((h.cap * 2) % W) from rfl, hx]

/-- Unfold `json_hmap_alloc_slot` when no growth fires. -/
theorem allocSlotF_nogrow {h : Hmap V} {rf : Nat}
    (hcond : ¬ (h.size + 1) % W > h.cap / 2) :
    allocSlotF rf h = some { h with size := (h.size + 1) % W } := by
  cases rf with
  | zero =>
    simp only [allocSlotF]
    rw [if_neg hcond]
  | succ rf =>
    simp only [allocSlotF]
    rw [if_neg hcond]

/-- The re-insertion loop of `json_hmap_rehash`: inserting a list of
pairwise-distinct, well-formed occupied nodes into a table that stays at most
half full never triggers a nested rehash and realises exactly the union of
the old and new contents. -/
theorem rehashList_ok (rfuel : Nat) :
    ∀ (old : List (Hnode V)) (acc : Hmap V),
    (∀ n ∈ old, n.hash ≠ 0 → n.hash < W ∧ n.object.isSome) →
    List.Pairwise (fun a b : Hnode V => a.hash ≠ 0 → b.hash ≠ 0 → a.hash ≠ b.hash) old →
    (∀ n ∈ old, n.hash ≠ 0 → ¬ LiveN acc.cap acc.nodes n.hash) →
    TInv acc.cap acc.nodes →
    acc.size = occCount acc.nodes →
    occCount acc.nodes + occCount old ≤ acc.cap / 2 →
    0 < acc.cap → acc.cap < W →
    ∃ h', rehashListF rfuel old acc = some h' ∧
      h'.cap = acc.cap ∧ h'.vec = acc.vec ∧ h'.min_cap = acc.min_cap ∧
      h'.size = acc.size + occCount old ∧
      TInv h'.cap h'.nodes ∧
      occCount h'.nodes = occCount acc.nodes + occCount old ∧
      (∀ hs, LiveN acc.cap h'.nodes hs ↔
        (LiveN acc.cap acc.nodes hs ∨ ∃ n ∈ old, n.hash ≠ 0 ∧ n.hash = hs)) ∧
      (∀ hs v, StoredN acc.cap h'.nodes hs v ↔
        (StoredN acc.cap acc.nodes hs v ∨
          ∃ n ∈ old, n.hash ≠ 0 ∧ n.hash = hs ∧ n.object = some v)) := by
  intro old
  induction old with
  | nil =>
    intro acc helt hpair hdisj hT hsz hload hc hW
    refine ⟨acc, by simp [rehashListF], rfl, rfl, rfl, by simp [occCount], hT, by simp [occCount], ?_, ?_⟩
    · intro hs; simp
    · intro hs v; simp
  | cons n rest ih =>
    intro acc helt hpair hdisj hT hsz hload hc hW
    by_cases hnz : n.hash = 0
    · -- skipped empty slot
      have hstep : rehashListF rfuel (n :: rest) acc = rehashListF rfuel rest acc := by
        simp [rehashListF, hnz]
      have hcnt : occCount (n :: rest) = occCount rest := by
        simp [occCount, List.filter, hnz]
      obtain ⟨h', hrun, hcap, hvec, hmin, hsz', hT', hocc', hlive', hstored'⟩ :=
        ih acc (fun m hm => helt m (List.mem_cons_of_mem n hm))
          (List.Pairwise.sublist (List.sublist_cons_self n rest) hpair)
          (fun m hm => hdisj m (List.mem_cons_of_mem n hm)) hT hsz
          (by rw [hcnt] at hload; exact hload) hc hW
      refine ⟨h', hstep ▸ hrun, hcap, hvec, hmin, by rw [hsz', hcnt], hT',
        by rw [hocc', hcnt], ?_, ?_⟩
      · intro hs
        rw [hlive' hs]
        constructor
        · rintro (h | ⟨m, hm, hx⟩)
          · exact Or.inl h
          · exact Or.inr ⟨m, List.mem_cons_of_mem n hm, hx⟩
        · rintro (h | ⟨m, hm, hx⟩)
          · exact Or.inl h
          · rcases List.mem_cons.1 hm with rfl | hm'
            · exact absurd hx.1 (by simp [hnz])
            · exact Or.inr ⟨m, hm', hx⟩
      · intro hs v
        rw [hstored' hs v]
        constructor
        · rintro (h | ⟨m, hm, hx⟩)
          · exact Or.inl h
          · exact Or.inr ⟨m, List.mem_cons_of_mem n hm, hx⟩
        · rintro (h | ⟨m, hm, hx⟩)
          · exact Or.inl h
          · rcases List.mem_cons.1 hm with rfl | hm'
            · exact absurd hx.1 (by simp [hnz])
            · exact Or.inr ⟨m, hm', hx⟩
    · -- re-insert an occupied node
      have hcnt : occCount (n :: rest) = occCount rest + 1 := by
        simp [occCount, List.filter, hnz]
      have hrest1 : 1 ≤ occCount (n :: rest) := by omega
      have hoccLt : occCount acc.nodes < acc.cap := by omega
      set node1 : Hnode V := { n with index := n.hash % acc.cap, steps := 0 } with hn1
      have hn1hash : node1.hash = n.hash := rfl
      have hn1obj : node1.object = n.object := rfl
      have hn1nz : node1.hash ≠ 0 := by rw [hn1hash]; exact hnz
      obtain ⟨hWn, hSn⟩ := helt n (List.mem_cons_self n rest) hnz
      have hn1W : node1.hash < W := by rw [hn1hash]; exact hWn
      have hn1some : node1.object.isSome := by rw [hn1obj]; exact hSn
      have hnl : ¬ LiveN acc.cap acc.nodes node1.hash := by
        rw [hn1hash]; exact hdisj n (List.mem_cons_self n rest) hnz
      obtain ⟨E, hE, hFF, hprobe⟩ :=
        @probePut_insert V acc.cap acc.nodes node1 hT hc hoccLt hnl acc.cap (Nat.le_refl acc.cap) 0
      rw [Nat.zero_add] at hprobe
      obtain ⟨hT2, hcnt2, hlive2, hstored2⟩ :=
        table_insert hT hc hn1nz hn1W hn1some hnl hE hFF
      set nodes2 := acc.nodes.set ((node1.hash + E) % acc.cap)
        { node1 with steps := E } with hnodes2
      set acc2 : Hmap V :=
        { acc with nodes := nodes2, size := (acc.size + 1) % W } with hacc2
      have hsz2 : (acc.size + 1) % W = occCount acc.nodes + 1 := by
        rw [hsz]
        have : occCount acc.nodes + 1 < W := by omega
        exact Nat.mod_eq_of_lt this
      have hstep : rehashListF rfuel (n :: rest) acc = rehashListF rfuel rest acc2 := by
        have hput : putNodeF rfuel acc node1 = some acc2 := by
          rw [putNodeF]
          have hidx : node1.index = node1.hash % acc.cap := rfl
          have hst : node1.steps = 0 := rfl
          rw [hidx, hst, hprobe]
          have hcond : ¬ ((acc.size + 1) % W > acc.cap / 2) := by
            rw [hsz2]
            omega
          have hcond' : ¬ (({ acc with nodes := nodes2 } : Hmap V).size + 1) % W > ({ acc with nodes := nodes2 } : Hmap V).cap / 2 := hcond
          simp only [if_true]
          rw [allocSlotF_nogrow hcond']
        simp only [rehashListF, if_pos hnz, hput]
      have hT2' : TInv acc2.cap acc2.nodes := hT2
      have hdisj2 : ∀ m ∈ rest, m.hash ≠ 0 → ¬ LiveN acc2.cap acc2.nodes m.hash := by
        intro m hm hmz hlv
        rcases (hlive2 m.hash).1 hlv with he | hlv0
        · have := (List.pairwise_cons.1 hpair).1 m hm hnz hmz
          rw [hn1hash] at he
          exact this he.symm
        · exact hdisj m (List.mem_cons_of_mem n hm) hmz hlv0
      obtain ⟨h', hrun, hcap', hvec', hmin', hsz', hT', hocc', hlive', hstored'⟩ :=
        ih acc2 (fun m hm => helt m (List.mem_cons_of_mem n hm))
          (List.Pairwise.sublist (List.sublist_cons_self n rest) hpair)
          hdisj2 hT2'
          (by show (acc.size + 1) % W = occCount nodes2; rw [hsz2, hcnt2])
          (by show occCount nodes2 + occCount rest ≤ acc.cap / 2
              rw [hcnt2]; omega)
          hc hW
      refine ⟨h', hstep ▸ hrun, hcap', hvec', hmin', ?_, hT', ?_, ?_, ?_⟩
      · rw [hsz']
        show (acc.size + 1) % W + occCount rest = acc.size + occCount (n :: rest)
        rw [hsz2, hsz, hcnt]
        omega
      · rw [hocc']
        show occCount nodes2 + occCount rest = occCount acc.nodes + occCount (n :: rest)
        rw [hcnt2, hcnt]
        omega
      · intro hs
        rw [hlive' hs]
        constructor
        · rintro (h2 | ⟨m, hm, hx⟩)
          · rcases (hlive2 hs).1 h2 with he | h0
            · exact Or.inr ⟨n, List.mem_cons_self n rest, hnz, by rw [← hn1hash, he]⟩
            · exact Or.inl h0
          · exact Or.inr ⟨m, List.mem_cons_of_mem n hm, hx⟩
        · rintro (h0 | ⟨m, hm, hmz, hmh⟩)
          · exact Or.inl ((hlive2 hs).2 (Or.inr h0))
          · rcases List.mem_cons.1 hm with rfl | hm'
            · exact Or.inl ((hlive2 hs).2 (Or.inl (by rw [← hmh, hn1hash])))
            · exact Or.inr ⟨m, hm', hmz, hmh⟩
      · intro hs v
        rw [hstored' hs v]
        constructor
        · rintro (h2 | ⟨m, hm, hx⟩)
          · rcases (hstored2 hs v).1 h2 with ⟨he, ho⟩ | h0
            · exact Or.inr ⟨n, List.mem_cons_self n rest, hnz,
                by rw [← hn1hash, he], by rw [← hn1obj, ho]⟩
            · exact Or.inl h0
          · exact Or.inr ⟨m, List.mem_cons_of_mem n hm, hx⟩
        · rintro (h0 | ⟨m, hm, hmz, hmh, hmo⟩)
          · exact Or.inl ((hstored2 hs v).2 (Or.inr h0))
          · rcases List.mem_cons.1 hm with rfl | hm'
            · exact Or.inl ((hstored2 hs v).2 (Or.inl
                ⟨by rw [hn1hash, hmh], by rw [hn1obj, hmo]⟩))
            · exact Or.inr ⟨m, hm', hmz, hmh, hmo⟩

/-- An empty replicated table has no live hash. -/
theorem liveN_replicate_false (cap c : Nat) (hs : Nat) :
    ¬ LiveN cap (List.replicate c (emptyNode : Hnode V)) hs := by
  rintro ⟨i, hi, hoc, hh⟩
  rw [Occupied, nodeAt_replicate] at hoc
  exact hoc rfl

/-- `json_hmap_rehash` at an adequate capacity: contents are preserved, the
table invariant is re-established, and `size` is reset to the true
occupancy. -/
theorem rehash_ok {h : Hmap V} (rfuel newCap : Nat)
    (hT : TInv h.cap h.nodes) (hc : 0 < newCap) (hWc : newCap < W)
    (hload : occCount h.nodes ≤ newCap / 2) :
    ∃ h', rehashF rfuel h newCap = some h' ∧
      h'.cap = newCap ∧ h'.vec = h.vec ∧ h'.min_cap = h.min_cap ∧
      h'.size = occCount h.nodes ∧
      TInv newCap h'.nodes ∧
      occCount h'.nodes = occCount h.nodes ∧
      (∀ hs, LiveN newCap h'.nodes hs ↔ LiveN h.cap h.nodes hs) ∧
      (∀ hs v, StoredN newCap h'.nodes hs v ↔ StoredN h.cap h.nodes hs v) := by
  have hTacc : TInv newCap (List.replicate newCap (emptyNode : Hnode V)) := by
    refine ⟨by simp, ?_, ?_⟩
    · intro i hi hoc
      rw [Occupied, nodeAt_replicate] at hoc
      exact absurd rfl hoc
    · intro i hi j hj hoci hocj hh
      rw [Occupied, nodeAt_replicate] at hoci
      exact absurd rfl hoci
  obtain ⟨h', hrun, hcap', hvec', hmin', hsz', hT', hocc', hlive', hstored'⟩ :=
    rehashList_ok rfuel h.nodes
      { h with cap := newCap, nodes := List.replicate newCap emptyNode, size := 0 }
      (elems_ok hT) (pairwise_hashes hT)
      (fun n hn hnz hl => liveN_replicate_false newCap newCap n.hash hl)
      hTacc (by simp [occCount_replicate]) (by simp [occCount_replicate]; exact hload)
      hc hWc
  dsimp only at hrun hcap' hvec' hmin' hsz' hocc' hlive' hstored'
  rw [Nat.zero_add] at hsz'
  rw [occCount_replicate, Nat.zero_add] at hocc'
  refine ⟨h', by rw [rehashF]; exact hrun, hcap', hvec', hmin', hsz', ?_, hocc', ?_, ?_⟩
  · rw [← hcap']
    exact hT'
  · intro hs
    rw [hlive' hs]
    constructor
    · rintro (habs | hmem)
      · exact absurd habs (liveN_replicate_false _ _ _)
      · exact (liveN_iff_mem hT.lenEq hs).2 hmem
    · intro hl
      exact Or.inr ((liveN_iff_mem hT.lenEq hs).1 hl)
  · intro hs v
    rw [hstored' hs v]
    constructor
    · rintro (habs | hmem)
      · obtain ⟨i, hi, hoc, -⟩ := habs
        rw [Occupied, nodeAt_replicate] at hoc
        exact absurd rfl hoc
      · exact (storedN_iff_mem hT.lenEq hs v).2 hmem
    · intro hl
      exact Or.inr ((storedN_iff_mem hT.lenEq hs v).1 hl)

/-- Tables with pointwise-equal occupancy have equal occupancy counts. -/
theorem occCount_congr {a b : List (Hnode V)} (hlen : a.length = b.length)
    (h : ∀ i, Occupied a i ↔ Occupied b i) : occCount a = occCount b := by
  induction a generalizing b with
  | nil =>
    cases b with
    | nil => rfl
    | cons y ys => simp at hlen
  | cons x xs ih =>
    cases b with
    | nil => simp at hlen
    | cons y ys =>
      have h0 := h 0
      simp only [Occupied, nodeAt, List.getD_cons_zero] at h0
      have hx : (x.hash ≠ 0) ↔ (y.hash ≠ 0) := h0
      have htl : occCount xs = occCount ys := by
        refine ih (by simpa using hlen) ?_
        intro i
        have := h (i + 1)
        simpa only [Occupied, nodeAt, List.getD_cons_succ] using this
      simp only [occCount, List.filter]
      by_cases hxz : x.hash = 0
      · have hyz : y.hash = 0 := by
          by_contra hy
          exact (hx.2 hy) hxz
        simp only [hxz, hyz, decide_not]
        simpa [occCount] using htl
      · have hyz : y.hash ≠ 0 := hx.1 hxz
        simp only [decide_not]
        simp [hxz, hyz, occCount] at htl ⊢
        omega

/-- Cancellation on the circle: a point at back-distance `s` from
`(a + d) % cap` with `s ≤ d` lies at distance `d - s` from `a`. -/
theorem slotDist_of_between {cap a b : Nat} (ha : a < cap) (hb : b < cap)
    {d s : Nat} (hd : d < cap) (hs : s ≤ d)
    (hbc : (b + s) % cap = (a + d) % cap) :
    slotDist cap a b = d - s := by
  have hmod : b + s ≡ a + (d - s) + s [MOD cap] := by
    have : a + (d - s) + s = a + d := by omega
    rw [this]
    exact hbc
  have hmod2 : b ≡ a + (d - s) [MOD cap] := Nat.ModEq.add_right_cancel' s hmod
  have hb2 : b = (a + (d - s)) % cap := by
    have h2 : b % cap = (a + (d - s)) % cap := hmod2
    rwa [Nat.mod_eq_of_lt hb] at h2
  rw [hb2]
  exact slotDist_of_add ha (by omega)

/-- A full circle of occupied probe positions contradicts an under-full
table. -/
theorem all_scanned_absurd {cap : Nat} {nodes N0 : List (Hnode V)} {i0 : Nat}
    (hc : 0 < cap) (hlen2 : nodes.length = N0.length) (hlen : N0.length = cap)
    (hocclt : occCount N0 < cap)
    (hOccSame : ∀ i, Occupied nodes i ↔ Occupied N0 i)
    (hsc : ∀ s < cap, Occupied nodes ((i0 + s) % cap)) : False := by
  have hocceq : occCount nodes = occCount N0 := occCount_congr hlen2 hOccSame
  have hnodup : ((List.range cap).map (fun s => (i0 + s) % cap)).Nodup := by
    refine List.Nodup.map_on ?_ (List.nodup_range cap)
    intro x hx y hy hxy
    exact cyc_inj hc (List.mem_range.1 hx) (List.mem_range.1 hy) hxy
  have hge := occCount_ge_of_nodup hnodup (fun p hp => by
    obtain ⟨s, hs, rfl⟩ := List.mem_map.1 hp
    rw [List.mem_range] at hs
    exact ⟨by rw [hlen2, hlen]; exact Nat.mod_lt _ hc, hsc s hs⟩)
  rw [List.length_map, List.length_range] at hge
  omega

/-- `SlotOk` transfers along pointwise-equal occupancy and an unchanged
node. -/
theorem SlotOk_congr {cap : Nat} {a b : List (Hnode V)} {i : Nat}
    (hnode : nodeAt b i = nodeAt a i)
    (hocc : ∀ q, Occupied a q ↔ Occupied b q) (h : SlotOk cap a i) :
    SlotOk cap b i := by
  obtain ⟨h1, h2, h3, h4⟩ := h
  refine ⟨by rw [hnode]; exact h1, by rw [hnode]; exact h2, by rw [hnode]; exact h3, ?_⟩
  rw [hnode]
  intro u hu
  exact (hocc _).1 (h4 u hu)

/-- When the scan has found an empty slot, no surviving occupant's probe
chain passes through the current vacancy: occupants inside the scanned window
have short chains (they failed the shift guard), and a chain from outside
would have to cross the empty slot. -/
theorem shift_chain_avoid {cap : Nat} {nodes : List (Hnode V)} {i0 l t : Nat}
    (hc : 0 < cap) (hlen : nodes.length = cap)
    (htl : l ≤ t) (htcap : t + 1 < cap)
    (hslots : ∀ i < cap, Occupied nodes i → i ≠ (i0 + l) % cap → SlotOk cap nodes i)
    (hreg : ∀ s, l < s → s ≤ t → (nodeAt nodes ((i0 + s) % cap)).steps < s - l)
    (hemp : ¬ Occupied nodes ((i0 + (t + 1)) % cap)) :
    ∀ i < cap, Occupied nodes i → i ≠ (i0 + l) % cap →
      ∀ u ≤ (nodeAt nodes i).steps,
        (homeOf cap (nodeAt nodes i) + u) % cap ≠ (i0 + l) % cap := by
  intro i hi hocc hne u0 hu0 habs
  obtain ⟨-, -, hsteps, hchain⟩ := hslots i hi hocc hne
  have hhome : homeOf cap (nodeAt nodes i) < cap := Nat.mod_lt _ hc
  have hDcap : (nodeAt nodes i).steps < cap := by rw [hsteps]; exact slotDist_lt hc
  have hiback : (homeOf cap (nodeAt nodes i) + (nodeAt nodes i).steps) % cap = i := by
    rw [hsteps]
    exact add_slotDist hhome hi
  set d := (nodeAt nodes i).steps with hd
  set r := d - u0 with hr
  have hir : ((i0 + l) % cap + r) % cap = i := by
    rw [← habs, Nat.mod_add_mod,
      show homeOf cap (nodeAt nodes i) + u0 + r = homeOf cap (nodeAt nodes i) + d by omega]
    exact hiback
  rcases le_or_lt r (t - l) with hcase | hcase
  · -- the occupant sits inside the scanned window
    have hil : i = (i0 + (l + r)) % cap := by
      rw [← hir, Nat.mod_add_mod, Nat.add_assoc]
    rcases Nat.eq_zero_or_pos r with hr0 | hrpos
    · exact hne (by rw [hil, hr0, Nat.add_zero])
    · have := hreg (l + r) (by omega) (by omega)
      rw [← hil] at this
      omega
  · -- the chain would cross the empty slot found by the scan
    have hcross : (homeOf cap (nodeAt nodes i) + (u0 + (t + 1 - l))) % cap
        = (i0 + (t + 1)) % cap := by
      rw [show homeOf cap (nodeAt nodes i) + (u0 + (t + 1 - l))
          = homeOf cap (nodeAt nodes i) + u0 + (t + 1 - l) by omega]
      rw [← Nat.mod_add_mod, habs, Nat.mod_add_mod]
      rw [show i0 + l + (t + 1 - l) = i0 + (t + 1) by omega]
  -- occupied by the chain, empty by the scan
    have := hchain (u0 + (t + 1 - l)) (by omega)
    rw [hcross] at this
    exact hemp this

/-- The backward-shift deletion loop terminates at the first empty slot and
establishes `ShiftRes`: the deleted hash is gone, everything else survives
with valid probe chains. -/
theorem shiftLoop_ok {cap : Nat} {N0 : List (Hnode V)} {i0 : Nat}
    (hc : 0 < cap) (hlen : N0.length = cap) (hocclt : occCount N0 < cap) :
    ∀ (fuel : Nat) (nodes : List (Hnode V)) (l t : Nat),
      ShiftInv cap N0 i0 nodes l t → cap - t ≤ fuel →
      ∃ nodes', shiftLoop cap nodes ((i0 + l) % cap) (t - l) ((i0 + t) % cap) fuel
          = some nodes' ∧ ShiftRes cap N0 i0 nodes' := by
  intro fuel
  induction fuel with
  | zero =>
    intro nodes l t hInv hfuel
    exact (all_scanned_absurd hc hInv.lenEq hlen hocclt hInv.occSame
      (fun s hs => hInv.scanned s (by omega))).elim
  | succ f ih =>
    intro nodes l t hInv hfuel
    have hlen2 : nodes.length = cap := by rw [hInv.lenEq, hlen]
    have htcap : t + 1 < cap := by
      by_contra hge
      push_neg at hge
      exact all_scanned_absurd hc hInv.lenEq hlen hocclt hInv.occSame
        (fun s hs => hInv.scanned s (by omega))
    have htl := hInv.lt
    have hplcap : (i0 + l) % cap < cap := Nat.mod_lt _ hc
    have hpt1cap : (i0 + (t + 1)) % cap < cap := Nat.mod_lt _ hc
    have hpllen : (i0 + l) % cap < nodes.length := by omega
    have hplne : (i0 + l) % cap ≠ (i0 + (t + 1)) % cap := fun he => by
      have := cyc_inj hc (show l < cap by omega) htcap he
      omega
    have hploc : Occupied nodes ((i0 + l) % cap) := hInv.scanned l htl
    have hstep : shiftLoop cap nodes ((i0 + l) % cap) (t - l) ((i0 + t) % cap) (f + 1)
        = (if (nodeAt nodes ((i0 + (t + 1)) % cap)).hash = 0 then
            some (nodes.set ((i0 + l) % cap)
              { nodeAt nodes ((i0 + l) % cap) with hash := 0 })
          else if (t - l) + 1 ≤ (nodeAt nodes ((i0 + (t + 1)) % cap)).steps then
            shiftLoop cap (nodes.set ((i0 + l) % cap)
              { nodeAt nodes ((i0 + (t + 1)) % cap) with
                steps := (nodeAt nodes ((i0 + (t + 1)) % cap)).steps - ((t - l) + 1) })
              ((i0 + (t + 1)) % cap) 0 ((i0 + (t + 1)) % cap) f
          else shiftLoop cap nodes ((i0 + l) % cap) ((t - l) + 1)
            ((i0 + (t + 1)) % cap) f) := by
      simp only [shiftLoop, cyc_succ]
    rw [hstep]
    by_cases hcase : (nodeAt nodes ((i0 + (t + 1)) % cap)).hash = 0
    · -- empty slot found: zero the vacancy and stop
      rw [if_pos hcase]
      refine ⟨_, rfl, ?_⟩
      have hemp : ¬ Occupied nodes ((i0 + (t + 1)) % cap) := fun h => h hcase
      have havoid := shift_chain_avoid hc hlen2 htl htcap hInv.slotsOk hInv.region hemp
      have hAtP : nodeAt (nodes.set ((i0 + l) % cap)
          { nodeAt nodes ((i0 + l) % cap) with hash := 0 }) ((i0 + l) % cap)
          = { nodeAt nodes ((i0 + l) % cap) with hash := 0 } :=
        nodeAt_set_self hpllen _
      have hAtNe : ∀ i, i ≠ (i0 + l) % cap →
          nodeAt (nodes.set ((i0 + l) % cap)
            { nodeAt nodes ((i0 + l) % cap) with hash := 0 }) i = nodeAt nodes i :=
        fun i hi => nodeAt_set_ne (fun he => hi he.symm) _
      have hOccS : ∀ i, Occupied (nodes.set ((i0 + l) % cap)
          { nodeAt nodes ((i0 + l) % cap) with hash := 0 }) i
          ↔ (i ≠ (i0 + l) % cap ∧ Occupied nodes i) := by
        intro i
        rw [Occupied_set_iff hpllen]
        constructor
        · rintro (⟨rfl, hz⟩ | h)
          · exact absurd rfl hz
          · exact h
        · exact Or.inr
      refine ⟨by rw [List.length_set]; exact hInv.lenEq, ?_, ?_, ?_, ?_⟩
      · -- occupancy count decreases by one
        have hset := occCount_set nodes ((i0 + l) % cap)
          { nodeAt nodes ((i0 + l) % cap) with hash := 0 } hpllen
        have hocc' : (nodeAt nodes ((i0 + l) % cap)).hash ≠ 0 := hploc
        have h1 : ((if (nodeAt nodes ((i0 + l) % cap)).hash ≠ 0 then 1 else 0) : Nat) = 1 :=
          if_pos hocc'
        have h2 : ((if ({ nodeAt nodes ((i0 + l) % cap) with hash := 0 } : Hnode V).hash ≠ 0
            then 1 else 0) : Nat) = 0 :=
          if_neg (fun h => h rfl)
        have hocceq : occCount nodes = occCount N0 :=
          occCount_congr (by rw [hInv.lenEq]) hInv.occSame
        rw [h1, h2] at hset
        omega
      · -- surviving slots keep valid chains
        intro i hi hoc
        obtain ⟨hne, hoc0⟩ := (hOccS i).1 hoc
        obtain ⟨h1, h2, h3, h4⟩ := hInv.slotsOk i hi hoc0 hne
        refine ⟨?_, ?_, ?_, ?_⟩ <;> rw [hAtNe i hne]
        · exact h1
        · exact h2
        · exact h3
        · intro u hu
          refine (hOccS _).2 ⟨?_, h4 u hu⟩
          exact havoid i hi hoc0 hne u hu
      · intro i hi j hj hoci hocj hh
        obtain ⟨hnei, hoci0⟩ := (hOccS i).1 hoci
        obtain ⟨hnej, hocj0⟩ := (hOccS j).1 hocj
        rw [hAtNe i hnei, hAtNe j hnej] at hh
        exact hInv.injOk i hi j hj hnei hnej hoci0 hocj0 hh
      · intro hs v
        rw [← hInv.contents hs v]
        constructor
        · rintro ⟨i, hi, hoc, hh, ho⟩
          obtain ⟨hne, hoc0⟩ := (hOccS i).1 hoc
          exact ⟨i, hi, hne, hoc0, by rwa [hAtNe i hne] at hh, by rwa [hAtNe i hne] at ho⟩
        · rintro ⟨i, hi, hne, hoc0, hh, ho⟩
          exact ⟨i, hi, (hOccS i).2 ⟨hne, hoc0⟩,
            by rwa [hAtNe i hne], by rwa [hAtNe i hne]⟩
    · -- occupied slot: move it back or skip it
      rw [if_neg hcase]
      have hcur_occ : Occupied nodes ((i0 + (t + 1)) % cap) := hcase
      by_cases hguard : (t - l) + 1 ≤ (nodeAt nodes ((i0 + (t + 1)) % cap)).steps
      · -- shift the occupant back into the vacancy
        rw [if_pos hguard]
        obtain ⟨hW1, hS1, hst1, hch1⟩ :=
          hInv.slotsOk _ hpt1cap hcur_occ (Ne.symm hplne)
        have hhome : homeOf cap (nodeAt nodes ((i0 + (t + 1)) % cap)) < cap :=
          Nat.mod_lt _ hc
        have hstepslt : (nodeAt nodes ((i0 + (t + 1)) % cap)).steps < cap := by
          rw [hst1]; exact slotDist_lt hc
        have hbc : (((i0 + l) % cap) + ((t - l) + 1)) % cap
            = (homeOf cap (nodeAt nodes ((i0 + (t + 1)) % cap))
               + (nodeAt nodes ((i0 + (t + 1)) % cap)).steps) % cap := by
          rw [Nat.mod_add_mod, show i0 + l + ((t - l) + 1) = i0 + (t + 1) by omega,
            hst1, add_slotDist hhome hpt1cap]
        have hnewsteps : slotDist cap
            (homeOf cap (nodeAt nodes ((i0 + (t + 1)) % cap))) ((i0 + l) % cap)
            = (nodeAt nodes ((i0 + (t + 1)) % cap)).steps - ((t - l) + 1) :=
          slotDist_of_between hhome hplcap hstepslt hguard hbc
        set mnode : Hnode V := { nodeAt nodes ((i0 + (t + 1)) % cap) with
          steps := (nodeAt nodes ((i0 + (t + 1)) % cap)).steps - ((t - l) + 1) }
          with hmnode
        have hmhash : mnode.hash = (nodeAt nodes ((i0 + (t + 1)) % cap)).hash := rfl
        have hmobj : mnode.object = (nodeAt nodes ((i0 + (t + 1)) % cap)).object := rfl
        have hmnz : mnode.hash ≠ 0 := by rw [hmhash]; exact hcase
        have hAt2P : nodeAt (nodes.set ((i0 + l) % cap) mnode) ((i0 + l) % cap) = mnode :=
          nodeAt_set_self hpllen mnode
        have hAt2Ne : ∀ i, i ≠ (i0 + l) % cap →
            nodeAt (nodes.set ((i0 + l) % cap) mnode) i = nodeAt nodes i :=
          fun i hi => nodeAt_set_ne (fun he => hi he.symm) mnode
        have hOcc2 : ∀ q, Occupied (nodes.set ((i0 + l) % cap) mnode) q
            ↔ Occupied nodes q := by
          intro q
          rw [Occupied_set_iff hpllen]
          constructor
          · rintro (⟨rfl, -⟩ | ⟨-, h⟩)
            · exact hploc
            · exact h
          · intro h
            by_cases he : q = (i0 + l) % cap
            · exact Or.inl ⟨he, hmnz⟩
            · exact Or.inr ⟨he, h⟩
        have hInv2 : ShiftInv cap N0 i0 (nodes.set ((i0 + l) % cap) mnode)
            (t + 1) (t + 1) := by
          refine ⟨Nat.le_refl _, by rw [List.length_set]; exact hInv.lenEq,
            fun i => (hOcc2 i).trans (hInv.occSame i), ?_, ?_, ?_, ?_, ?_⟩
          · intro i hi hoc2 hne2
            by_cases hip : i = (i0 + l) % cap
            · subst hip
              refine ⟨by rw [hAt2P, hmhash]; exact hW1,
                by rw [hAt2P]; exact hS1, ?_, ?_⟩
              · rw [hAt2P]
                show mnode.steps = slotDist cap (homeOf cap mnode) ((i0 + l) % cap)
                have hhx : homeOf cap mnode
                    = homeOf cap (nodeAt nodes ((i0 + (t + 1)) % cap)) := by
                  unfold homeOf
                  rw [hmhash]
                rw [hhx, hnewsteps]
              · rw [hAt2P]
                show ∀ u ≤ mnode.steps,
                  Occupied (nodes.set ((i0 + l) % cap) mnode)
                    ((homeOf cap mnode + u) % cap)
                intro u hu
                have hhx : homeOf cap mnode
                    = homeOf cap (nodeAt nodes ((i0 + (t + 1)) % cap)) := by
                  unfold homeOf
                  rw [hmhash]
                rw [hhx]
                refine (hOcc2 _).2 (hch1 u ?_)
                have : mnode.steps
                    = (nodeAt nodes ((i0 + (t + 1)) % cap)).steps - ((t - l) + 1) := rfl
                omega
            · exact SlotOk_congr (hAt2Ne i hip) (fun q => (hOcc2 q).symm)
                (hInv.slotsOk i hi ((hOcc2 i).1 hoc2) hip)
          · intro i hi j hj hnei hnej hoci hocj hh
            by_cases hip : i = (i0 + l) % cap <;> by_cases hjp : j = (i0 + l) % cap
            · rw [hip, hjp]
            · subst hip
              rw [hAt2P, hmhash] at hh
              rw [hAt2Ne j hjp] at hh
              have := hInv.injOk _ hpt1cap j hj (Ne.symm hplne) hjp hcur_occ
                ((hOcc2 j).1 hocj) hh
              exact absurd this.symm hnej
            · subst hjp
              rw [hAt2P, hmhash] at hh
              rw [hAt2Ne i hip] at hh
              have := hInv.injOk i hi _ hpt1cap hip (Ne.symm hplne)
                ((hOcc2 i).1 hoci) hcur_occ hh
              exact absurd this hnei
            · rw [hAt2Ne i hip, hAt2Ne j hjp] at hh
              exact hInv.injOk i hi j hj hip hjp ((hOcc2 i).1 hoci)
                ((hOcc2 j).1 hocj) hh
          · intro hs v
            rw [← hInv.contents hs v]
            constructor
            · rintro ⟨i, hi, hne2, hoc2, hh, ho⟩
              by_cases hip : i = (i0 + l) % cap
              · subst hip
                rw [hAt2P, hmhash] at hh
                rw [hAt2P, hmobj] at ho
                exact ⟨(i0 + (t + 1)) % cap, hpt1cap, Ne.symm hplne, hcur_occ, hh, ho⟩
              · rw [hAt2Ne i hip] at hh ho
                exact ⟨i, hi, hip, (hOcc2 i).1 hoc2, hh, ho⟩
            · rintro ⟨i, hi, hne1, hoc1, hh, ho⟩
              by_cases hit : i = (i0 + (t + 1)) % cap
              · subst hit
                refine ⟨(i0 + l) % cap, hplcap, hplne, (hOcc2 _).2 hploc,
                  by rw [hAt2P, hmhash]; exact hh, by rw [hAt2P, hmobj]; exact ho⟩
              · exact ⟨i, hi, hit, (hOcc2 i).2 hoc1,
                  by rw [hAt2Ne i hne1]; exact hh, by rw [hAt2Ne i hne1]; exact ho⟩
          · intro s h1 h2
            omega
          · intro s hs2
            rcases Nat.lt_or_ge s (t + 1) with hlt | hge
            · exact (hOcc2 _).2 (hInv.scanned s (by omega))
            · have : s = t + 1 := by omega
              subst this
              exact (hOcc2 _).2 hcur_occ
        obtain ⟨nodes', hrun', hres⟩ := ih (nodes.set ((i0 + l) % cap) mnode)
          (t + 1) (t + 1) hInv2 (by omega)
        rw [Nat.sub_self] at hrun'
        exact ⟨nodes', hrun', hres⟩
      · -- leave the occupant in place and keep scanning
        rw [if_neg hguard]
        have hInv2 : ShiftInv cap N0 i0 nodes l (t + 1) := by
          refine ⟨by omega, hInv.lenEq, hInv.occSame, hInv.slotsOk, hInv.injOk,
            hInv.contents, ?_, ?_⟩
          · intro s h1 h2
            rcases Nat.lt_or_ge s (t + 1) with hlt | hge
            · exact hInv.region s h1 (by omega)
            · have : s = t + 1 := by omega
              subst this
              omega
          · intro s hs2
            rcases Nat.lt_or_ge s (t + 1) with hlt | hge
            · exact hInv.scanned s (by omega)
            · have : s = t + 1 := by omega
              subst this
              exact hcur_occ
        obtain ⟨nodes', hrun', hres⟩ := ih nodes l (t + 1) hInv2 (by omega)
        rw [show (t + 1) - l = (t - l) + 1 by omega] at hrun'
        exact ⟨nodes', hrun', hres⟩

/-! ## Hashmap operation master lemmas -/

theorem json_hash_str_lt (k : Key) : json_hash_str k < W := by
  have haux : ∀ (l : List Nat) (acc : Nat), acc < W →
      l.foldl (fun h b => ((h ^^^ signExtByte b) * fnvPrime) % W) acc < W := by
    intro l
    induction l with
    | nil => intro acc h; exact h
    | cons b rest ih =>
      intro acc h
      exact ih _ (Nat.mod_lt _ (by decide))
  exact haux k fnvBasis (by decide)

/-- Basic numeric consequences of `HInv`: the capacity is at least the
minimum 8 and the table is never full. -/
theorem hinv_bounds {h : Hmap V} (hI : HInv h) :
    8 ≤ h.cap ∧ occCount h.nodes < h.cap := by
  obtain ⟨k, hk3, hcap⟩ := hI.capPow
  have h8 : 8 ≤ h.cap := by
    rw [hcap]
    calc (8 : Nat) = 2 ^ 3 := rfl
      _ ≤ 2 ^ k := Nat.pow_le_pow_right (by omega) hk3
  have hocc := hI.occLe
  exact ⟨h8, by omega⟩

/-- The capacity is a multiple of 2. -/
theorem hinv_cap_even {h : Hmap V} (hI : HInv h) : h.cap % 2 = 0 := by
  obtain ⟨k, hk3, hcap⟩ := hI.capPow
  obtain ⟨j, rfl⟩ : ∃ j, k = j + 1 := ⟨k - 1, by omega⟩
  rw [hcap, pow_succ]
  exact Nat.mul_mod_left _ 2

/-- A fresh `json_hmap_make(8)` map satisfies the invariant. -/
theorem hinv_make : HInv (json_hmap_make V 8) := by
  have hnodes : (json_hmap_make V 8).nodes = List.replicate 8 emptyNode := rfl
  have hcap : (json_hmap_make V 8).cap = 8 := rfl
  have hsize : (json_hmap_make V 8).size = 0 := rfl
  refine ⟨⟨by rw [hnodes, hcap]; simp, ?_, ?_⟩, rfl, ⟨3, by omega, hcap.symm ▸ rfl⟩,
    ?_, ?_, ?_⟩
  · intro i hi hoc
    rw [Occupied, hnodes, nodeAt_replicate] at hoc
    exact absurd rfl hoc
  · intro i hi j hj hoci hocj hh
    rw [Occupied, hnodes, nodeAt_replicate] at hoci
    exact absurd rfl hoci
  · rw [hnodes, hcap, occCount_replicate]
    omega
  · rw [hnodes, hcap, occCount_replicate]
    omega
  · left
    rw [hnodes, hsize, occCount_replicate]

/-- Under the invariant a hash is live exactly when some value is stored
under it. -/
theorem hashLive_iff {h : Hmap V} (hI : HInv h) (hs : Nat) :
    HashLive h hs ↔ ∃ v, Stored h hs v := by
  constructor
  · rintro ⟨i, hi, hoc, hh⟩
    obtain ⟨-, hsome, -, -⟩ := hI.table.slotsOk i hi hoc
    obtain ⟨v, hv⟩ := Option.isSome_iff_exists.mp hsome
    exact ⟨v, i, hi, hoc, hh, hv⟩
  · rintro ⟨v, i, hi, hoc, hh, -⟩
    exact ⟨i, hi, hoc, hh⟩

/-- `json_hmap_get_node` returns the node storing an occupied slot's hash. -/
theorem hmap_get_node_hit {h : Hmap V} (hI : HInv h) {j : Nat} (hj : j < h.cap)
    (hocc : Occupied h.nodes j) :
    json_hmap_get_node h (nodeAt h.nodes j).hash = some (some (nodeAt h.nodes j)) := by
  have hb := hinv_bounds hI
  exact probeGet_hit hI.table (by omega) hj hocc (Nat.le_refl _)

/-- `json_hmap_get_node` reports a miss for a hash not in the table. -/
theorem hmap_get_node_miss {h : Hmap V} (hI : HInv h) {hs : Nat}
    (hnl : ¬ HashLive h hs) : json_hmap_get_node h hs = some none := by
  have hb := hinv_bounds hI
  exact probeGet_miss hI.table (by omega) (by omega) hnl (Nat.le_refl _)

/-- `json_hmap_get` returns the stored value of a key's hash. -/
theorem json_hmap_get_stored {h : Hmap V} (hI : HInv h) {k : Key} {v : V}
    (hst : Stored h (json_hash_str k) v) : json_hmap_get h k = some (some v) := by
  obtain ⟨j, hj, hocc, hh, ho⟩ := hst
  have hhit := hmap_get_node_hit hI hj hocc
  rw [hh] at hhit
  unfold json_hmap_get
  rw [hhit]
  simp [ho]

/-- `json_hmap_get` returns `NULL` for a key whose hash is absent. -/
theorem json_hmap_get_missing {h : Hmap V} (hI : HInv h) {k : Key}
    (hnl : ¬ HashLive h (json_hash_str k)) : json_hmap_get h k = some none := by
  unfold json_hmap_get
  rw [hmap_get_node_miss hI hnl]
  rfl

/-- Unfold `json_hmap_free_slot` when the shrink fires. -/
theorem freeSlotF_shrink {h : Hmap V} {rf : Nat}
    (hcond : h.size < h.cap / 4 ∧ h.cap > h.min_cap) :
    freeSlotF rf h = (match rehashF rf h (h.cap / 2) with
      | none => none
      | some h2 => some { h2 with size := (h2.size + (W - 1)) % W }) := by
  unfold freeSlotF
  rw [if_pos hcond]

/-- Unfold `json_hmap_free_slot` when no shrink fires. -/
theorem freeSlotF_noshrink {h : Hmap V} {rf : Nat}
    (hcond : ¬ (h.size < h.cap / 4 ∧ h.cap > h.min_cap)) :
    freeSlotF rf h = some { h with size := (h.size + (W - 1)) % W } := by
  unfold freeSlotF
  rw [if_neg hcond]

/-- `json_hmap_put` with a zeroed `steps` field on an invariant-satisfying
map: it succeeds, preserves the invariant, pushes the key on the key-order
vector, and the stored contents change exactly at the key's hash. -/
theorem hmap_put_ok {h : Hmap V} (hI : HInv h) (hsmall : h.cap * 2 < W)
    (key : Key) (v : V) (hnz : json_hash_str key ≠ 0) :
    ∃ h', json_hmap_put h key v 0 = some h' ∧ HInv h' ∧
      h'.min_cap = h.min_cap ∧
      h'.vec = json_vec_push h.vec key ∧
      (∀ hs w, Stored h' hs w ↔
        ((hs = json_hash_str key ∧ w = v) ∨
         (hs ≠ json_hash_str key ∧ Stored h hs w))) ∧
      (HashLive h (json_hash_str key) → occCount h'.nodes = occCount h.nodes) ∧
      (¬ HashLive h (json_hash_str key) →
        occCount h'.nodes = occCount h.nodes + 1) := by
  have hb := hinv_bounds hI
  have hc : 0 < h.cap := by omega
  have hWh : json_hash_str key < W := json_hash_str_lt key
  have hW64 : W = 18446744073709551616 := rfl
  have hcapW : h.cap < W := by omega
  have hoccW : occCount h.nodes + 2 < W := by
    have := hI.occLe
    omega
  set hs := json_hash_str key with hhs
  set node : Hnode V := ⟨some v, hs, hs % h.cap, 0⟩ with hnode
  set h1 : Hmap V := { h with vec := json_vec_push h.vec key } with hh1
  have hrun : json_hmap_put h key v 0 = putNodeF h.cap h1 node := rfl
  by_cases hlive : HashLive h hs
  · -- the hash is already stored: in-place overwrite, no slot allocated
    obtain ⟨j, hj, hocc, hhj⟩ := hlive
    have hov := probePut_overwrite hI.table hc hj hocc
      (show (nodeAt h.nodes j).hash = node.hash from hhj) (Nat.le_refl h.cap) 0
    set nodesOv : List (Hnode V) :=
      h.nodes.set j { nodeAt h.nodes j with object := node.object } with hnov
    have hstep : putNodeF h.cap h1 node = some { h1 with nodes := nodesOv } := by
      unfold putNodeF
      have hsame : probePut h1.cap node h1.nodes node.index node.steps h1.cap
          = probePut h.cap node h.nodes (node.hash % h.cap) 0 h.cap := rfl
      rw [hsame, hov]
      rfl
    obtain ⟨hT2, hocc2, hlive2, hstored2⟩ :=
      @table_overwrite V h.cap h.nodes node j hI.table hc hj hocc hhj rfl
    refine ⟨{ h1 with nodes := nodesOv }, by rw [hrun, hstep], ?_, rfl, rfl, ?_, ?_, ?_⟩
    · refine ⟨hT2, hI.min8, hI.capPow, ?_, ?_, ?_⟩
      · show h.cap ≤ 4 * occCount nodesOv + 16
        rw [hnov, hocc2]
        exact hI.capBound
      · show occCount nodesOv ≤ h.cap / 2 + 1
        rw [hnov, hocc2]
        exact hI.occLe
      · show h.size = _ ∨ h.size = _ ∨ h.size = _
        rw [hnov, hocc2]
        exact hI.sizeRel
    · intro hs' w
      rw [show Stored { h1 with nodes := nodesOv } hs' w
          = StoredN h.cap nodesOv hs' w from rfl, hnov, hstored2 hs' w]
      constructor
      · rintro (⟨he, hv⟩ | ⟨hne, hst⟩)
        · exact Or.inl ⟨he, (Option.some_inj.mp hv).symm⟩
        · exact Or.inr ⟨hne, hst⟩
      · rintro (⟨he, hv⟩ | ⟨hne, hst⟩)
        · exact Or.inl ⟨he, by rw [hv]⟩
        · exact Or.inr ⟨hne, hst⟩
    · intro _
      exact hocc2
    · intro hnl
      exact absurd ⟨j, hj, hocc, hhj⟩ hnl
  · -- fresh hash: insert at the first free slot, then allocate a slot
    obtain ⟨E, hE, hFF, hprobe⟩ :=
      @probePut_insert V h.cap h.nodes node hI.table hc hb.2 hlive h.cap (Nat.le_refl h.cap) 0
    rw [Nat.zero_add] at hprobe
    set nodes2 : List (Hnode V) :=
      h.nodes.set ((node.hash + E) % h.cap) { node with steps := E } with hn2
    have hstep : putNodeF h.cap h1 node = allocSlotF h.cap { h1 with nodes := nodes2 } := by
      unfold putNodeF
      have hsame : probePut h1.cap node h1.nodes node.index node.steps h1.cap
          = probePut h.cap node h.nodes (node.hash % h.cap) 0 h.cap := rfl
      rw [hsame, hprobe]
      rfl
    obtain ⟨hT2, hocc2, hlive2, hstored2⟩ :=
      @table_insert V h.cap h.nodes node E hI.table hc hnz hWh rfl hlive hE hFF
    set h2 : Hmap V := { h1 with nodes := nodes2 } with hh2
    have h2size : h2.size = h.size := rfl
    have h2cap : h2.cap = h.cap := rfl
    set n : Nat := occCount h.nodes with hn
    have hstoredUnified : ∀ hs' w, StoredN h.cap nodes2 hs' w ↔
        ((hs' = hs ∧ w = v) ∨ (hs' ≠ hs ∧ Stored h hs' w)) := by
      intro hs' w
      rw [hstored2 hs' w]
      constructor
      · rintro (⟨he, hv⟩ | hst)
        · exact Or.inl ⟨he, (Option.some_inj.mp hv).symm⟩
        · by_cases he : hs' = hs
          · obtain ⟨i, hi, hoc, hh, -⟩ := hst
            exact absurd ⟨i, hi, hoc, by rw [hh, he]⟩ hlive
          · exact Or.inr ⟨he, hst⟩
      · rintro (⟨he, hv⟩ | ⟨hne, hst⟩)
        · exact Or.inl ⟨he, by rw [hv]⟩
        · exact Or.inr hst
    by_cases hgrow : (h.size + 1) % W > h.cap / 2
    · -- growth: rehash at double capacity, then `++size`
      have hcap2pos : 0 < h.cap * 2 := by omega
      have hload : occCount nodes2 ≤ h.cap * 2 / 2 := by
        rw [hocc2]
        have := hI.occLe
        omega
      obtain ⟨cpred, hcp⟩ : ∃ c, h.cap = c + 1 := ⟨h.cap - 1, by omega⟩
      obtain ⟨h3, hreh, hcap3, hvec3, hmin3, hsz3, hT3, hocc3, hlive3, hstored3⟩ :=
        @rehash_ok V h2 cpred (h.cap * 2) hT2 hcap2pos hsmall hload
      have hgrow2 : (h2.size + 1) % W > h2.cap / 2 := hgrow
      have hstep2 : allocSlotF h.cap h2
          = some { h3 with size := (h3.size + 1) % W } := by
        rw [show allocSlotF h.cap h2 = allocSlotF (cpred + 1) h2 by rw [hcp],
          allocSlotF_grow hgrow2,
          show (h2.cap * 2) % W = h.cap * 2 by
            rw [h2cap, Nat.mod_eq_of_lt hsmall],
          hreh]
      -- how full was the table when growth fired?
      have hntight : h.cap / 2 ≤ n + 1 := by
        rcases hI.sizeRel with hsz | hsz | hsz <;> rw [← hn] at hsz
        · rw [hsz, Nat.mod_eq_of_lt (by omega)] at hgrow
          omega
        · rw [hsz, Nat.mod_eq_of_lt (by omega)] at hgrow
          omega
        · rcases Nat.eq_zero_or_pos n with hn0 | hnpos
          · have hsz' : h.size = W - 1 := by
              rw [hsz, hn0, Nat.zero_add, Nat.mod_eq_of_lt (by omega)]
            rw [hsz', show W - 1 + 1 = W by omega, Nat.mod_self] at hgrow
            omega
          · have hsz' : h.size = n - 1 := by
              rw [hsz, show n + (W - 1) = (n - 1) + W by omega, Nat.add_mod_right,
                Nat.mod_eq_of_lt (by omega)]
            rw [hsz', Nat.mod_eq_of_lt (by omega)] at hgrow
            omega
      have hsz3' : h3.size = n + 1 := by rw [hsz3, hocc2]
      refine ⟨{ h3 with size := (h3.size + 1) % W },
        by rw [hrun, hstep, hstep2], ?_, ?_, ?_, ?_, ?_, ?_⟩
      · refine ⟨?_, ?_, ?_, ?_, ?_, ?_⟩
        · show TInv h3.cap h3.nodes
          rw [hcap3]
          exact hT3
        · show h3.min_cap = 8
          rw [hmin3]
          exact hI.min8
        · show ∃ k, 3 ≤ k ∧ h3.cap = 2 ^ k
          obtain ⟨k, hk3, hck⟩ := hI.capPow
          exact ⟨k + 1, by omega, by rw [hcap3, hck, pow_succ, Nat.mul_comm]⟩
        · show h3.cap ≤ 4 * occCount h3.nodes + 16
          rw [hcap3, hocc3, hocc2]
          have hev := hinv_cap_even hI
          omega
        · show occCount h3.nodes ≤ h3.cap / 2 + 1
          rw [hcap3, hocc3, hocc2]
          have := hI.occLe
          have hev := hinv_cap_even hI
          omega
        · show (h3.size + 1) % W = _ ∨ _ ∨ _
          right; left
          rw [hsz3', hocc3, hocc2, Nat.mod_eq_of_lt (by omega)]
      · show h3.min_cap = h.min_cap
        exact hmin3
      · show h3.vec = json_vec_push h.vec key
        rw [hvec3]
      · intro hs' w
        show StoredN h3.cap h3.nodes hs' w ↔ _
        rw [hcap3, hstored3 hs' w]
        exact hstoredUnified hs' w
      · intro hl
        exact absurd hl hlive
      · intro _
        show occCount h3.nodes = n + 1
        rw [hocc3, hocc2]
    · -- no growth: just `++size`
      have hgrow2 : ¬ (h2.size + 1) % W > h2.cap / 2 := hgrow
      have hstep2 : allocSlotF h.cap h2 = some { h2 with size := (h.size + 1) % W } := by
        rw [allocSlotF_nogrow hgrow2]
      -- `¬grow` pins the occupancy strictly below half
      have hroom : n ≤ h.cap / 2 := by
        rcases hI.sizeRel with hsz | hsz | hsz <;> rw [← hn] at hsz
        · rw [hsz, Nat.mod_eq_of_lt (by omega)] at hgrow
          omega
        · rw [hsz, Nat.mod_eq_of_lt (by omega)] at hgrow
          omega
        · rcases Nat.eq_zero_or_pos n with hn0 | hnpos
          · omega
          · have hsz' : h.size = n - 1 := by
              rw [hsz, show n + (W - 1) = (n - 1) + W by omega, Nat.add_mod_right,
                Nat.mod_eq_of_lt (by omega)]
            rw [hsz', Nat.mod_eq_of_lt (by omega)] at hgrow
            omega
      refine ⟨{ h2 with size := (h.size + 1) % W },
        by rw [hrun, hstep, hstep2], ?_, rfl, rfl, ?_, ?_, ?_⟩
      · refine ⟨hT2, hI.min8, hI.capPow, ?_, ?_, ?_⟩
        · show h.cap ≤ 4 * occCount nodes2 + 16
          rw [hocc2]
          have := hI.capBound
          omega
        · show occCount nodes2 ≤ h.cap / 2 + 1
          rw [hocc2]
          omega
        · show (h.size + 1) % W = _ ∨ _ ∨ _
          rw [hocc2]
          rcases hI.sizeRel with hsz | hsz | hsz <;> rw [← hn] at hsz
          · left
            rw [hsz, Nat.mod_eq_of_lt (by omega)]
          · right; left
            rw [hsz, Nat.mod_eq_of_lt (by omega)]
          · right; right
            rcases Nat.eq_zero_or_pos n with hn0 | hnpos
            · have hsz' : h.size = W - 1 := by
                rw [hsz, hn0, Nat.zero_add, Nat.mod_eq_of_lt (by omega)]
              rw [hsz', show W - 1 + 1 = W by omega, Nat.mod_self, hn0,
                show (0 + 1 + (W - 1)) = W by omega, Nat.mod_self]
            · have hsz' : h.size = n - 1 := by
                rw [hsz, show n + (W - 1) = (n - 1) + W by omega, Nat.add_mod_right,
                  Nat.mod_eq_of_lt (by omega)]
              rw [hsz', Nat.mod_eq_of_lt (by omega),
                show n - 1 + 1 = n by omega,
                show n + 1 + (W - 1) = n + W by omega, Nat.add_mod_right,
                Nat.mod_eq_of_lt (by omega)]
      · intro hs' w
        show StoredN h.cap nodes2 hs' w ↔ _
        exact hstoredUnified hs' w
      · intro hl
        exact absurd hl hlive
      · intro _
        exact hocc2

/-- The capacity is a multiple of 4. -/
theorem hinv_cap_mod4 {h : Hmap V} (hI : HInv h) : h.cap % 4 = 0 := by
  obtain ⟨k, hk3, hcap⟩ := hI.capPow
  obtain ⟨j, rfl⟩ : ∃ j, k = j + 2 := ⟨k - 2, by omega⟩
  rw [hcap, pow_succ, pow_succ, Nat.mul_assoc]
  exact Nat.mul_mod_left _ 4

/-- `json_hmap_del` of a key whose (nonzero) hash is absent: `NULL` result
and a completely unchanged map. -/
theorem hmap_del_absent {h : Hmap V} (hI : HInv h) (key : Key) (order : Bool)
    (hnz : json_hash_str key ≠ 0) (hnl : ¬ HashLive h (json_hash_str key)) :
    json_hmap_del h key order = some (none, h) := by
  have hb := hinv_bounds hI
  have hmiss := probeDel_miss hI.table (by omega) (by omega) hnz hnl
    (Nat.le_refl h.cap)
  simp only [json_hmap_del]
  rw [hmiss]

/-- `json_hmap_del` of a key whose hash is live: it returns the stored
value, removes exactly that hash, preserves the invariant, and removes the
first matching key from the key-order vector. -/
theorem hmap_del_found {h : Hmap V} (hI : HInv h) (hsmall : h.cap * 2 < W)
    (key : Key) (order : Bool) (hlive : HashLive h (json_hash_str key)) :
    ∃ v h', json_hmap_del h key order = some (some v, h') ∧
      Stored h (json_hash_str key) v ∧
      HInv h' ∧
      h'.min_cap = h.min_cap ∧
      h'.vec = vecRemoveKey h.vec key order ∧
      (∀ hs w, Stored h' hs w ↔ (hs ≠ json_hash_str key ∧ Stored h hs w)) ∧
      occCount h'.nodes + 1 = occCount h.nodes := by
  have hb := hinv_bounds hI
  have hc : 0 < h.cap := by omega
  have hW64 : W = 18446744073709551616 := rfl
  obtain ⟨j, hj, hocc, hhj⟩ := hlive
  have hfind := probeDel_hit hI.table hc hj hocc (Nat.le_refl h.cap)
  rw [hhj] at hfind
  obtain ⟨hW1, hS1, hst1, hch1⟩ := hI.table.slotsOk j hj hocc
  obtain ⟨v, hv⟩ := Option.isSome_iff_exists.mp hS1
  have hj0 : (j + 0) % h.cap = j := by rw [Nat.add_zero, Nat.mod_eq_of_lt hj]
  have hSI : ShiftInv h.cap h.nodes j h.nodes 0 0 := by
    refine ⟨Nat.le_refl _, rfl, fun i => Iff.rfl, ?_, ?_, ?_, ?_, ?_⟩
    · intro i hi hoc _
      exact hI.table.slotsOk i hi hoc
    · intro i hi j' hj' _ _ hoci hocj hh
      exact hI.table.injOk i hi j' hj' hoci hocj hh
    · intro hs' v'
      constructor
      · rintro ⟨i, hi, hne, hoc, hh, ho⟩
        rw [hj0] at hne
        refine ⟨?_, i, hi, hoc, hh, ho⟩
        intro heq
        exact hne (hI.table.injOk i hi j hj hoc hocc (by rw [hh, heq]))
      · rintro ⟨hne, i, hi, hoc, hh, ho⟩
        refine ⟨i, hi, ?_, hoc, hh, ho⟩
        rw [hj0]
        intro heq
        exact hne (by rw [← hh, heq])
    · intro s h1 h2
      omega
    · intro s hs'
      have : s = 0 := by omega
      subst this
      rw [hj0]
      exact hocc
  obtain ⟨nodes', hshift, hres⟩ :=
    shiftLoop_ok hc hI.table.lenEq hb.2 h.cap h.nodes 0 0 hSI (by omega)
  rw [hj0, Nat.sub_self] at hshift
  have hT' : TInv h.cap nodes' :=
    ⟨hres.lenEq.trans hI.table.lenEq, hres.slotsOk, hres.injOk⟩
  set n : Nat := occCount h.nodes with hn
  have hocc' : occCount nodes' + 1 = n := hres.occ
  have hn1 : 1 ≤ n := by omega
  have hoccW : n + 2 < W := by
    have := hI.occLe
    omega
  have hcontents' : ∀ hs' w, StoredN h.cap nodes' hs' w ↔
      (hs' ≠ json_hash_str key ∧ Stored h hs' w) := by
    intro hs' w
    rw [hres.contents hs' w, hhj]
    exact Iff.rfl
  set hmid : Hmap V := { h with nodes := nodes' } with hhmid
  -- the true occupancy never exceeds the recorded size by more than one
  have hsfloor : n - 1 ≤ h.size := by
    rcases hI.sizeRel with hsz | hsz | hsz <;> rw [← hn] at hsz
    · omega
    · omega
    · have hsz' : h.size = n - 1 := by
        rw [hsz, show n + (W - 1) = (n - 1) + W by omega, Nat.add_mod_right,
          Nat.mod_eq_of_lt (by omega)]
      omega
  by_cases hS : hmid.size < hmid.cap / 4 ∧ hmid.cap > hmid.min_cap
  · -- shrink: rehash at half capacity, then `--size`
    have hcapgt : h.cap > 8 := by
      have := hI.min8
      have h1 : hmid.cap > hmid.min_cap := hS.2
      simp only [hhmid] at h1
      omega
    have hszlt : h.size < h.cap / 4 := hS.1
    have hmod4 := hinv_cap_mod4 hI
    have hc2 : 0 < h.cap / 2 := by omega
    have hW2 : h.cap / 2 < W := by omega
    have hload : occCount hmid.nodes ≤ h.cap / 2 / 2 := by
      show occCount nodes' ≤ h.cap / 2 / 2
      omega
    obtain ⟨h3, hreh, hcap3, hvec3, hmin3, hsz3, hT3, hocc3, hlive3, hstored3⟩ :=
      @rehash_ok V hmid h.cap (h.cap / 2) hT' hc2 hW2 hload
    have hfree : freeSlotF h.cap hmid
        = some { h3 with size := (h3.size + (W - 1)) % W } := by
      rw [freeSlotF_shrink hS,
        show hmid.cap / 2 = h.cap / 2 from rfl, hreh]
    have hsz3' : h3.size = n - 1 := by
      rw [hsz3]
      show occCount nodes' = n - 1
      omega
    refine ⟨v, { h3 with size := (h3.size + (W - 1)) % W, vec := vecRemoveKey h3.vec key order }, ?_, ⟨j, hj, hocc, hhj, hv⟩, ?_, ?_, ?_, ?_, ?_⟩
    · simp only [json_hmap_del]
      rw [hfind]
      dsimp only
      rw [show (nodeAt h.nodes j).object = some v from hv, hshift]
      dsimp only
      rw [show freeSlotF h.cap { h with nodes := nodes' } = some _ from hfree]
    · refine ⟨?_, ?_, ?_, ?_, ?_, ?_⟩
      · show TInv h3.cap h3.nodes
        rw [hcap3]
        exact hT3
      · show h3.min_cap = 8
        rw [hmin3]
        exact hI.min8
      · show ∃ k, 3 ≤ k ∧ h3.cap = 2 ^ k
        obtain ⟨k, hk3, hck⟩ := hI.capPow
        have hkgt : 3 < k := by
          by_contra hle
          push_neg at hle
          have : k = 3 := by omega
          rw [this] at hck
          omega
        obtain ⟨k', rfl⟩ : ∃ k', k = k' + 1 := ⟨k - 1, by omega⟩
        have hhalf : h.cap / 2 = 2 ^ k' := by
          rw [hck, pow_succ]
          omega
        exact ⟨k', by omega, by rw [hcap3, hhalf]⟩
      · show h3.cap ≤ 4 * occCount h3.nodes + 16
        rw [hcap3, hocc3]
        have := hI.capBound
        have : occCount hmid.nodes = n - 1 := by
          show occCount nodes' = n - 1
          omega
        omega
      · show occCount h3.nodes ≤ h3.cap / 2 + 1
        rw [hcap3, hocc3]
        have : occCount hmid.nodes = n - 1 := by
          show occCount nodes' = n - 1
          omega
        omega
      · show (h3.size + (W - 1)) % W = _ ∨ _ ∨ _
        right; right
        rw [hsz3', hocc3]
        show _ = (occCount nodes' + (W - 1)) % W
        rw [show occCount nodes' = n - 1 by omega]
    · show h3.min_cap = h.min_cap
      rw [hmin3]
    · show vecRemoveKey h3.vec key order = vecRemoveKey h.vec key order
      rw [hvec3]
    · intro hs' w
      show StoredN h3.cap h3.nodes hs' w ↔ _
      rw [hcap3, hstored3 hs' w]
      exact hcontents' hs' w
    · show occCount h3.nodes + 1 = n
      rw [hocc3]
      show occCount nodes' + 1 = n
      omega
  · -- no shrink: just `--size`
    have hfree : freeSlotF h.cap hmid
        = some { hmid with size := (h.size + (W - 1)) % W } := by
      rw [freeSlotF_noshrink hS]
    refine ⟨v, { hmid with size := (h.size + (W - 1)) % W, vec := vecRemoveKey h.vec key order }, ?_, ⟨j, hj, hocc, hhj, hv⟩, ?_, ?_, ?_, ?_, ?_⟩
    · simp only [json_hmap_del]
      rw [hfind]
      dsimp only
      rw [show (nodeAt h.nodes j).object = some v from hv, hshift]
      dsimp only
      rw [show freeSlotF h.cap { h with nodes := nodes' } = some _ from hfree]
    · have hwhy : h.cap ≤ 8 ∨ h.cap / 4 ≤ h.size := by
        by_cases hcap8 : h.cap ≤ 8
        · exact Or.inl hcap8
        · right
          by_contra hlt
          push_neg at hlt
          exact hS ⟨hlt, by
            show h.cap > h.min_cap
            rw [hI.min8]
            omega⟩
      refine ⟨hT', hI.min8, hI.capPow, ?_, ?_, ?_⟩
      · show h.cap ≤ 4 * occCount nodes' + 16
        have hmod4 := hinv_cap_mod4 hI
        rcases hwhy with hcap8 | hfull
        · omega
        · have hnfloor : h.cap / 4 ≤ n + 1 := by
            rcases hI.sizeRel with hsz | hsz | hsz <;> rw [← hn] at hsz
            · omega
            · omega
            · have hsz' : h.size = n - 1 := by
                rw [hsz, show n + (W - 1) = (n - 1) + W by omega,
                  Nat.add_mod_right, Nat.mod_eq_of_lt (by omega)]
              omega
          omega
      · show occCount nodes' ≤ h.cap / 2 + 1
        have := hI.occLe
        omega
      · show (h.size + (W - 1)) % W = occCount nodes' ∨
          (h.size + (W - 1)) % W = occCount nodes' + 1 ∨
          (h.size + (W - 1)) % W = (occCount nodes' + (W - 1)) % W
        rcases hI.sizeRel with hsz | hsz | hsz <;> rw [← hn] at hsz
        · left
          rw [hsz, show n + (W - 1) = (n - 1) + W by omega, Nat.add_mod_right,
            Nat.mod_eq_of_lt (by omega)]
          omega
        · right; left
          rw [hsz, show n + 1 + (W - 1) = n + W by omega, Nat.add_mod_right,
            Nat.mod_eq_of_lt (by omega)]
          omega
        · right; right
          have hsz' : h.size = n - 1 := by
            rw [hsz, show n + (W - 1) = (n - 1) + W by omega, Nat.add_mod_right,
              Nat.mod_eq_of_lt (by omega)]
          rw [hsz']
          rw [show occCount nodes' = n - 1 by omega]
    · rfl
    · rfl
    · intro hs' w
      exact hcontents' hs' w
    · show occCount nodes' + 1 = n
      omega

/-! ## Key-order vector and reference-map lemmas -/

theorem vec_free_one_data {K : Type} (v : Vec K) :
    (json_vec_free_one v).data = v.data.dropLast := by
  simp only [json_vec_free_one]
  split <;> rfl

theorem vec_push_data {K : Type} (v : Vec K) (k : K) :
    (json_vec_push v k).data = v.data ++ [k] := by
  simp only [json_vec_push, json_vec_alloc_one]
  split <;> rfl

theorem vecRemoveKey_data (v : Vec Key) (key : Key) (order : Bool) :
    (vecRemoveKey v key order).data = listRemoveKey v.data key order := by
  cases hf : v.data.findIdx? (fun x => x = key) with
  | none =>
    have h1 : vecRemoveKey v key order = v := by
      unfold vecRemoveKey
      rw [hf]
    have h2 : listRemoveKey v.data key order = v.data := by
      unfold listRemoveKey
      rw [hf]
    rw [h1, h2]
  | some i =>
    have h1 : vecRemoveKey v key order =
        (if order then (json_vec_del_ordered v i).2 else (json_vec_del v i).2) := by
      unfold vecRemoveKey
      rw [hf]
    have h2 : listRemoveKey v.data key order =
        (if order then
          (v.data.take i ++ v.data.drop (i + 1) ++ v.data.getLast?.toList).dropLast
         else (v.data.dropLast).set i (v.data.getD (v.data.length - 1) [])) := by
      unfold listRemoveKey
      rw [hf]
    rw [h1, h2]
    cases order
    · show (json_vec_del v i).2.data = _
      simp only [json_vec_del, json_vec_pop]
      rw [vec_free_one_data]
      rfl
    · show (json_vec_del_ordered v i).2.data = _
      simp only [json_vec_del_ordered]
      rw [vec_free_one_data]
      rfl

/-- Under the invariant plus nonzero-and-injective hashes, a key's hash is
live exactly when the key occurs in the reference association list. -/
theorem live_iff_any {ks : List Key} (hg : GoodKeys ks) {L : List (Key × V)}
    {h : Hmap V} (hI : HInv h)
    (hstored : ∀ hs w, Stored h hs w ↔ ∃ p ∈ L, json_hash_str p.1 = hs ∧ p.2 = w)
    (hLks : ∀ p ∈ L, p.1 ∈ ks) {k : Key} (hk : k ∈ ks) :
    HashLive h (json_hash_str k) ↔ L.any (fun kv => kv.1 = k) = true := by
  rw [hashLive_iff hI]
  constructor
  · rintro ⟨w, hw⟩
    obtain ⟨p, hp, hhash, -⟩ := (hstored _ w).1 hw
    have hpk : p.1 = k := hg.2 p.1 (hLks p hp) k hk hhash
    rw [List.any_eq_true]
    exact ⟨p, hp, decide_eq_true hpk⟩
  · intro hb
    rw [List.any_eq_true] at hb
    obtain ⟨p, hp, hpk⟩ := hb
    have hpk' : p.1 = k := of_decide_eq_true hpk
    exact ⟨p.2, (hstored _ p.2).2 ⟨p, hp, by rw [hpk'], rfl⟩⟩

theorem map_fst_replace (L : List (Key × V)) (k : Key) (v : V) :
    (L.map (fun kv => if kv.1 = k then (k, v) else kv)).map Prod.fst
      = L.map Prod.fst := by
  rw [List.map_map]
  refine List.map_congr_left ?_
  intro kv _
  by_cases hkv : kv.1 = k
  · simp [hkv]
  · simp [hkv]

theorem mem_replace_iff {L : List (Key × V)} {k : Key} {v : V} {q : Key × V} :
    q ∈ L.map (fun kv => if kv.1 = k then (k, v) else kv) ↔
    ((∃ p ∈ L, p.1 = k) ∧ q = (k, v)) ∨ (q ∈ L ∧ q.1 ≠ k) := by
  rw [List.mem_map]
  constructor
  · rintro ⟨p, hp, hq⟩
    by_cases hpk : p.1 = k
    · rw [if_pos hpk] at hq
      exact Or.inl ⟨⟨p, hp, hpk⟩, hq.symm⟩
    · rw [if_neg hpk] at hq
      exact Or.inr ⟨hq ▸ hp, hq ▸ hpk⟩
  · rintro (⟨⟨p, hp, hpk⟩, rfl⟩ | ⟨hq, hqk⟩)
    · exact ⟨p, hp, by rw [if_pos hpk]⟩
    · exact ⟨q, hq, by rw [if_neg hqk]⟩

theorem filter_ne_of_not_any {L : List (Key × V)} {k : Key}
    (hk : ¬ L.any (fun kv => kv.1 = k) = true) :
    L.filter (fun kv => kv.1 ≠ k) = L := by
  rw [List.filter_eq_self]
  intro p hp
  refine decide_eq_true ?_
  intro he
  exact hk (List.any_eq_true.2 ⟨p, hp, decide_eq_true he⟩)

theorem filter_length_of_any {L : List (Key × V)} :
    (L.map Prod.fst).Nodup → ∀ {k : Key}, L.any (fun kv => kv.1 = k) = true →
    (L.filter (fun kv => kv.1 ≠ k)).length + 1 = L.length := by
  induction L with
  | nil =>
    intro _ k hk
    simp at hk
  | cons p rest ih =>
    intro hnd k hk
    rw [List.map_cons, List.nodup_cons] at hnd
    by_cases hp : p.1 = k
    · have hrest : ¬ rest.any (fun kv => kv.1 = k) = true := by
        intro hany
        rw [List.any_eq_true] at hany
        obtain ⟨q, hq, hqk⟩ := hany
        have hqk' : q.1 = k := of_decide_eq_true hqk
        exact hnd.1 (by rw [hp, ← hqk']; exact List.mem_map_of_mem Prod.fst hq)
      rw [List.filter_cons, show (decide (p.1 ≠ k)) = false by simp [hp],
        if_neg (by simp), filter_ne_of_not_any hrest]
      simp
    · have hkrest : rest.any (fun kv => kv.1 = k) = true := by
        rw [List.any_eq_true] at hk ⊢
        obtain ⟨q, hq, hqk⟩ := hk
        rcases List.mem_cons.1 hq with rfl | hq'
        · exact absurd (of_decide_eq_true hqk) hp
        · exact ⟨q, hq', hqk⟩
      have := ih hnd.2 hkrest
      rw [List.filter_cons, show (decide (p.1 ≠ k)) = true by simp [hp], if_pos rfl]
      simp only [List.length_cons]
      omega

theorem specFoldOp_keys_sub {L : List (Key × V)} {ks : List Key}
    (hKs : ∀ p ∈ L, p.1 ∈ ks) (op : HOp V) (hop : HOp.key op ∈ ks) :
    ∀ p ∈ specFoldOp L op, p.1 ∈ ks := by
  intro p hp
  cases op with
  | put k v g =>
    simp only [specFoldOp] at hp
    by_cases hb : L.any (fun kv => kv.1 = k) = true
    · rw [if_pos hb] at hp
      rcases mem_replace_iff.1 hp with ⟨-, rfl⟩ | ⟨hq, -⟩
      · exact hop
      · exact hKs p hq
    · rw [if_neg hb] at hp
      rcases List.mem_append.1 hp with hq | hq
      · exact hKs p hq
      · rw [List.mem_singleton] at hq
        rw [hq]
        exact hop
  | del k o =>
    simp only [specFoldOp] at hp
    exact hKs p (List.mem_of_mem_filter hp)

theorem specFoldOp_keys_nodup {L : List (Key × V)}
    (hnd : (L.map Prod.fst).Nodup) (op : HOp V) :
    ((specFoldOp L op).map Prod.fst).Nodup := by
  cases op with
  | put k v g =>
    simp only [specFoldOp]
    by_cases hb : L.any (fun kv => kv.1 = k) = true
    · rw [if_pos hb, map_fst_replace]
      exact hnd
    · rw [if_neg hb, List.map_append]
      refine List.Nodup.append hnd (List.nodup_singleton _) ?_
      show (L.map Prod.fst).Disjoint [k]
      rw [List.disjoint_singleton]
      intro hmem
      rw [List.mem_map] at hmem
      obtain ⟨q, hq, hqk⟩ := hmem
      exact hb (List.any_eq_true.2 ⟨q, hq, decide_eq_true hqk⟩)
  | del k o =>
    simp only [specFoldOp]
    exact hnd.sublist ((List.filter_sublist L).map Prod.fst)

theorem dropLast_append_getLast {B l : List Key} (hl : l ≠ []) :
    (B ++ l.getLast?.toList).dropLast = B := by
  obtain ⟨a, ha⟩ := Option.isSome_iff_exists.mp (List.getLast?_isSome.2 hl)
  rw [ha]
  show (B ++ [a]).dropLast = B
  exact List.dropLast_concat

theorem map_fst_filter_ne (L : List (Key × V)) (k : Key) :
    (L.filter (fun kv => kv.1 ≠ k)).map Prod.fst
      = (L.map Prod.fst).filter (fun x => x ≠ k) := by
  induction L with
  | nil => rfl
  | cons p rest ih =>
    by_cases hp : p.1 = k
    · rw [List.filter_cons, show (decide (p.1 ≠ k)) = false by simp [hp],
        if_neg (by simp), List.map_cons, List.filter_cons,
        show (decide (p.1 ≠ k)) = false by simp [hp], if_neg (by simp), ih]
    · rw [List.filter_cons, show (decide (p.1 ≠ k)) = true by simp [hp], if_pos rfl,
        List.map_cons, List.map_cons, List.filter_cons,
        show (decide (p.1 ≠ k)) = true by simp [hp], if_pos rfl, ih]

/-- On a duplicate-free vector, removing the first matching key in ordered
mode is plain filtering. -/
theorem listRemoveKey_ordered : ∀ {vs : List Key}, vs.Nodup → ∀ {k : Key}, k ∈ vs →
    listRemoveKey vs k true = vs.filter (fun x => x ≠ k) := by
  intro vs
  induction vs with
  | nil =>
    intro _ k hk
    cases hk
  | cons x xs ih =>
    intro hnd k hk
    rw [List.nodup_cons] at hnd
    by_cases hx : x = k
    · have hfr : (x :: xs).findIdx? (fun y => y = k) = some 0 := by
        rw [List.findIdx?_cons, if_pos (by simp [hx])]
      have hkxs : k ∉ xs := by
        rw [← hx]
        exact hnd.1
      have hfilter : xs.filter (fun y => y ≠ k) = xs := by
        rw [List.filter_eq_self]
        intro y hy
        refine decide_eq_true ?_
        intro he
        exact hkxs (he ▸ hy)
      unfold listRemoveKey
      rw [hfr]
      dsimp only
      rw [if_pos rfl, List.filter_cons,
        show (decide (x ≠ k)) = false by simp [hx], if_neg (by simp), hfilter]
      cases xs with
      | nil => rfl
      | cons y ys =>
        rw [show (x :: y :: ys).getLast? = (y :: ys).getLast?
            from List.getLast?_cons_cons,
          show (x :: y :: ys).take 0 = [] from rfl,
          show (x :: y :: ys).drop 1 = y :: ys from rfl,
          List.nil_append, dropLast_append_getLast (by simp)]
    · have hkxs : k ∈ xs := by
        rcases List.mem_cons.1 hk with he | he
        · exact absurd he.symm hx
        · exact he
      obtain ⟨j, hj⟩ : ∃ j, xs.findIdx? (fun y => y = k) = some j := by
        cases hjj : xs.findIdx? (fun y => y = k) with
        | some j => exact ⟨j, rfl⟩
        | none =>
          rw [List.findIdx?_eq_none_iff] at hjj
          have := hjj k hkxs
          simp at this
      have hfr : (x :: xs).findIdx? (fun y => y = k) = some (j + 1) := by
        rw [List.findIdx?_cons, if_neg (by simp [hx]), List.findIdx?_succ, hj]
        rfl
      have hih := ih hnd.2 hkxs
      have hihx : (xs.take j ++ xs.drop (j + 1) ++ xs.getLast?.toList).dropLast
          = xs.filter (fun y => y ≠ k) := by
        have hx1 : listRemoveKey xs k true
            = (xs.take j ++ xs.drop (j + 1) ++ xs.getLast?.toList).dropLast := by
          unfold listRemoveKey
          rw [hj]
          dsimp only
          rw [if_pos rfl]
        rw [← hx1, hih]
      have hlhs : listRemoveKey (x :: xs) k true
          = ((x :: xs).take (j + 1) ++ (x :: xs).drop (j + 2)
             ++ (x :: xs).getLast?.toList).dropLast := by
        unfold listRemoveKey
        rw [hfr]
        dsimp only
        rw [if_pos rfl]
      rw [hlhs, List.take_succ_cons,
        show (x :: xs).drop (j + 2) = xs.drop (j + 1) from rfl]
      cases xs with
      | nil => cases hkxs
      | cons y ys =>
        rw [show (x :: y :: ys).getLast? = (y :: ys).getLast?
            from List.getLast?_cons_cons,
          List.cons_append, List.cons_append,
          List.dropLast_cons_of_ne_nil (by
            obtain ⟨a, ha⟩ := Option.isSome_iff_exists.mp
              (List.getLast?_isSome.2 (show (y :: ys) ≠ [] by simp))
            rw [ha]
            simp),
          hihx,
          show List.filter (fun v => decide (v ≠ k)) (x :: y :: ys)
              = x :: List.filter (fun v => decide (v ≠ k)) (y :: ys) by
            rw [List.filter_cons, show (decide (x ≠ k)) = true by simp [hx],
              if_pos rfl]]

/-- Under clean operation sequences (no put of a live key, ordered deletes
only) the model key-order vector is exactly the keys of the reference map. -/
theorem clean_vec_eq : ∀ (ops : List (HOp V)) (L : List (Key × V)) (vs : List Key),
    cleanOps L ops = true → vs = L.map Prod.fst → (L.map Prod.fst).Nodup →
    (ops.foldl specStep (L, vs)).2 = (ops.foldl specFoldOp L).map Prod.fst := by
  intro ops
  induction ops with
  | nil =>
    intro L vs _ hvs _
    rw [List.foldl_nil, List.foldl_nil]
    exact hvs
  | cons op rest ih =>
    intro L vs hclean hvs hnd
    cases op with
    | put k v g =>
      simp only [cleanOps, Bool.and_eq_true] at hclean
      have hnb : ¬ L.any (fun kv => kv.1 = k) = true := by
        intro hany
        have h1 := hclean.1
        rw [hany] at h1
        exact absurd h1 (by decide)
      rw [List.foldl_cons, List.foldl_cons]
      show (rest.foldl specStep (specFoldOp L (.put k v g), vs ++ [k])).2 = _
      refine ih _ _ hclean.2 ?_ (specFoldOp_keys_nodup hnd _)
      show vs ++ [k] = (specFoldOp L (.put k v g)).map Prod.fst
      simp only [specFoldOp]
      rw [if_neg hnb, List.map_append, hvs]
      rfl
    | del k o =>
      simp only [cleanOps, Bool.and_eq_true] at hclean
      have ho : o = true := hclean.1
      subst ho
      rw [List.foldl_cons, List.foldl_cons]
      by_cases hb : L.any (fun kv => kv.1 = k) = true
      · have hstep : specStep (L, vs) (.del k true)
            = (specFoldOp L (.del k true), listRemoveKey vs k true) := by
          simp only [specStep]
          rw [if_pos hb]
        rw [hstep]
        have hkvs : k ∈ vs := by
          rw [hvs]
          rw [List.any_eq_true] at hb
          obtain ⟨p, hp, hpk⟩ := hb
          exact (of_decide_eq_true hpk) ▸ List.mem_map_of_mem Prod.fst hp
        have hvs' : listRemoveKey vs k true = (specFoldOp L (.del k true)).map Prod.fst := by
          rw [listRemoveKey_ordered (hvs ▸ hnd) hkvs]
          show vs.filter (fun x => x ≠ k)
            = (L.filter (fun kv => kv.1 ≠ k)).map Prod.fst
          rw [hvs, map_fst_filter_ne]
        exact ih _ _ hclean.2 hvs' (specFoldOp_keys_nodup hnd _)
      · have hstep : specStep (L, vs) (.del k true)
            = (specFoldOp L (.del k true), vs) := by
          simp only [specStep]
          rw [if_neg hb]
        rw [hstep]
        refine ih _ _ hclean.2 ?_ (specFoldOp_keys_nodup hnd _)
        show vs = (specFoldOp L (.del k true)).map Prod.fst
        simp only [specFoldOp]
        rw [filter_ne_of_not_any hb]
        exact hvs

theorem specStep_fst (rest : List (HOp V)) :
    ∀ (L : List (Key × V)) (vs : List Key),
    (rest.foldl specStep (L, vs)).1 = rest.foldl specFoldOp L := by
  induction rest with
  | nil =>
    intro L vs
    rfl
  | cons op rest ih =>
    intro L vs
    rw [List.foldl_cons, List.foldl_cons]
    cases op with
    | put k v g => exact ih _ _
    | del k o => exact ih _ _

/-- The main refinement induction: running good-keyed, zero-garbage
operations on an invariant-satisfying map tracks the reference association
list (`specFoldOp`) and the reference key-order vector (`specStep`). -/
theorem runHOps_aux {ks : List Key} (hg : GoodKeys ks) :
    ∀ (rest : List (HOp V)) (L : List (Key × V)) (vs : List Key) (h : Hmap V),
    (∀ op ∈ rest, HOp.key op ∈ ks) →
    ZeroGarbage rest →
    (∀ p ∈ L, p.1 ∈ ks) →
    (L.map Prod.fst).Nodup →
    occCount h.nodes = L.length →
    4 * (L.length + rest.length) + 16 ≤ 2 ^ 62 →
    HInv h →
    (∀ hs w, Stored h hs w ↔ ∃ p ∈ L, json_hash_str p.1 = hs ∧ p.2 = w) →
    h.vec.data = vs →
    ∃ h', rest.foldlM runHOp h = some h' ∧ HInv h' ∧
      (∀ hs w, Stored h' hs w ↔
        ∃ p ∈ rest.foldl specFoldOp L, json_hash_str p.1 = hs ∧ p.2 = w) ∧
      occCount h'.nodes = (rest.foldl specFoldOp L).length ∧
      (∀ p ∈ rest.foldl specFoldOp L, p.1 ∈ ks) ∧
      ((rest.foldl specFoldOp L).map Prod.fst).Nodup ∧
      h'.vec.data = (rest.foldl specStep (L, vs)).2 := by
  intro rest
  induction rest with
  | nil =>
    intro L vs h hk hz hLks hnd hocc hbudget hI hstored hvec
    exact ⟨h, rfl, hI, by rw [List.foldl_nil]; exact hstored,
      by rw [List.foldl_nil]; exact hocc, by rw [List.foldl_nil]; exact hLks,
      by rw [List.foldl_nil]; exact hnd, by rw [List.foldl_nil]; exact hvec⟩
  | cons op rest ih =>
    intro L vs h hk hz hLks hnd hocc hbudget hI hstored hvec
    have h62 : (2 : Nat) ^ 62 = 4611686018427387904 := by norm_num
    rw [h62] at hbudget
    simp only [List.length_cons] at hbudget
    have hcapSmall : h.cap * 2 < W := by
      have hcb := hI.capBound
      have hW64 : W = 18446744073709551616 := rfl
      omega
    cases op with
    | put k v g =>
      have hg0 : g = 0 := hz _ (List.mem_cons_self _ _) k v g rfl
      subst hg0
      have hkks : k ∈ ks := hk _ (List.mem_cons_self _ _)
      have hknz : json_hash_str k ≠ 0 := hg.1 k hkks
      obtain ⟨h', hrun, hI', hmin', hvec', hstored', hoccLive, hoccNew⟩ :=
        hmap_put_ok hI hcapSmall k v hknz
      have hliveb := live_iff_any hg hI hstored hLks hkks
      have hfold : (HOp.put k v 0 :: rest).foldlM runHOp h
          = rest.foldlM runHOp h' := by
        rw [List.foldlM_cons]
        show (runHOp h (.put k v 0)) >>= _ = _
        rw [show runHOp h (.put k v 0) = json_hmap_put h k v 0 from rfl, hrun]
        rfl
      set L' : List (Key × V) := specFoldOp L (.put k v 0) with hL'
      have hstored2 : ∀ hs w, Stored h' hs w ↔
          ∃ p ∈ L', json_hash_str p.1 = hs ∧ p.2 = w := by
        intro hs w
        rw [hstored' hs w]
        by_cases hbb : L.any (fun kv => kv.1 = k) = true
        · have hLrep : L' = L.map (fun kv => if kv.1 = k then (k, v) else kv) := by
            rw [hL']
            simp only [specFoldOp]
            rw [if_pos hbb]
          rw [hLrep]
          constructor
          · rintro (⟨rfl, rfl⟩ | ⟨hne, hst⟩)
            · rw [List.any_eq_true] at hbb
              obtain ⟨p, hp, hpk⟩ := hbb
              exact ⟨(k, w), mem_replace_iff.2
                (Or.inl ⟨⟨p, hp, of_decide_eq_true hpk⟩, rfl⟩), rfl, rfl⟩
            · obtain ⟨p, hp, hh, ho⟩ := (hstored hs w).1 hst
              have hpk : p.1 ≠ k := by
                intro he
                exact hne (by rw [← hh, he])
              exact ⟨p, mem_replace_iff.2 (Or.inr ⟨hp, hpk⟩), hh, ho⟩
          · rintro ⟨q, hq, hh, ho⟩
            rcases mem_replace_iff.1 hq with ⟨-, rfl⟩ | ⟨hqL, hqk⟩
            · exact Or.inl ⟨hh.symm, ho.symm⟩
            · refine Or.inr ⟨?_, (hstored hs w).2 ⟨q, hqL, hh, ho⟩⟩
              intro he
              exact hqk (hg.2 q.1 (hLks q hqL) k hkks (by rw [hh, he]))
        · have hLapp : L' = L ++ [(k, v)] := by
            rw [hL']
            simp only [specFoldOp]
            rw [if_neg hbb]
          rw [hLapp]
          constructor
          · rintro (⟨rfl, rfl⟩ | ⟨hne, hst⟩)
            · exact ⟨(k, w),
                List.mem_append.2 (Or.inr (List.mem_singleton.2 rfl)), rfl, rfl⟩
            · obtain ⟨p, hp, hh, ho⟩ := (hstored hs w).1 hst
              exact ⟨p, List.mem_append.2 (Or.inl hp), hh, ho⟩
          · rintro ⟨q, hq, hh, ho⟩
            rcases List.mem_append.1 hq with hqL | hqs
            · refine Or.inr ⟨?_, (hstored hs w).2 ⟨q, hqL, hh, ho⟩⟩
              intro he
              have hq1 : q.1 = k := hg.2 q.1 (hLks q hqL) k hkks (by rw [hh, he])
              exact hbb (List.any_eq_true.2 ⟨q, hqL, decide_eq_true hq1⟩)
            · rw [List.mem_singleton] at hqs
              subst hqs
              exact Or.inl ⟨hh.symm, ho.symm⟩
      have hlen' : L'.length ≤ L.length + 1 := by
        rw [hL']
        by_cases hbb : L.any (fun kv => kv.1 = k) = true
        · simp only [specFoldOp]
          rw [if_pos hbb, List.length_map]
          omega
        · simp only [specFoldOp]
          rw [if_neg hbb, List.length_append]
          simp
      have hocc2 : occCount h'.nodes = L'.length := by
        by_cases hbb : L.any (fun kv => kv.1 = k) = true
        · rw [hoccLive (hliveb.2 hbb), hocc, hL']
          simp only [specFoldOp]
          rw [if_pos hbb, List.length_map]
        · have hnl : ¬ HashLive h (json_hash_str k) := fun hl => hbb (hliveb.1 hl)
          rw [hoccNew hnl, hocc, hL']
          simp only [specFoldOp]
          rw [if_neg hbb, List.length_append]
          rfl
      have hvec2 : h'.vec.data = vs ++ [k] := by
        rw [hvec', vec_push_data, hvec]
      obtain ⟨hfin, hrunf, hIf, hstoredf, hoccf, hksf, hndf, hvecf⟩ :=
        ih L' (vs ++ [k]) h'
          (fun op hop => hk op (List.mem_cons_of_mem _ hop))
          (fun op hop k' v' g' he => hz op (List.mem_cons_of_mem _ hop) k' v' g' he)
          (specFoldOp_keys_sub hLks _ hkks)
          (specFoldOp_keys_nodup hnd _)
          hocc2
          (by rw [h62]; omega)
          hI' hstored2 hvec2
      refine ⟨hfin, by rw [hfold]; exact hrunf, hIf, ?_, ?_, ?_, ?_, ?_⟩
      · rw [List.foldl_cons]
        exact hstoredf
      · rw [List.foldl_cons]
        exact hoccf
      · rw [List.foldl_cons]
        exact hksf
      · rw [List.foldl_cons]
        exact hndf
      · rw [List.foldl_cons]
        exact hvecf
    | del k o =>
      have hkks : k ∈ ks := hk _ (List.mem_cons_self _ _)
      have hknz : json_hash_str k ≠ 0 := hg.1 k hkks
      have hliveb := live_iff_any hg hI hstored hLks hkks
      set L' : List (Key × V) := specFoldOp L (.del k o) with hL'
      have hLfilter : L' = L.filter (fun kv => kv.1 ≠ k) := by
        rw [hL']
        rfl
      have hlen' : L'.length ≤ L.length := by
        rw [hLfilter]
        exact List.length_filter_le _ _
      by_cases hlv : HashLive h (json_hash_str k)
      · obtain ⟨v, h', hrun, hstv, hI', hmin', hvec', hstored', hocc'⟩ :=
          hmap_del_found hI hcapSmall k o hlv
        have hbb : L.any (fun kv => kv.1 = k) = true := hliveb.1 hlv
        have hfold : (HOp.del k o :: rest).foldlM runHOp h
            = rest.foldlM runHOp h' := by
          rw [List.foldlM_cons]
          show (runHOp h (.del k o)) >>= _ = _
          rw [show runHOp h (.del k o) = (json_hmap_del h k o).map (·.2) from rfl,
            hrun]
          rfl
        have hstored2 : ∀ hs w, Stored h' hs w ↔
            ∃ p ∈ L', json_hash_str p.1 = hs ∧ p.2 = w := by
          intro hs w
          rw [hstored' hs w, hLfilter]
          constructor
          · rintro ⟨hne, hst⟩
            obtain ⟨p, hp, hh, ho⟩ := (hstored hs w).1 hst
            have hpk : p.1 ≠ k := fun he => hne (by rw [← hh, he])
            exact ⟨p, List.mem_filter.2 ⟨hp, decide_eq_true hpk⟩, hh, ho⟩
          · rintro ⟨q, hq, hh, ho⟩
            rw [List.mem_filter] at hq
            have hqk : q.1 ≠ k := of_decide_eq_true hq.2
            refine ⟨?_, (hstored hs w).2 ⟨q, hq.1, hh, ho⟩⟩
            intro he
            exact hqk (hg.2 q.1 (hLks q hq.1) k hkks (by rw [hh, he]))
        have hocc2 : occCount h'.nodes = L'.length := by
          rw [hLfilter]
          have hfl := filter_length_of_any hnd hbb
          omega
        have hvec2 : h'.vec.data = listRemoveKey vs k o := by
          rw [hvec', vecRemoveKey_data, hvec]
        obtain ⟨hfin, hrunf, hIf, hstoredf, hoccf, hksf, hndf, hvecf⟩ :=
          ih L' (listRemoveKey vs k o) h'
            (fun op hop => hk op (List.mem_cons_of_mem _ hop))
            (fun op hop k' v' g' he => hz op (List.mem_cons_of_mem _ hop) k' v' g' he)
            (specFoldOp_keys_sub hLks _ hkks)
            (specFoldOp_keys_nodup hnd _)
            hocc2
            (by rw [h62]; omega)
            hI' hstored2 hvec2
        have hstep : specStep (L, vs) (.del k o) = (L', listRemoveKey vs k o) := by
          simp only [specStep]
          rw [if_pos hbb]
        refine ⟨hfin, by rw [hfold]; exact hrunf, hIf, ?_, ?_, ?_, ?_, ?_⟩
        · rw [List.foldl_cons]
          exact hstoredf
        · rw [List.foldl_cons]
          exact hoccf
        · rw [List.foldl_cons]
          exact hksf
        · rw [List.foldl_cons]
          exact hndf
        · rw [List.foldl_cons, hstep]
          exact hvecf
      · have hnb : ¬ L.any (fun kv => kv.1 = k) = true := fun hb => hlv (hliveb.2 hb)
        have hrun := hmap_del_absent hI k o hknz hlv
        have hfold : (HOp.del k o :: rest).foldlM runHOp h
            = rest.foldlM runHOp h := by
          rw [List.foldlM_cons]
          show (runHOp h (.del k o)) >>= _ = _
          rw [show runHOp h (.del k o) = (json_hmap_del h k o).map (·.2) from rfl,
            hrun]
          rfl
        have hLsame : L' = L := by
          rw [hLfilter, filter_ne_of_not_any hnb]
        obtain ⟨hfin, hrunf, hIf, hstoredf, hoccf, hksf, hndf, hvecf⟩ :=
          ih L' vs h
            (fun op hop => hk op (List.mem_cons_of_mem _ hop))
            (fun op hop k' v' g' he => hz op (List.mem_cons_of_mem _ hop) k' v' g' he)
            (specFoldOp_keys_sub hLks _ hkks)
            (specFoldOp_keys_nodup hnd _)
            (by rw [hLsame]; exact hocc)
            (by rw [h62]; omega)
            hI (by intro hs w; rw [hLsame]; exact hstored hs w) hvec
        have hstep : specStep (L, vs) (.del k o) = (L', vs) := by
          simp only [specStep]
          rw [if_neg hnb]
        refine ⟨hfin, by rw [hfold]; exact hrunf, hIf, ?_, ?_, ?_, ?_, ?_⟩
        · rw [List.foldl_cons]
          exact hstoredf
        · rw [List.foldl_cons]
          exact hoccf
        · rw [List.foldl_cons]
          exact hksf
        · rw [List.foldl_cons]
          exact hndf
        · rw [List.foldl_cons, hstep]
          exact hvecf

/-- Refinement of a full operation sequence from a fresh map: the final map
satisfies the invariant, stores exactly the reference association list, and
its key-order vector is the reference vector. -/
theorem runHOps_spec {ops : List (HOp V)} (hg : GoodKeys (ops.map HOp.key))
    (hz : ZeroGarbage ops) (hlen : 4 * ops.length + 16 ≤ 2 ^ 62) :
    ∃ h', runHOps ops = some h' ∧ HInv h' ∧
      (∀ hs w, Stored h' hs w ↔
        ∃ p ∈ specState ops, json_hash_str p.1 = hs ∧ p.2 = w) ∧
      occCount h'.nodes = (specState ops).length ∧
      (∀ p ∈ specState ops, p.1 ∈ ops.map HOp.key) ∧
      ((specState ops).map Prod.fst).Nodup ∧
      h'.vec.data = (specFull ops).2 := by
  have hstored0 : ∀ hs w, Stored (json_hmap_make V JSON_HMAP_INIT_CAP) hs w ↔
      ∃ p ∈ ([] : List (Key × V)), json_hash_str p.1 = hs ∧ p.2 = w := by
    intro hs w
    constructor
    · rintro ⟨i, hi, hoc, -⟩
      rw [Occupied, show (json_hmap_make V JSON_HMAP_INIT_CAP).nodes
        = List.replicate 8 emptyNode from rfl, nodeAt_replicate] at hoc
      exact absurd rfl hoc
    · rintro ⟨p, hp, -⟩
      cases hp
  obtain ⟨h', hrun, hI, hstored, hocc, hks, hnd, hvec⟩ :=
    runHOps_aux hg ops [] [] (json_hmap_make V JSON_HMAP_INIT_CAP)
      (fun op hop => List.mem_map_of_mem HOp.key hop)
      hz
      (fun p hp => absurd hp (List.not_mem_nil p))
      List.nodup_nil
      (by rw [show (json_hmap_make V JSON_HMAP_INIT_CAP).nodes
        = List.replicate 8 emptyNode from rfl, occCount_replicate]; rfl)
      (by simpa using hlen)
      hinv_make hstored0 rfl
  exact ⟨h', hrun, hI, hstored, hocc, hks, hnd, hvec⟩

/-- Hash-injectivity restricts to key sublists. -/
theorem goodKeys_sub {ks l : List Key} (hg : GoodKeys ks)
    (hsub : ∀ x ∈ l, x ∈ ks) : GoodKeys l :=
  ⟨fun k hk => hg.1 k (hsub k hk),
   fun a ha b hb => hg.2 a (hsub a ha) b (hsub b hb)⟩

/-! ## Serializer lemmas -/

theorem natDecimalF_congr : ∀ (f1 f2 n : Nat), n < 10 ^ (f1 + 1) → n < 10 ^ (f2 + 1) →
    natDecimalF f1 n = natDecimalF f2 n := by
  intro f1
  induction f1 with
  | zero =>
    intro f2 n h1 h2
    have hn : n < 10 := by simpa using h1
    cases f2 with
    | zero => rfl
    | succ f2 =>
      show [48 + n % 10] = if n < 10 then [48 + n] else _
      rw [if_pos hn, Nat.mod_eq_of_lt hn]
  | succ f1 ih =>
    intro f2 n h1 h2
    by_cases hn : n < 10
    · cases f2 with
      | zero =>
        show (if n < 10 then [48 + n] else _) = [48 + n % 10]
        rw [if_pos hn, Nat.mod_eq_of_lt hn]
      | succ f2 =>
        show (if n < 10 then [48 + n] else _) = (if n < 10 then [48 + n] else _)
        rw [if_pos hn, if_pos hn]
    · cases f2 with
      | zero =>
        have : n < 10 := by simpa using h2
        exact absurd this hn
      | succ f2 =>
        show (if n < 10 then _ else natDecimalF f1 (n / 10) ++ [48 + n % 10]) =
          (if n < 10 then _ else natDecimalF f2 (n / 10) ++ [48 + n % 10])
        rw [if_neg hn, if_neg hn]
        have hd1 : n / 10 < 10 ^ (f1 + 1) := by
          rw [pow_succ, Nat.mul_comm] at h1
          exact Nat.div_lt_of_lt_mul h1
        have hd2 : n / 10 < 10 ^ (f2 + 1) := by
          rw [pow_succ, Nat.mul_comm] at h2
          exact Nat.div_lt_of_lt_mul h2
        rw [ih f2 (n / 10) hd1 hd2]

theorem nat_lt_ten_pow_succ (k : Nat) : k < 10 ^ (k + 1) := by
  have h1 : k < 2 ^ k := Nat.lt_two_pow k
  have h2 : (2 : Nat) ^ k ≤ 10 ^ k := Nat.pow_le_pow_left (by omega) k
  have h3 : (10 : Nat) ^ k ≤ 10 ^ (k + 1) := Nat.pow_le_pow_right (by omega) (Nat.le_succ k)
  omega

theorem natDecimal_eq (n : Nat) :
    natDecimal n = if n < 10 then [48 + n] else natDecimal (n / 10) ++ [48 + n % 10] := by
  by_cases hn : n < 10
  · rw [if_pos hn]
    show natDecimalF n n = [48 + n]
    cases n with
    | zero => rfl
    | succ m =>
      show (if m + 1 < 10 then [48 + (m + 1)] else _) = [48 + (m + 1)]
      rw [if_pos hn]
  · rw [if_neg hn]
    obtain ⟨m, rfl⟩ : ∃ m, n = m + 1 := ⟨n - 1, by omega⟩
    show (if m + 1 < 10 then [48 + (m + 1)] else natDecimalF m ((m + 1) / 10) ++ [48 + (m + 1) % 10]) = _
    rw [if_neg hn]
    show _ = natDecimalF ((m + 1) / 10) ((m + 1) / 10) ++ [48 + (m + 1) % 10]
    have hdm : (m + 1) / 10 < m + 1 := Nat.div_lt_self (by omega) (by omega)
    rw [natDecimalF_congr m ((m + 1) / 10) ((m + 1) / 10)
      (lt_of_lt_of_le hdm (nat_lt_ten_pow_succ m))
      (nat_lt_ten_pow_succ ((m + 1) / 10))]

theorem natDecimal_digits : ∀ n, ∀ b ∈ natDecimal n, 48 ≤ b ∧ b ≤ 57 := by
  intro n
  induction n using Nat.strong_induction_on with
  | _ n ih =>
    intro b hb
    rw [natDecimal_eq] at hb
    split at hb
    · rename_i hlt
      rw [List.mem_singleton] at hb
      omega
    · rename_i hge
      rcases List.mem_append.1 hb with h | h
      · exact ih (n / 10) (Nat.div_lt_self (by omega) (by omega)) b h
      · rw [List.mem_singleton] at h
        have := Nat.mod_lt n (show 0 < 10 by omega)
        omega

theorem natDecimal_last (n : Nat) :
    ∃ B d, natDecimal n = B ++ [d] ∧ 48 ≤ d ∧ d ≤ 57 := by
  rw [natDecimal_eq]
  split
  · rename_i hlt
    exact ⟨[], 48 + n, rfl, by omega, by omega⟩
  · rename_i hge
    have := Nat.mod_lt n (show 0 < 10 by omega)
    exact ⟨natDecimal (n / 10), 48 + n % 10, rfl, by omega, by omega⟩

theorem natDecimal_length_le : ∀ k, 1 ≤ k → ∀ n, n < 10 ^ k →
    (natDecimal n).length ≤ k := by
  intro k
  induction k with
  | zero =>
    intro h
    omega
  | succ k ih =>
    intro _ n hn
    rw [natDecimal_eq]
    split
    · rename_i hlt
      simp
    · rename_i hge
      have hk1 : 1 ≤ k := by
        by_contra hk0
        push_neg at hk0
        have hk : k = 0 := by omega
        rw [hk, pow_one] at hn
        omega
      have hdiv : n / 10 < 10 ^ k := by
        rw [pow_succ, Nat.mul_comm] at hn
        exact Nat.div_lt_of_lt_mul hn
      have := ih hk1 (n / 10) hdiv
      rw [List.length_append]
      simp only [List.length_singleton]
      omega

theorem intDecimal_mem (n : ℤ) : ∀ b ∈ intDecimal n, b = 45 ∨ (48 ≤ b ∧ b ≤ 57) := by
  intro b hb
  unfold intDecimal at hb
  split at hb
  · rcases List.mem_cons.1 hb with rfl | h
    · exact Or.inl rfl
    · exact Or.inr (natDecimal_digits _ b h)
  · exact Or.inr (natDecimal_digits _ b hb)

theorem fixed6_mem (q : ℚ) : ∀ b ∈ fixed6 q,
    b = 45 ∨ b = 46 ∨ (48 ≤ b ∧ b ≤ 57) := by
  intro b hb
  simp only [fixed6] at hb
  rcases List.mem_append.1 hb with h1 | hpad
  · rcases List.mem_append.1 h1 with h2 | h46
    · rcases List.mem_append.1 h2 with hsign | hnat
      · by_cases hq : q < 0
        · rw [if_pos hq] at hsign
          rw [List.mem_singleton] at hsign
          exact Or.inl hsign
        · rw [if_neg hq] at hsign
          cases hsign
      · exact Or.inr (Or.inr (natDecimal_digits _ b hnat))
    · rw [List.mem_singleton] at h46
      exact Or.inr (Or.inl h46)
  · unfold padZeros at hpad
    rcases List.mem_append.1 hpad with hrep | hnat
    · have := List.eq_of_mem_replicate hrep
      omega
    · exact Or.inr (Or.inr (natDecimal_digits _ b hnat))

theorem numToStr_mem (q : ℚ) : ∀ b ∈ numToStr q,
    b = 45 ∨ b = 46 ∨ (48 ≤ b ∧ b ≤ 57) := by
  intro b hb
  unfold numToStr at hb
  split at hb
  · rcases intDecimal_mem _ b hb with h | h
    · exact Or.inl h
    · exact Or.inr (Or.inr h)
  · exact fixed6_mem q b hb

theorem numToStr_last (q : ℚ) :
    ∃ B d, numToStr q = B ++ [d] ∧ 48 ≤ d ∧ d ≤ 57 := by
  unfold numToStr
  split
  · unfold intDecimal
    split
    · obtain ⟨B, d, hB, hd1, hd2⟩ := natDecimal_last (ratTrunc q).natAbs
      exact ⟨45 :: B, d, by rw [hB]; rfl, hd1, hd2⟩
    · obtain ⟨B, d, hB, hd1, hd2⟩ := natDecimal_last (ratTrunc q).toNat
      exact ⟨B, d, hB, hd1, hd2⟩
  · obtain ⟨B, d, hB, hd1, hd2⟩ :=
      natDecimal_last ((⌊|q| * 1000000 + 1 / 2⌋).toNat % 1000000)
    refine ⟨(if q < 0 then [45] else [])
        ++ natDecimal ((⌊|q| * 1000000 + 1 / 2⌋).toNat / 1000000) ++ [46]
        ++ List.replicate
            (6 - (natDecimal ((⌊|q| * 1000000 + 1 / 2⌋).toNat % 1000000)).length) 48
        ++ B, d, ?_, hd1, hd2⟩
    simp only [fixed6, padZeros]
    rw [hB]
    simp [List.append_assoc]

/-- The exactly-six-fractional-digits shape of `%lf`. -/
theorem fixed6_shape (q : ℚ) : ∃ ds, ds.length = 6 ∧
    (∀ d ∈ ds, 48 ≤ d ∧ d ≤ 57) ∧
    fixed6 q = ((if q < 0 then [45] else [])
      ++ natDecimal ((⌊|q| * 1000000 + 1 / 2⌋).toNat / 1000000)) ++ [46] ++ ds := by
  refine ⟨padZeros 6 (natDecimal ((⌊|q| * 1000000 + 1 / 2⌋).toNat % 1000000)),
    ?_, ?_, ?_⟩
  · have hlt : (⌊|q| * 1000000 + 1 / 2⌋).toNat % 1000000 < 10 ^ 6 := by
      have := Nat.mod_lt (⌊|q| * 1000000 + 1 / 2⌋).toNat
        (show 0 < 1000000 by omega)
      norm_num
      omega
    have hle := natDecimal_length_le 6 (by omega) _ hlt
    unfold padZeros
    rw [List.length_append, List.length_replicate]
    omega
  · intro d hd
    unfold padZeros at hd
    rcases List.mem_append.1 hd with hrep | hnat
    · have := List.eq_of_mem_replicate hrep
      omega
    · exact natDecimal_digits _ d hnat
  · simp only [fixed6]

theorem takeWhile_append_nl : ∀ (A : List Nat), (0 : Nat) ∉ A →
    ((A ++ [10, 0]).takeWhile (fun b => b != 0)) = A ++ [10] := by
  intro A
  induction A with
  | nil =>
    intro _
    rfl
  | cons a A ih =>
    intro h0
    have ha : a ≠ 0 := fun he => h0 (by rw [he]; exact List.mem_cons_self _ _)
    rw [List.cons_append, List.takeWhile_cons,
      show (a != 0) = true by simpa using ha, if_pos rfl,
      ih (fun hm => h0 (List.mem_cons_of_mem _ hm))]
    rfl

/-- Every nonempty-fuel serialization of a value is empty or ends in a
non-newline byte (a closing bracket, quote, digit, or keyword letter). -/
theorem serializeValueF_last (f : Nat) (mini : Bool) (ind lvl : Nat) (v : PVal) :
    serializeValueF (f + 1) mini ind lvl v = [] ∨
    ∃ B d, serializeValueF (f + 1) mini ind lvl v = B ++ [d] ∧ d ≠ 10 := by
  cases v with
  | obj pairs =>
    cases hmp : hmapOfPuts pairs with
    | none =>
      left
      simp only [serializeValueF]
      rw [hmp]
    | some hm =>
      right
      simp only [serializeValueF]
      rw [hmp]
      exact ⟨_, 125, rfl, by omega⟩
  | arr elems =>
    right
    simp only [serializeValueF]
    exact ⟨_, 93, rfl, by omega⟩
  | str s =>
    right
    simp only [serializeValueF, json_serialize_string]
    exact ⟨_, 34, rfl, by omega⟩
  | num q =>
    right
    obtain ⟨B, d, hB, hd1, hd2⟩ := numToStr_last q
    simp only [serializeValueF]
    exact ⟨B, d, hB, by omega⟩
  | tru =>
    right
    exact ⟨[116, 114, 117], 101, rfl, by omega⟩
  | fls =>
    right
    exact ⟨[102, 97, 108, 115], 101, rfl, by omega⟩
  | nul =>
    right
    exact ⟨[110, 117, 108], 108, rfl, by omega⟩

theorem pvalSize_pos (v : PVal) : 1 ≤ pvalSize v := by
  cases v <;> (unfold pvalSize; omega)

/-- `json_serialize` output: the serialized value, then exactly one newline
(whenever the value's serialization itself contains no NUL byte — true of
every tree the C program can serialize, since its strings are
NUL-terminated). -/
theorem serialize_trailing (v : PVal) (mini : Bool) (ind : Nat)
    (h0 : (0 : Nat) ∉ serializeValueF (pvalSize v) mini ind 0 v) :
    ∃ body, json_serialize v mini ind = body ++ [10] ∧ body.getLast? ≠ some 10 := by
  obtain ⟨f, hf⟩ : ∃ f, pvalSize v = f + 1 :=
    ⟨pvalSize v - 1, by have := pvalSize_pos v; omega⟩
  refine ⟨serializeValueF (pvalSize v) mini ind 0 v, ?_, ?_⟩
  · show (json_serialize_stringy v mini ind).takeWhile (fun b => b != 0) = _
    unfold json_serialize_stringy
    exact takeWhile_append_nl _ h0
  · rw [hf]
    rcases serializeValueF_last f mini ind 0 v with hnil | ⟨B, d, hB, hd⟩
    · rw [hnil]
      simp
    · rw [hB, List.getLast?_concat]
      intro he
      exact hd (Option.some.inj he)

/-! ## Parser root lemmas -/

/-- Every successful parse produces an object or array root. -/
theorem json_parse_root_shape (t : List Nat) (r : PVal)
    (h : json_parse t = .ok (some r)) :
    (∃ ps, r = PVal.obj ps) ∨ (∃ es, r = PVal.arr es) := by
  simp only [json_parse] at h
  split at h
  · split at h
    · exact Except.noConfusion h
    · split at h
      · exact Except.noConfusion h
      · injection h with h1
        injection h1 with h2
        exact Or.inl ⟨_, h2.symm⟩
  · split at h
    · split at h
      · exact Except.noConfusion h
      · split at h
        · exact Except.noConfusion h
        · injection h with h1
          injection h1 with h2
          exact Or.inr ⟨_, h2.symm⟩
    · split at h
      · injection h with h1
        exact Option.noConfusion h1
      · exact Except.noConfusion h

/-- Any document whose first token is not `{`, `[` or end-of-input is
rejected ("invalid json root"). -/
theorem json_parse_reject (t : List Nat)
    (h1 : byteAt t (json_next_token t 0) ≠ 123)
    (h2 : byteAt t (json_next_token t 0) ≠ 91)
    (h3 : byteAt t (json_next_token t 0) ≠ 0) :
    json_parse t = .error () := by
  simp only [json_parse]
  rw [if_neg (by simp [h1]), if_neg (by simp [h2]), if_neg (by simp [h3])]


/-! ## Claim theorems -/

/-- Claim C1: for a sequence of put/del operations, `json_hmap_get k`
returns the most recently put value for `k` (and NULL if `k` was never put
or its last put is followed by a del) — corrected to require that the keys
involved have pairwise-distinct nonzero hashes (the code identifies keys by
hash alone) and that every put's uninitialised `node.steps` happened to be
zero (reading it is undefined behaviour in the C source). -/
theorem C1_get_refines_spec {V : Type} (ops : List (HOp V)) (k : Key)
    (hkg : GoodKeys (k :: ops.map HOp.key)) (hz : ZeroGarbage ops)
    (hlen : 4 * ops.length + 16 ≤ 2 ^ 62) :
    ∃ h', runHOps ops = some h' ∧
      json_hmap_get h' k = some (specLookup ops k) := by
  have hg : GoodKeys (ops.map HOp.key) :=
    goodKeys_sub hkg (fun x hx => List.mem_cons_of_mem k hx)
  obtain ⟨h', hrun, hI, hstored, hocc, hks, hnd, hvec⟩ := runHOps_spec hg hz hlen
  refine ⟨h', hrun, ?_⟩
  unfold specLookup
  cases hfind : (specState ops).find? (fun kv => kv.1 = k) with
  | none =>
    have hnl : ¬ HashLive h' (json_hash_str k) := by
      intro hl
      obtain ⟨v, hv⟩ := (hashLive_iff hI _).1 hl
      obtain ⟨p, hp, hhash, -⟩ := (hstored _ v).1 hv
      have hpk : p.1 = k := hkg.2 p.1 (List.mem_cons_of_mem k (hks p hp)) k
        (List.mem_cons_self k _) hhash
      have hne : ¬ (p.1 = k) := by
        simpa using List.find?_eq_none.1 hfind p hp
      exact hne hpk
    rw [json_hmap_get_missing hI hnl]
    rfl
  | some q =>
    have hq : q ∈ specState ops := List.mem_of_find?_eq_some hfind
    have hqk : q.1 = k := by simpa using List.find?_some hfind
    have hst : Stored h' (json_hash_str k) q.2 :=
      (hstored _ _).2 ⟨q, hq, by rw [hqk], rfl⟩
    rw [json_hmap_get_stored hI hst]
    rfl

/-- The literal claim C1 fails on the code: two distinct 20-byte keys with
equal FNV-1a hashes alias to one entry, so `get` of a never-put key returns
another key's value. -/
theorem C1_cex : ∃ h, runHOps [(.put kColl1 11 0 : HOp Nat)] = some h ∧
    json_hmap_get h kColl2 = some (some 11) ∧
    specLookup [(.put kColl1 11 0 : HOp Nat)] kColl2 = none ∧
    kColl1 ≠ kColl2 := by
  refine ⟨_, rfl, rfl, rfl, by decide⟩

theorem C1_witness : ∃ h', runHOps c1ops = some h' ∧
    json_hmap_get h' [97] = some (specLookup c1ops [97]) :=
  C1_get_refines_spec c1ops [97]
    (by unfold GoodKeys; constructor <;> decide)
    (by
      intro op hop k v g he
      simp only [c1ops, List.mem_cons, List.not_mem_nil, or_false] at hop
      rcases hop with rfl | rfl | rfl
      · injection he with h1 h2 h3
        omega
      · injection he with h1 h2 h3
        omega
      · exact HOp.noConfusion he)
    (by decide)

/-- Claim C2 names a code bug: the fraction loop of `json_expect_number`
initialises `mult = 1.0` and only multiplies by `0.1` after consuming a
digit, so every fractional digit is scaled ten times too large; `"1.5"`
parses as `6`, and the mini-mode round trip of `{"a": 1.5}` yields
`{"a": 6}` although the serialized text was the correct `{"a":1.500000}`. -/
theorem C2_roundtrip_fails :
    json_serialize (PVal.obj [([97], PVal.num (3 / 2))]) true 2
      = [123, 34, 97, 34, 58, 49, 46, 53, 48, 48, 48, 48, 48, 125, 10] ∧
    json_parse (json_serialize (PVal.obj [([97], PVal.num (3 / 2))]) true 2)
      = .ok (some (PVal.obj [([97], PVal.num 6)])) ∧
    (6 : ℚ) ≠ 3 / 2 := by
  refine ⟨rfl, rfl, by decide⟩

/-- Claim C3 names a code bug: `json_hmap_put` never initialises the stack
variable `node.steps`, so the probe starts from an indeterminate value; with
indeterminate value 5, inserting a single key into a fresh table stores
`steps = 5` in an occupied slot whose true probe distance from its home
index is 0. -/
theorem C3_garbage_steps : ∃ h',
    json_hmap_put (json_hmap_make Nat 8) [97] 7 5 = some h' ∧
    (nodeAt h'.nodes (json_hash_str [97] % 8)).hash ≠ 0 ∧
    (nodeAt h'.nodes (json_hash_str [97] % 8)).steps
      ≠ slotDist 8 (homeOf 8 (nodeAt h'.nodes (json_hash_str [97] % 8)))
          (json_hash_str [97] % 8) := by
  refine ⟨_, rfl, ?_, ?_⟩ <;> decide

/-- Claim C4 names a code bug: `json_hmap_alloc_slot` increments `size`
again after the grow-rehash has already counted the re-inserted entries, so
`size` drifts one above the number of occupied slots after each growth;
five puts followed by five dels on a fresh map leave an empty table whose
`size_t` size has wrapped to `2^64 - 1`, so `capacity ≥ 2 × size` fails. -/
theorem C4_size_underflow : ∃ h : Hmap Nat, runHOps c4ops = some h ∧
    occCount h.nodes = 0 ∧ h.cap = 8 ∧ h.size = W - 1 ∧
    ¬ (2 * h.size ≤ h.cap) := by
  refine ⟨_, rfl, rfl, rfl, rfl, by decide⟩

/-- Claim C5: the key-order vector holds exactly the live keys in insertion
order — corrected: `json_hmap_put` pushes the key before discovering that it
overwrites a live entry, so a duplicate-key put leaves two vector entries
for one live key; the claim holds (in addition to the C1 provisos) when no
put hits a live key and all deletions are ordered (`json_pop_ordered`). -/
theorem C5_vec_insertion_order {V : Type} (ops : List (HOp V))
    (hg : GoodKeys (ops.map HOp.key)) (hz : ZeroGarbage ops)
    (hlen : 4 * ops.length + 16 ≤ 2 ^ 62)
    (hclean : cleanOps [] ops = true) :
    ∃ h', runHOps ops = some h' ∧
      h'.vec.data = (specState ops).map Prod.fst := by
  obtain ⟨h', hrun, hI, hstored, hocc, hks, hnd, hvec⟩ := runHOps_spec hg hz hlen
  refine ⟨h', hrun, ?_⟩
  rw [hvec]
  exact clean_vec_eq ops [] [] hclean rfl List.nodup_nil

/-- The literal claim C5 fails on the code: putting the same key twice
leaves one live entry but two copies of the key in the key-order vector, so
iteration (and hence serialization) visits the key twice. -/
theorem C5_cex : ∃ h : Hmap Nat,
    runHOps [.put [97] 1 0, .put [97] 2 0] = some h ∧
    h.vec.data = [[97], [97]] ∧ occCount h.nodes = 1 ∧
    (specState [(.put [97] 1 0 : HOp Nat), .put [97] 2 0]).map Prod.fst
      = [[97]] := by
  refine ⟨_, rfl, rfl, rfl, rfl⟩

theorem C5_witness : ∃ h', runHOps c1ops = some h' ∧
    h'.vec.data = (specState c1ops).map Prod.fst :=
  C5_vec_insertion_order c1ops
    (by unfold GoodKeys; constructor <;> decide)
    (by
      intro op hop k v g he
      simp only [c1ops, List.mem_cons, List.not_mem_nil, or_false] at hop
      rcases hop with rfl | rfl | rfl
      · injection he with h1 h2 h3
        omega
      · injection he with h1 h2 h3
        omega
      · exact HOp.noConfusion he)
    (by decide)
    (by decide)

/-- Claim C6: every grammar value is accepted as document root — corrected:
`json_parse` accepts only an object, an array, or a whitespace-only
document as the root ("invalid json root"); a bare string, number, `true`,
`false` or `null` is rejected. -/
theorem C6_root_object_or_array :
    (∀ t r, json_parse t = .ok (some r) →
      (∃ ps, r = PVal.obj ps) ∨ (∃ es, r = PVal.arr es)) ∧
    (∀ t, byteAt t (json_next_token t 0) ≠ 123 →
      byteAt t (json_next_token t 0) ≠ 91 →
      byteAt t (json_next_token t 0) ≠ 0 →
      json_parse t = .error ()) ∧
    json_parse [123, 125] = .ok (some (PVal.obj [])) ∧
    json_parse [32, 91, 93, 32] = .ok (some (PVal.arr [])) :=
  ⟨json_parse_root_shape, json_parse_reject, rfl, rfl⟩

/-- The literal claim C6 fails on the code: the documents `null`, `true`,
`1` and `"a"` are all rejected although each is a value of the grammar. -/
theorem C6_cex :
    json_parse [110, 117, 108, 108] = .error () ∧
    json_parse [116, 114, 117, 101] = .error () ∧
    json_parse [49] = .error () ∧
    json_parse [34, 97, 34] = .error () :=
  ⟨rfl, rfl, rfl, rfl⟩

theorem C6_witness : json_parse [52, 50] = .error () :=
  C6_root_object_or_array.2.1 [52, 50] (by decide) (by decide) (by decide)

/-- Claim C7: mini-mode serialization of `{"a":1}` is exactly the bytes
`{"a":1}` plus one newline (no space after `:` or `,`), and in every mode
the output ends in exactly one trailing line break (for any tree whose
serialized body contains no NUL byte — true of every tree the C program
can build). -/
theorem C7_mini_serialization :
    json_serialize (PVal.obj [([97], PVal.num 1)]) true 2
      = [123, 34, 97, 34, 58, 49, 125, 10] ∧
    (∀ (v : PVal) (mini : Bool) (ind : Nat),
      (0 : Nat) ∉ serializeValueF (pvalSize v) mini ind 0 v →
      ∃ body, json_serialize v mini ind = body ++ [10] ∧
        body.getLast? ≠ some 10) :=
  ⟨rfl, fun v mini ind h0 => serialize_trailing v mini ind h0⟩

theorem C7_witness : ∃ body,
    json_serialize PVal.tru false 2 = body ++ [10] ∧
    body.getLast? ≠ some 10 :=
  C7_mini_serialization.2 PVal.tru false 2 (by decide)

/-- Claim C8: a Number serializes as a bare integer literal exactly when
`(long)x == x`, otherwise as fixed-point with exactly six fractional
digits; `1.5` prints as `1.500000`, and no output byte is ever `e` or
`E`. -/
theorem C8_number_formatting :
    (∀ q : ℚ, (ratTrunc q : ℚ) = q → numToStr q = intDecimal (ratTrunc q)) ∧
    (∀ q : ℚ, (ratTrunc q : ℚ) ≠ q → ∃ ds, ds.length = 6 ∧
      (∀ d ∈ ds, 48 ≤ d ∧ d ≤ 57) ∧
      numToStr q = ((if q < 0 then [45] else [])
        ++ natDecimal ((⌊|q| * 1000000 + 1 / 2⌋).toNat / 1000000))
        ++ [46] ++ ds) ∧
    numToStr (3 / 2) = [49, 46, 53, 48, 48, 48, 48, 48] ∧
    (∀ q : ℚ, ∀ b ∈ numToStr q, b ≠ 101 ∧ b ≠ 69) := by
  refine ⟨?_, ?_, rfl, ?_⟩
  · intro q hq
    unfold numToStr
    rw [if_pos hq]
  · intro q hq
    obtain ⟨ds, h1, h2, h3⟩ := fixed6_shape q
    refine ⟨ds, h1, h2, ?_⟩
    unfold numToStr
    rw [if_neg hq]
    exact h3
  · intro q b hb
    rcases numToStr_mem q b hb with h | h | h <;> omega

theorem C8_witness : numToStr (5 : ℚ) = intDecimal (ratTrunc (5 : ℚ)) :=
  C8_number_formatting.1 5 (by decide)

/-- Claim C9: deleting an absent key returns NULL and leaves the map
unchanged — corrected to "a key whose hash is absent": the code compares
only hashes, so deleting a never-inserted key that collides with a stored
one returns that entry's value and removes it (the C1 nonzero-hash proviso
also applies). -/
theorem C9_del_absent {V : Type} {h : Hmap V} (hI : HInv h) (key : Key)
    (order : Bool) (hnz : json_hash_str key ≠ 0)
    (hnl : ¬ HashLive h (json_hash_str key)) :
    json_hmap_del h key order = some (none, h) :=
  hmap_del_absent hI key order hnz hnl

/-- The literal claim C9 fails on the code: deleting the never-inserted key
`kColl2` from a map holding only `kColl1` (equal hash, different bytes)
returns `kColl1`'s value and empties the table. -/
theorem C9_cex : ∃ h1 res,
    json_hmap_put (json_hmap_make Nat 8) kColl1 11 0 = some h1 ∧
    json_hmap_del h1 kColl2 false = some res ∧
    res.1 = some 11 ∧ kColl2 ≠ kColl1 ∧
    occCount h1.nodes = 1 ∧ occCount res.2.nodes = 0 := by
  refine ⟨_, _, rfl, rfl, rfl, by decide, rfl, rfl⟩

theorem C9_witness :
    json_hmap_del (json_hmap_make Nat 8) [97] true
      = some (none, json_hmap_make Nat 8) :=
  C9_del_absent hinv_make [97] true (by decide)
    (liveN_replicate_false 8 8 (json_hash_str [97]))

/-- Claim C10: the hashmap identifies entries solely by hash equality:
`get` literally depends only on the key's hash, and for the concrete
distinct colliding keys `kColl1`/`kColl2`, a put of `kColl1` is visible
through `get kColl2`, and a put of `kColl2` overwrites `kColl1`'s entry in
place. -/
theorem C10_hash_only_identity :
    (∀ (V : Type) (h : Hmap V) (k1 k2 : Key),
      json_hash_str k1 = json_hash_str k2 →
      json_hmap_get h k1 = json_hmap_get h k2) ∧
    json_hash_str kColl1 = json_hash_str kColl2 ∧ kColl1 ≠ kColl2 ∧
    (∃ h1, json_hmap_put (json_hmap_make Nat 8) kColl1 11 0 = some h1 ∧
      json_hmap_get h1 kColl2 = some (some 11) ∧
      ∃ h2, json_hmap_put h1 kColl2 22 0 = some h2 ∧
        json_hmap_get h2 kColl1 = some (some 22) ∧
        occCount h2.nodes = 1) := by
  refine ⟨?_, by decide, by decide, ?_⟩
  · intro V h k1 k2 he
    unfold json_hmap_get json_hmap_get_node
    rw [he]
  · exact ⟨_, rfl, rfl, _, rfl, rfl, rfl⟩

theorem C10_witness :
    json_hmap_get (json_hmap_make Nat 8) kColl1
      = json_hmap_get (json_hmap_make Nat 8) kColl2 :=
  C10_hash_only_identity.1 Nat (json_hmap_make Nat 8) kColl1 kColl2 (by decide)


end GhhJson